import Mathlib

/-!
# Disk B+Tree nodes (`lib/btrees/disk_btrees.go`) and the in-memory B-tree

A shallow embedding of the byte-level node codec, the copy-on-write mutators,
the split engine and the insert orchestrator, and of the insertion of the
in-memory B-tree (`lib/btrees/btrees.go`), followed by theorems about them.

Modelling conventions

* A Go `[]byte` is a `BPlusNode`: the bytes of its backing array from the
  slice's first element up to its capacity (`mem`), and its length (`len`).
  Go checks `s[lo:hi]` against the capacity and `s[lo:]` against the length;
  the embedding keeps the two apart in the same way.
* A byte is a `Nat`, read modulo 256.  `uint16` arithmetic is `Nat` arithmetic
  reduced modulo 65536 (`u16`, `sub16`), `uint64` values are reduced modulo
  `2^64` when stored.
* A function that mutates its `new` argument in place returns the mutated
  buffer.  A Go panic and a returned `error` are both `Except.error`, told
  apart by the `Fault`.
* The page store callbacks `get`, `new`, `del` act on an explicit store state,
  which each of them may change.  The functions that call them come in a second
  form (`treeInsertRun`) that keeps the store state of a failed run.
-/

namespace btrees

/-! ## Constants -/

def HEADER : Nat := 4
def BTREE_PAGE_SIZE : Nat := 4096
def BTREE_MAX_KEY_SIZE : Nat := 1000
def BTREE_MAX_VAL_SIZE : Nat := 3000
def BNODE_INTERNAL : Nat := 1
def BNODE_LEAF : Nat := 2

/-! ## Machine integers and little-endian bytes -/

/-- Truncation to `uint16`. -/
def u16 (x : Nat) : Nat := x % 65536

/-- Subtraction of two `uint16` values, wrapping around. -/
def sub16 (a b : Nat) : Nat := (a % 65536 + 65536 - b % 65536) % 65536

/-- Value of a little-endian byte string. -/
def leNat : List Nat → Nat
  | [] => 0
  | b :: bs => b % 256 + 256 * leNat bs

/-- The `n` little-endian bytes of `v` (the low `8 * n` bits). -/
def leBytes : Nat → Nat → List Nat
  | 0, _ => []
  | n + 1, v => v % 256 :: leBytes n (v / 256)

/-- Go `bytes.Compare`: lexicographic comparison, result `-1`, `0` or `1`. -/
def bytesCompare : List Nat → List Nat → Int
  | [], [] => 0
  | [], _ :: _ => -1
  | _ :: _, [] => 1
  | a :: as, b :: bs =>
    if a < b then -1 else if b < a then 1 else bytesCompare as bs

/-- Go `bytes.Equal`. -/
def bytesEqual (a b : List Nat) : Bool := decide (a = b)

/-! ## Buffers -/

/-- Failures: the `error` value of the accessors (`indexOutOfRange`), a Go
run-time slice or index panic (`sliceBounds`), the two explicit panics of the
source, and exhaustion of the recursion budget of the embedding. -/
inductive Fault where
  | indexOutOfRange
  | sliceBounds
  | leftTooBig
  | unknownType
  | fuel
  deriving DecidableEq, Repr

deriving instance DecidableEq for Except

/-- A Go byte slice: backing bytes up to the capacity, and the length. -/
structure BPlusNode where
  mem : List Nat
  len : Nat
  deriving DecidableEq, Repr

/-- Go `make([]byte, n)`. -/
def make (n : Nat) : BPlusNode := ⟨List.replicate n 0, n⟩

/-- Capacity of a slice. -/
def BPlusNode.cap (node : BPlusNode) : Nat := node.mem.length

/-- The `n` bytes of `mem` from position `pos`. -/
def rd (mem : List Nat) (pos n : Nat) : List Nat := (mem.drop pos).take n

/-- Overwrite `mem` from position `pos` with `src`. -/
def wr (mem : List Nat) (pos : Nat) (src : List Nat) : List Nat :=
  mem.take pos ++ src ++ mem.drop (pos + src.length)

/-- The bytes of `node[lo:hi]`; Go requires `lo ≤ hi ≤ cap(node)`. -/
def sliceRange (node : BPlusNode) (lo hi : Nat) : Except Fault (List Nat) :=
  if lo ≤ hi ∧ hi ≤ node.cap then .ok (rd node.mem lo (hi - lo))
  else .error .sliceBounds

/-- The bytes of `node[lo:][:n]`; Go requires `lo ≤ len(node)` and
`n ≤ cap(node) - lo`. -/
def sliceFromTo (node : BPlusNode) (lo n : Nat) : Except Fault (List Nat) :=
  if lo ≤ node.len ∧ lo + n ≤ node.cap then .ok (rd node.mem lo n)
  else .error .sliceBounds

/-- The bytes of `node[lo:]`; Go requires `lo ≤ len(node)`. -/
def sliceFrom (node : BPlusNode) (lo : Nat) : Except Fault (List Nat) :=
  if lo ≤ node.len then .ok (rd node.mem lo (node.len - lo))
  else .error .sliceBounds

/-- Go `binary.LittleEndian.Uint16(node[lo:hi])`. -/
def getU16Range (node : BPlusNode) (lo hi : Nat) : Except Fault Nat :=
  if lo ≤ hi ∧ hi ≤ node.cap ∧ 2 ≤ hi - lo then .ok (leNat (rd node.mem lo 2))
  else .error .sliceBounds

/-- Go `binary.LittleEndian.Uint16(node[lo:])`. -/
def getU16From (node : BPlusNode) (lo : Nat) : Except Fault Nat :=
  if lo ≤ node.len ∧ 2 ≤ node.len - lo then .ok (leNat (rd node.mem lo 2))
  else .error .sliceBounds

/-- Go `binary.LittleEndian.PutUint16(node[lo:hi], v)`. -/
def putU16Range (node : BPlusNode) (lo hi v : Nat) : Except Fault BPlusNode :=
  if lo ≤ hi ∧ hi ≤ node.cap ∧ 2 ≤ hi - lo then
    .ok { node with mem := wr node.mem lo (leBytes 2 v) }
  else .error .sliceBounds

/-- Go `binary.LittleEndian.PutUint16(node[lo:], v)`. -/
def putU16From (node : BPlusNode) (lo v : Nat) : Except Fault BPlusNode :=
  if lo ≤ node.len ∧ 2 ≤ node.len - lo then
    .ok { node with mem := wr node.mem lo (leBytes 2 v) }
  else .error .sliceBounds

/-- Go `copy(node[lo:], src)`: copies `min(len(node) - lo, len(src))` bytes. -/
def copyFrom (node : BPlusNode) (lo : Nat) (src : List Nat) :
    Except Fault BPlusNode :=
  if lo ≤ node.len then
    .ok { node with mem := wr node.mem lo (src.take (node.len - lo)) }
  else .error .sliceBounds

/-! ## Node codec -/

/-- Method `btype` of the source. -/
def btype (node : BPlusNode) : Except Fault Nat :=
  getU16Range node 0 2

/-- Method `nkeys` of the source. -/
def nkeys (node : BPlusNode) : Except Fault Nat :=
  getU16Range node 2 4

/-- Method `setHeader` of the source. -/
def setHeader (node : BPlusNode) (btype nkeys : Nat) : Except Fault BPlusNode := do
  let node ← putU16Range node 0 2 btype
  putU16Range node 2 4 nkeys

/-- Method `getPtr` of the source; `idx` is a `uint16`. -/
def getPtr (node : BPlusNode) (idx : Nat) : Except Fault Nat := do
  let n ← nkeys node
  if idx ≥ n then throw Fault.indexOutOfRange
  let offset := u16 (HEADER + 8 * idx)
  let b ← sliceRange node offset (u16 (offset + 8))
  if b.length < 8 then throw Fault.sliceBounds
  pure (leNat b)

/-- Method `setPtr` of the source. -/
def setPtr (node : BPlusNode) (idx val : Nat) : Except Fault BPlusNode := do
  let n ← nkeys node
  if idx ≥ n then throw Fault.indexOutOfRange
  let offset := u16 (HEADER + 8 * idx)
  let hi := u16 (offset + 8)
  if offset ≤ hi ∧ hi ≤ node.cap ∧ 8 ≤ hi - offset then
    pure { node with mem := wr node.mem offset (leBytes 8 val) }
  else throw Fault.sliceBounds

/-- Function `offsetPos` of the source. -/
def offsetPos (node : BPlusNode) (idx : Nat) : Except Fault Nat := do
  let n ← nkeys node
  if idx ≤ 0 ∨ idx > n then throw Fault.indexOutOfRange
  pure (u16 (HEADER + 8 * n + 2 * (idx - 1)))

/-- Method `getOffset` of the source. -/
def getOffset (node : BPlusNode) (idx : Nat) : Except Fault Nat :=
  if idx = 0 then pure 0
  else do
    let offset ← offsetPos node idx
    getU16From node offset

/-- Method `setOffset` of the source. -/
def setOffset (node : BPlusNode) (idx offset : Nat) : Except Fault BPlusNode := do
  let pos ← offsetPos node idx
  putU16From node pos offset

/-- Method `kvPos` of the source. -/
def kvPos (node : BPlusNode) (idx : Nat) : Except Fault Nat := do
  let offset ← getOffset node idx
  let n ← nkeys node
  pure (u16 (HEADER + 8 * n + 2 * n + offset))

/-- Method `getKey` of the source. -/
def getKey (node : BPlusNode) (idx : Nat) : Except Fault (List Nat) := do
  let pos ← kvPos node idx
  let klen ← getU16Range node pos (u16 (pos + 2))
  sliceFromTo node (u16 (pos + 4)) klen

/-- Method `getVal` of the source. -/
def getVal (node : BPlusNode) (idx : Nat) : Except Fault (List Nat) := do
  let pos ← kvPos node idx
  let klen ← getU16Range node pos (u16 (pos + 2))
  let vlen ← getU16Range node (u16 (pos + 2)) (u16 (pos + 4))
  sliceFromTo node (u16 (pos + 4 + klen)) vlen

/-- Method `nbytes` of the source. -/
def nbytes (node : BPlusNode) : Except Fault Nat := do
  let n ← nkeys node
  kvPos node n

/-! ## Floor lookup -/

/-- The `for` loop of `nodeLookupLE`, entered with index `i` and `r` indices
left below `nkeys` (so `i < nkeys` holds exactly while `r` is not zero; `i`
stays below `nkeys ≤ 65535`, the increment never wraps). -/
def lookupLoop (node : BPlusNode) (key : List Nat) :
    Nat → Nat → Nat → Except Fault Nat
  | 0, _, found => pure found
  | r + 1, i, found => do
    let k ← getKey node i
    let cmp := bytesCompare k key
    let found := if cmp ≤ 0 then i else found
    if cmp ≥ 0 then pure found
    else lookupLoop node key r (i + 1) found

/-- Function `nodeLookupLE` of the source. -/
def nodeLookupLE (node : BPlusNode) (key : List Nat) : Except Fault Nat := do
  let n ← nkeys node
  lookupLoop node key (n - 1) 1 0

/-! ## Copy-on-write mutators -/

/-- Function `nodeAppendKV` of the source. -/
def nodeAppendKV (new : BPlusNode) (idx ptr : Nat) (key val : List Nat) :
    Except Fault BPlusNode := do
  let new ← setPtr new idx ptr
  let pos ← kvPos new idx
  let new ← putU16Range new pos (u16 (pos + 2)) (u16 key.length)
  let new ← putU16Range new (u16 (pos + 2)) (u16 (pos + 4)) (u16 val.length)
  let new ← copyFrom new (u16 (pos + 4)) key
  let new ← copyFrom new (u16 (pos + 4 + u16 key.length)) val
  let old_offset ← getOffset new idx
  setOffset new (u16 (idx + 1))
    (u16 (old_offset + 4 + u16 (key.length + val.length)))

/-- Function `nodeAppendRange` of the source: copies `n` pointers and `n`
offset slots, and nothing else. -/
def nodeAppendRange (new old : BPlusNode) (dstNew srcOld n : Nat) :
    Except Fault BPlusNode :=
  if n = 0 then pure new
  else do
    let ptrs ← sliceFromTo old (u16 (HEADER + 8 * srcOld)) (u16 (8 * n))
    let new ← copyFrom new (u16 (HEADER + 8 * dstNew)) ptrs
    let nn ← nkeys new
    let oldN ← nkeys old
    let offs ← sliceFromTo old (u16 (HEADER + 8 * oldN + 2 * srcOld)) (u16 (2 * n))
    copyFrom new (u16 (HEADER + 8 * nn + 2 * dstNew)) offs

/-- Function `leafInsert` of the source. -/
def leafInsert (new old : BPlusNode) (idx : Nat) (key val : List Nat) :
    Except Fault BPlusNode := do
  let oldN ← nkeys old
  let new ← setHeader new BNODE_LEAF (u16 (oldN + 1))
  let new ← nodeAppendRange new old 0 0 idx
  let new ← nodeAppendKV new idx 0 key val
  nodeAppendRange new old (u16 (idx + 1)) idx (sub16 oldN idx)

/-- Function `leafUpdate` of the source. -/
def leafUpdate (new old : BPlusNode) (idx : Nat) (key val : List Nat) :
    Except Fault BPlusNode := do
  let oldN ← nkeys old
  let new ← setHeader new BNODE_LEAF oldN
  let new ← nodeAppendRange new old 0 0 idx
  let new ← nodeAppendKV new idx 0 key val
  nodeAppendRange new old (u16 (idx + 1)) (u16 (idx + 1)) (sub16 (sub16 oldN idx) 1)

/-- The tree handle of the source: root page and the page store callbacks,
acting on a store state of type `σ`. -/
structure BPlusTree (σ : Type) where
  root : Nat
  get : σ → Nat → BPlusNode × σ
  new : σ → BPlusNode → Nat × σ
  del : σ → Nat → σ

/-- The `range kids` loop of `nodeReplaceKidNode`, entered at position `i`. -/
def replaceKidsLoop {σ : Type} (tree : BPlusTree σ) (idx : Nat) :
    List BPlusNode → Nat → σ → BPlusNode → Except Fault (BPlusNode × σ)
  | [], _, st, new => pure (new, st)
  | node :: rest, i, st, new => do
    let (ptr, st) := tree.new st node
    let k ← getKey node 0
    let new ← nodeAppendKV new (u16 (idx + u16 i)) ptr k []
    replaceKidsLoop tree idx rest (i + 1) st new

/-- Function `nodeReplaceKidNode` of the source. -/
def nodeReplaceKidNode {σ : Type} (tree : BPlusTree σ) (st : σ)
    (new old : BPlusNode) (idx : Nat) (kids : List BPlusNode) :
    Except Fault (BPlusNode × σ) := do
  let inc := u16 kids.length
  let oldN ← nkeys old
  let new ← setHeader new BNODE_INTERNAL (sub16 (u16 (oldN + inc)) 1)
  let new ← nodeAppendRange new old 0 0 idx
  let (new, st) ← replaceKidsLoop tree idx kids 0 st new
  let new ← nodeAppendRange new old (u16 (idx + inc)) (u16 (idx + 1))
    (sub16 (sub16 oldN idx) 1)
  pure (new, st)

/-! ## Split engine -/

/-- Function `nodeSplit2` of the source; returns the mutated `left` and
`right`. -/
def nodeSplit2 (left right old : BPlusNode) :
    Except Fault (BPlusNode × BPlusNode) := do
  let n ← nkeys old
  let mid := n / 2
  let all ← sliceFrom old 0
  let left ← copyFrom left 0 all
  let bt ← btype old
  let left ← setHeader left bt mid
  let tail ← sliceFrom old mid
  let right ← copyFrom right 0 tail
  let bt ← btype old
  let right ← setHeader right bt (sub16 n mid)
  pure (left, right)

/-- Go `node[:n]`; requires `n ≤ cap(node)`. -/
def resliceTo (node : BPlusNode) (n : Nat) : Except Fault BPlusNode :=
  if n ≤ node.cap then .ok { node with len := n } else .error .sliceBounds

/-- The `nil` slice, filling the unused entries of the result array. -/
def nilNode : BPlusNode := ⟨[], 0⟩

/-- Function `nodeSplit3` of the source; the `[3]BPlusNode` array is a list of
three nodes. -/
def nodeSplit3 (old : BPlusNode) : Except Fault (Nat × List BPlusNode) := do
  let nb ← nbytes old
  if nb ≤ BTREE_PAGE_SIZE then
    let old ← resliceTo old BTREE_PAGE_SIZE
    pure (1, [old, nilNode, nilNode])
  else do
    let (left, right) ←
      nodeSplit2 (make (2 * BTREE_PAGE_SIZE)) (make BTREE_PAGE_SIZE) old
    let lb ← nbytes left
    if lb ≤ BTREE_PAGE_SIZE then
      let left ← resliceTo left BTREE_PAGE_SIZE
      pure (2, [left, right, nilNode])
    else do
      let (leftleft, middle) ←
        nodeSplit2 (make BTREE_PAGE_SIZE) (make BTREE_PAGE_SIZE) left
      let llb ← nbytes leftleft
      if llb > BTREE_PAGE_SIZE then throw Fault.leftTooBig
      pure (3, [leftleft, middle, right])

/-! ## Insert orchestrator -/

/-- Function `nodeInsert` of the source; `descend` is the recursive call of
`treeInsert`. -/
def nodeInsert {σ : Type} (tree : BPlusTree σ)
    (descend : σ → BPlusNode → List Nat → List Nat → Except Fault (BPlusNode × σ))
    (st : σ) (new old : BPlusNode) (idx : Nat) (key val : List Nat) :
    Except Fault (BPlusNode × σ) := do
  let kptr ← getPtr old idx
  let (kid, st) := tree.get st kptr
  let (knode, st) ← descend st kid key val
  let (nsplit, split) ← nodeSplit3 knode
  let st := tree.del st kptr
  nodeReplaceKidNode tree st new old idx (split.take nsplit)

/-- The body of `treeInsert`, with the recursive call as a parameter. -/
def treeInsertBody {σ : Type} (tree : BPlusTree σ)
    (descend : σ → BPlusNode → List Nat → List Nat → Except Fault (BPlusNode × σ))
    (st : σ) (node : BPlusNode) (key val : List Nat) :
    Except Fault (BPlusNode × σ) := do
  let new := make (2 * BTREE_PAGE_SIZE)
  let idx ← nodeLookupLE node key
  let bt ← btype node
  if bt = BNODE_LEAF then do
    let k ← getKey node idx
    if bytesEqual key k then do
      let new ← leafUpdate new node idx key val
      pure (new, st)
    else do
      let new ← leafInsert new node (u16 (idx + 1)) key val
      pure (new, st)
  else if bt = BNODE_INTERNAL then
    nodeInsert tree descend st new node idx key val
  else throw Fault.unknownType

/-- Function `treeInsert` of the source.  The first argument bounds the depth
of the recursion through `nodeInsert`; a leaf needs none. -/
def treeInsert {σ : Type} (tree : BPlusTree σ) :
    Nat → σ → BPlusNode → List Nat → List Nat → Except Fault (BPlusNode × σ)
  | 0 => treeInsertBody tree (fun _ _ _ _ => .error Fault.fuel)
  | fuel + 1 => treeInsertBody tree (treeInsert tree fuel)

/-! ## Node layout

The layout comment of the source, read directly off the bytes: header, pointer
table, offset table, then the records.  On a well-formed node the accessors of
the source return exactly these values (lemmas `nkeys_eq` to `getPtr_eq`). -/

/-- The little-endian 16-bit value stored at `pos`. -/
def rawU16 (node : BPlusNode) (pos : Nat) : Nat := leNat (rd node.mem pos 2)

/-- Header field `type`. -/
def kind (node : BPlusNode) : Nat := rawU16 node 0

/-- Header field `nkeys`. -/
def count (node : BPlusNode) : Nat := rawU16 node 2

/-- Entry `i` of the pointer table. -/
def ptrAt (node : BPlusNode) (i : Nat) : Nat := leNat (rd node.mem (HEADER + 8 * i) 8)

/-- End offset of record `i - 1`, that is the start offset of record `i`. -/
def offsetAt (node : BPlusNode) (i : Nat) : Nat :=
  if i = 0 then 0 else rawU16 node (HEADER + 8 * count node + 2 * (i - 1))

/-- Byte position of record `i`. -/
def recPos (node : BPlusNode) (i : Nat) : Nat :=
  HEADER + 10 * count node + offsetAt node i

/-- Field `klen` of record `i`. -/
def klenAt (node : BPlusNode) (i : Nat) : Nat := rawU16 node (recPos node i)

/-- Field `vlen` of record `i`. -/
def vlenAt (node : BPlusNode) (i : Nat) : Nat := rawU16 node (recPos node i + 2)

/-- Key bytes of record `i`. -/
def keyAt (node : BPlusNode) (i : Nat) : List Nat :=
  rd node.mem (recPos node i + 4) (klenAt node i)

/-- Value bytes of record `i`. -/
def valAt (node : BPlusNode) (i : Nat) : List Nat :=
  rd node.mem (recPos node i + 4 + klenAt node i) (vlenAt node i)

/-- Size in bytes of the node: the end of its last record. -/
def nodeSize (node : BPlusNode) : Nat := recPos node (count node)

/-- A well-formed node: the slice is a valid Go slice, the offset table is
cumulative (each record ends where the next one starts, record `i` taking
`4 + klen + vlen` bytes), and the whole node lies inside the slice and is
addressable with 16-bit positions. -/
def WellFormed (node : BPlusNode) : Prop :=
  node.len ≤ node.cap ∧ nodeSize node ≤ node.len ∧ nodeSize node < 65536 ∧
  ∀ i, i < count node →
    offsetAt node (i + 1) = offsetAt node i + 4 + klenAt node i + vlenAt node i

instance (node : BPlusNode) : Decidable (WellFormed node) := by
  unfold WellFormed; infer_instance

/-- Keys strictly ascending in the order of `bytes.Compare`. -/
def StrictAsc (node : BPlusNode) : Prop :=
  ∀ i, i < count node - 1 → bytesCompare (keyAt node i) (keyAt node (i + 1)) < 0

instance (node : BPlusNode) : Decidable (StrictAsc node) := by
  unfold StrictAsc; infer_instance

/-- Every key and value of the node respects the size limits. -/
def WithinLimits (node : BPlusNode) : Prop :=
  ∀ i, i < count node →
    klenAt node i ≤ BTREE_MAX_KEY_SIZE ∧ vlenAt node i ≤ BTREE_MAX_VAL_SIZE

instance (node : BPlusNode) : Decidable (WithinLimits node) := by
  unfold WithinLimits; infer_instance

/-! ## Reading whole nodes -/

/-- The keys of a node read in order with `getKey(0 .. nkeys-1)`. -/
def keysOf (node : BPlusNode) : Except Fault (List (List Nat)) := do
  let n ← nkeys node
  (List.range n).mapM (getKey node)

/-- The values of a node read in order with `getVal(0 .. nkeys-1)`. -/
def valsOf (node : BPlusNode) : Except Fault (List (List Nat)) := do
  let n ← nkeys node
  (List.range n).mapM (getVal node)

/-- The page ids that `tree.new` returns for the kids, in order. -/
def kidPtrs {σ : Type} (tree : BPlusTree σ) : σ → List BPlusNode → List Nat
  | _, [] => []
  | st, kid :: rest => (tree.new st kid).1 :: kidPtrs tree (tree.new st kid).2 rest

/-- Entry `t` of the node holds pointer `ptr`, key `key` and value `val`. -/
def HasEntry (node : BPlusNode) (t ptr : Nat) (key val : List Nat) : Prop :=
  ptrAt node t = ptr ∧
  rd node.mem (recPos node t) 2 = leBytes 2 key.length ∧
  rd node.mem (recPos node t + 2) 2 = leBytes 2 val.length ∧
  rd node.mem (recPos node t + 4) key.length = key ∧
  rd node.mem (recPos node t + 4 + key.length) val.length = val

/-! ## Concrete inputs

Builders for concrete pages, two page stores, and the pages used as inputs
below. -/

/-- The cumulative end offsets of a list of records. -/
def endOffsets : Nat → List (Nat × List Nat × List Nat) → List Nat
  | _, [] => []
  | acc, (_, k, v) :: rest =>
    leBytes 2 (acc + 4 + k.length + v.length) ++
      endOffsets (acc + 4 + k.length + v.length) rest

/-- The bytes of a node of the given kind holding the entries `(ptr, key, val)`. -/
def nodeBytes (kind : Nat) (entries : List (Nat × List Nat × List Nat)) : List Nat :=
  leBytes 2 kind ++ leBytes 2 entries.length ++
    (entries.map (fun e => leBytes 8 e.1)).flatten ++
    endOffsets 0 entries ++
    (entries.map (fun e =>
      leBytes 2 e.2.1.length ++ leBytes 2 e.2.2.length ++ e.2.1 ++ e.2.2)).flatten

/-- A buffer of `size` bytes (length and capacity) that starts with the given
node and is zero after it. -/
def mkNode (kind : Nat) (entries : List (Nat × List Nat × List Nat)) (size : Nat) :
    BPlusNode :=
  ⟨nodeBytes kind entries ++
    List.replicate (size - (nodeBytes kind entries).length) 0, size⟩

/-- A page store that is never consulted: inserting into a leaf does not touch
the store. -/
def noStore : BPlusTree Unit :=
  ⟨0, fun _ _ => (nilNode, ()), fun _ _ => (0, ()), fun _ _ => ()⟩

/-- A page store that hands out the page ids 1, 2, 3, ... -/
def idStore : BPlusTree Nat :=
  ⟨0, fun s _ => (nilNode, s), fun s _ => ((s + 1) % 2 ^ 64, s + 1), fun s _ => s⟩

/-- The empty leaf page: kind Leaf, count 0, every other byte zero. -/
def emptyLeaf : BPlusNode := mkNode BNODE_LEAF [] BTREE_PAGE_SIZE

/-- A leaf page with the single record `"a" → "x"`. -/
def leafA : BPlusNode := mkNode BNODE_LEAF [(0, [97], [120])] BTREE_PAGE_SIZE

/-- A leaf page holding the single record `"k1" → "v1"`. -/
def leafK1 : BPlusNode :=
  mkNode BNODE_LEAF [(0, [107, 49], [118, 49])] BTREE_PAGE_SIZE

/-- A leaf page with the records `"a" → "x"` and `"c" → "z"`. -/
def leafAC : BPlusNode :=
  mkNode BNODE_LEAF [(0, [97], [120]), (0, [99], [122])] BTREE_PAGE_SIZE

/-- A leaf page with the records `"m" → 1` and `"n" → 2`. -/
def leafMN : BPlusNode :=
  mkNode BNODE_LEAF [(0, [109], [1]), (0, [110], [2])] BTREE_PAGE_SIZE

/-- A leaf page with the record `"p" → 3`. -/
def leafP : BPlusNode :=
  mkNode BNODE_LEAF [(0, [112], [3])] BTREE_PAGE_SIZE

/-- An internal page with the entries `"" → page 1` and `"m" → page 2`. -/
def internalM : BPlusNode :=
  mkNode BNODE_INTERNAL [(1, [], []), (2, [109], [])] BTREE_PAGE_SIZE

/-- A two-page leaf buffer holding five records `"a".."e"`, each with a value
of 1000 bytes: 5079 bytes in all. -/
def bigLeaf : BPlusNode :=
  mkNode BNODE_LEAF
    ((List.range 5).map (fun i => (0, [97 + i], List.replicate 1000 7)))
    (2 * BTREE_PAGE_SIZE)

/-- A two-page internal buffer holding seven keys of 700 bytes each (5002 bytes
in all); entry 5 points to page 1048576. -/
def bigInternal7 : BPlusNode :=
  mkNode BNODE_INTERNAL
    ((List.range 7).map (fun i =>
      (if i = 5 then 1048576 else i + 1, List.replicate 700 (i + 1), [])))
    (2 * BTREE_PAGE_SIZE)

/-- A two-page internal buffer holding ten keys of 500 bytes each (5144 bytes
in all); entry 2 points to page 268435456 and entry 6 to page 5000. -/
def bigInternal10 : BPlusNode :=
  mkNode BNODE_INTERNAL
    ((List.range 10).map (fun i =>
      (if i = 6 then 5000 else if i = 2 then 268435456 else i + 1,
        List.replicate 500 (i + 1), [])))
    (2 * BTREE_PAGE_SIZE)

/-- A two-page buffer with count 2 whose offset table reads 5000, 10: its
`nbytes()` is 34, yet its record 1 (key `"z"`) starts at byte 5024, beyond the
first page. -/
def strayLeaf : BPlusNode :=
  ⟨[2, 0, 2, 0] ++ List.replicate 16 0 ++ [136, 19, 10, 0] ++ List.replicate 5000 0 ++
    [1, 0, 0, 0, 122] ++ List.replicate 3163 0, 2 * BTREE_PAGE_SIZE⟩

/-! ## State-passing form of `setPtr`, and the journal of page store calls -/

/-- Function `setPtr` of the source in state-passing form: the buffer after the
call, and what the call returned (`error` value or panic).  The source writes
the buffer only after the index check and the slice expression have passed. -/
def setPtrIn (node : BPlusNode) (idx val : Nat) : BPlusNode × Except Fault Unit :=
  match nkeys node with
  | .error e => (node, .error e)
  | .ok n =>
    if idx ≥ n then (node, .error Fault.indexOutOfRange)
    else
      let offset := u16 (HEADER + 8 * idx)
      let hi := u16 (offset + 8)
      if offset ≤ hi ∧ hi ≤ node.cap ∧ 8 ≤ hi - offset then
        ({ node with mem := wr node.mem offset (leBytes 8 val) }, .ok ())
      else (node, .error Fault.sliceBounds)

/-- A call of a page store callback: `get(id)`, `new(node)` with the page id
it returned, `del(id)`. -/
inductive StoreCall where
  | get (id : Nat)
  | new (id : Nat)
  | del (id : Nat)
  deriving DecidableEq, Repr

/-- The page store `tree` with a journal: every callback behaves as in `tree`
and appends its call to the journal kept next to the store state. -/
def journaled {σ : Type} (tree : BPlusTree σ) : BPlusTree (σ × List StoreCall) where
  root := tree.root
  get := fun st id =>
    ((tree.get st.1 id).1, ((tree.get st.1 id).2, st.2 ++ [StoreCall.get id]))
  new := fun st node =>
    ((tree.new st.1 node).1,
      ((tree.new st.1 node).2, st.2 ++ [StoreCall.new (tree.new st.1 node).1]))
  del := fun st id => (tree.del st.1 id, st.2 ++ [StoreCall.del id])

/-- No `get` call comes after a `del` call in the journal. -/
def NoGetAfterDel (calls : List StoreCall) : Prop :=
  ∀ pre post d, calls = pre ++ StoreCall.del d :: post → ∀ g, StoreCall.get g ∉ post

/-- A page store holding the leaf `"m", "n"` as page 2 and the leaf `"a"` as
every other page; it hands out the page ids 1, 2, 3, ... -/
def twoLeafStore : BPlusTree Nat :=
  ⟨0, fun s id => (if id = 2 then leafMN else leafA, s),
    fun s _ => ((s + 1) % 2 ^ 64, s + 1), fun s _ => s⟩

/-- A page of kind 7 with no entries. -/
def kind7 : BPlusNode := mkNode 7 [] BTREE_PAGE_SIZE

/-- The shape of the journal of a run: the calls already made, then `get`
calls only, then no `get` call. -/
def GetsThenRest {σ : Type}
    (run : σ × List StoreCall → BPlusNode → List Nat → List Nat →
      Except Fault (BPlusNode × σ × List StoreCall)) : Prop :=
  ∀ st jr node key val r, run (st, jr) node key val = .ok r →
    ∃ gs ds, r.2.2 = jr ++ gs ++ ds ∧ (∀ c ∈ gs, ∃ g, c = StoreCall.get g) ∧
      ∀ c ∈ ds, ∀ g, c ≠ StoreCall.get g

/-- An internal page with the entries `"a" → page 1`, `"m" → page 2` and
`"t" → page 3`. -/
def internalAMT : BPlusNode :=
  mkNode BNODE_INTERNAL [(1, [97], []), (2, [109], []), (3, [116], [])] BTREE_PAGE_SIZE

/-! ## Building a node with the codec -/

/-- The calls `nodeAppendKV(node, i, ptr, key, val)` of a node builder, for the
records of the list in order, the first one at index `i`. -/
def appendAll : BPlusNode → Nat → List (Nat × List Nat × List Nat) →
    Except Fault BPlusNode
  | node, _, [] => pure node
  | node, i, (ptr, key, val) :: rest => do
    let node ← nodeAppendKV node i ptr key val
    appendAll node (i + 1) rest

/-- A node built in `buf` by `setHeader(kind, n)` followed by
`nodeAppendKV(node, i, ptr_i, key_i, val_i)` for `i = 0 .. n-1` in order. -/
def buildNode (buf : BPlusNode) (kind : Nat) (entries : List (Nat × List Nat × List Nat)) :
    Except Fault BPlusNode := do
  let node ← setHeader buf kind entries.length
  appendAll node 0 entries

/-- Bytes taken by the records: `4 + len(key) + len(val)` each. -/
def recordsSize (entries : List (Nat × List Nat × List Nat)) : Nat :=
  (entries.map (fun e => 4 + e.2.1.length + e.2.2.length)).sum

/-- Total encoded size of a node with the given entries. -/
def encodedSize (entries : List (Nat × List Nat × List Nat)) : Nat :=
  4 + 10 * entries.length + recordsSize entries

/-! ## In-memory B-tree (`lib/btrees/btrees.go`)

A slice of the in-memory tree is the list of its elements: its capacity is
taken to be its length, so that a slice expression is checked against the
length.  A `*BTreeNode` is the node it points to; a function that mutates a node
through a pointer returns the mutated node.  Go `int` arithmetic is reduced to
64 bits. -/

/-- Go `int` arithmetic: the result in 64-bit two's complement. -/
def wrapInt (x : Int) : Int :=
  (x + 9223372036854775808) % 18446744073709551616 - 9223372036854775808

/-- Go `s[i]`: a run-time panic unless `0 ≤ i < len(s)`. -/
def indexAt {α : Type} (s : List α) (i : Int) : Except Fault α :=
  if i < 0 then .error .sliceBounds
  else match s[i.toNat]? with
    | some x => .ok x
    | none => .error .sliceBounds

/-- Go `s[:hi]`: a run-time panic unless `0 ≤ hi ≤ len(s)`. -/
def sliceUpTo {α : Type} (s : List α) (hi : Int) : Except Fault (List α) :=
  if 0 ≤ hi ∧ hi ≤ s.length then .ok (s.take hi.toNat) else .error .sliceBounds

/-- Go `s[lo:]`: a run-time panic unless `0 ≤ lo ≤ len(s)`. -/
def sliceAfter {α : Type} (s : List α) (lo : Int) : Except Fault (List α) :=
  if 0 ≤ lo ∧ lo ≤ s.length then .ok (s.drop lo.toNat) else .error .sliceBounds

/-- Type `BTreeNode` of the source. -/
inductive BTreeNode where
  | mk (keys : List Int) (children : List BTreeNode) (isLeaf : Bool) (n : Int)

/-- Field `keys`. -/
def BTreeNode.keys : BTreeNode → List Int
  | .mk keys _ _ _ => keys

/-- Field `children`. -/
def BTreeNode.children : BTreeNode → List BTreeNode
  | .mk _ children _ _ => children

/-- Field `isLeaf`. -/
def BTreeNode.isLeaf : BTreeNode → Bool
  | .mk _ _ isLeaf _ => isLeaf

/-- Field `n`. -/
def BTreeNode.n : BTreeNode → Int
  | .mk _ _ _ n => n

/-- Type `BTree` of the source. -/
structure BTree where
  root : BTreeNode
  minDegree : Int

/-- Function `NewBTree` of the source. -/
def NewBTree (degree : Int) : BTree := ⟨.mk [] [] true 0, degree⟩

/-- Function `splitChild` of the source.  `fullChild` is the node that
`parent.children[i]` points to at both call sites, so the mutated `fullChild`
is put back at index `i` of the children of the returned parent. -/
def splitChild (t : BTree) (parent : BTreeNode) (i : Int) (fullChild : BTreeNode) :
    Except Fault BTreeNode := do
  let tDegree := t.minDegree
  let tailKeys ← sliceAfter fullChild.keys tDegree
  let fullKeys ← sliceUpTo fullChild.keys (wrapInt (tDegree - 1))
  let (newKids, fullKids) ←
    if !fullChild.isLeaf then do
      let tailKids ← sliceAfter fullChild.children tDegree
      let headKids ← sliceUpTo fullChild.children tDegree
      pure (tailKids, headKids)
    else pure ([], fullChild.children)
  let newChild := BTreeNode.mk tailKeys newKids fullChild.isLeaf (wrapInt (tDegree - 1))
  let left ← sliceUpTo parent.children (wrapInt (i + 1))
  let right ← sliceAfter parent.children (wrapInt (i + 1))
  let children := left ++ newChild :: right
  let keysLeft ← sliceUpTo parent.keys i
  let median ← indexAt fullKeys (wrapInt (tDegree - 1))
  let keysRight ← sliceAfter parent.keys i
  let keys := keysLeft ++ median :: keysRight
  let fullKeys ← sliceUpTo fullKeys (wrapInt (tDegree - 1))
  let fullChild := BTreeNode.mk fullKeys fullKids fullChild.isLeaf fullChild.n
  pure (BTreeNode.mk keys (children.set i.toNat fullChild) parent.isLeaf
    (wrapInt (parent.n + 1)))

/-- The loop `for i >= 0 && k < node.keys[i] { i-- }` entered with `i = m - 1`;
returns the final `i`. -/
def scanDown (keys : List Int) (k : Int) : Nat → Except Fault Int
  | 0 => pure (-1)
  | m + 1 => do
    let x ← indexAt keys m
    if k < x then scanDown keys k m else pure m

/-- The same loop entered with any `i`: not entered when `i < 0`. -/
def scanFrom (keys : List Int) (k i : Int) : Except Fault Int :=
  if i < 0 then pure i else scanDown keys k (i.toNat + 1)

/-- The body of `insertNonFull`, with the recursive call as a parameter. -/
def insertNonFullBody (t : BTree) (recurse : BTreeNode → Int → Except Fault BTreeNode)
    (node : BTreeNode) (k : Int) : Except Fault BTreeNode := do
  let i := wrapInt (node.n - 1)
  if !node.isLeaf then
    let i ← scanFrom node.keys k i
    let i := wrapInt (i + 1)
    let child ← indexAt node.children i
    let (node, i) ←
      if child.n = wrapInt (wrapInt (2 * t.minDegree) - 1) then do
        let node ← splitChild t node i child
        let x ← indexAt node.keys i
        pure (node, if k > x then wrapInt (i + 1) else i)
      else pure (node, i)
    let child ← indexAt node.children i
    let child ← recurse child k
    pure (BTreeNode.mk node.keys (node.children.set i.toNat child) node.isLeaf node.n)
  else
    let i ← scanFrom node.keys k i
    let left ← sliceUpTo node.keys (wrapInt (i + 1))
    let right ← sliceAfter node.keys (wrapInt (i + 1))
    pure (BTreeNode.mk (left ++ k :: right) node.children node.isLeaf
      (wrapInt (node.n + 1)))

/-- Function `insertNonFull` of the source.  The first argument bounds the depth
of the recursion; a leaf needs none. -/
def insertNonFull (t : BTree) : Nat → BTreeNode → Int → Except Fault BTreeNode
  | 0 => insertNonFullBody t (fun _ _ => .error Fault.fuel)
  | fuel + 1 => insertNonFullBody t (insertNonFull t fuel)

/-- Function `Insert` of the source; returns the tree after the call. -/
def Insert (fuel : Nat) (t : BTree) (k : Int) : Except Fault BTree := do
  let root := t.root
  if root.n = wrapInt (wrapInt (2 * t.minDegree) - 1) then
    let newRoot := BTreeNode.mk [] [root] false 0
    let newRoot ← splitChild t newRoot 0 root
    let newRoot ← insertNonFull t fuel newRoot k
    pure { t with root := newRoot }
  else
    let root ← insertNonFull t fuel root k
    pure { t with root := root }

/-- The loop `for _, key := range keys { tree.Insert(key) }` of the tests. -/
def insertAll (fuel : Nat) : BTree → List Int → Except Fault BTree
  | t, [] => pure t
  | t, k :: ks => do
    let t ← Insert fuel t k
    insertAll fuel t ks

/-- The tree of minimum degree 3 whose root is the full leaf `5 6 10 12 20`:
the tree of `TestBTreeInsertMultiple` after its first five insertions. -/
def fullRoot3 : BTree := ⟨.mk [5, 6, 10, 12, 20] [] true 5, 3⟩

/-! ## The insert orchestrator with the store state of a failed run

In the functions above a failure drops the store state.  The forms below are
the same functions of the source returning, next to the node or the failure,
the store state at the end of the run: the callbacks applied before a panic
have taken effect.  Lemma `treeInsertRun_agrees` ties them to `treeInsert`. -/

/-- The `range kids` loop of `nodeReplaceKidNode`, entered at position `i`,
with the store state at the end of the run. -/
def replaceKidsLoopRun {σ : Type} (tree : BPlusTree σ) (idx : Nat) :
    List BPlusNode → Nat → σ → BPlusNode → Except Fault BPlusNode × σ
  | [], _, st, new => (.ok new, st)
  | node :: rest, i, st, new =>
    let (ptr, st) := tree.new st node
    match (do
        let k ← getKey node 0
        nodeAppendKV new (u16 (idx + u16 i)) ptr k []) with
    | .error e => (.error e, st)
    | .ok new => replaceKidsLoopRun tree idx rest (i + 1) st new

/-- Function `nodeReplaceKidNode` of the source, with the store state at the
end of the run. -/
def nodeReplaceKidNodeRun {σ : Type} (tree : BPlusTree σ) (st : σ)
    (new old : BPlusNode) (idx : Nat) (kids : List BPlusNode) :
    Except Fault BPlusNode × σ :=
  let inc := u16 kids.length
  match (do
      let oldN ← nkeys old
      let new ← setHeader new BNODE_INTERNAL (sub16 (u16 (oldN + inc)) 1)
      let new ← nodeAppendRange new old 0 0 idx
      pure (oldN, new)) with
  | .error e => (.error e, st)
  | .ok (oldN, new) =>
    match replaceKidsLoopRun tree idx kids 0 st new with
    | (.error e, st) => (.error e, st)
    | (.ok new, st) =>
      (nodeAppendRange new old (u16 (idx + inc)) (u16 (idx + 1))
        (sub16 (sub16 oldN idx) 1), st)

/-- Function `nodeInsert` of the source, with the store state at the end of
the run; `descend` is the recursive call of `treeInsert`. -/
def nodeInsertRun {σ : Type} (tree : BPlusTree σ)
    (descend : σ → BPlusNode → List Nat → List Nat → Except Fault BPlusNode × σ)
    (st : σ) (new old : BPlusNode) (idx : Nat) (key val : List Nat) :
    Except Fault BPlusNode × σ :=
  match getPtr old idx with
  | .error e => (.error e, st)
  | .ok kptr =>
    let (kid, st) := tree.get st kptr
    match descend st kid key val with
    | (.error e, st) => (.error e, st)
    | (.ok knode, st) =>
      match nodeSplit3 knode with
      | .error e => (.error e, st)
      | .ok (nsplit, split) =>
        let st := tree.del st kptr
        nodeReplaceKidNodeRun tree st new old idx (split.take nsplit)

/-- The body of `treeInsert` with the store state at the end of the run, the
recursive call being a parameter. -/
def treeInsertBodyRun {σ : Type} (tree : BPlusTree σ)
    (descend : σ → BPlusNode → List Nat → List Nat → Except Fault BPlusNode × σ)
    (st : σ) (node : BPlusNode) (key val : List Nat) : Except Fault BPlusNode × σ :=
  let new := make (2 * BTREE_PAGE_SIZE)
  match (do
      let idx ← nodeLookupLE node key
      let bt ← btype node
      pure (idx, bt)) with
  | .error e => (.error e, st)
  | .ok (idx, bt) =>
    if bt = BNODE_LEAF then
      ((do
        let k ← getKey node idx
        if bytesEqual key k then leafUpdate new node idx key val
        else leafInsert new node (u16 (idx + 1)) key val), st)
    else if bt = BNODE_INTERNAL then
      nodeInsertRun tree descend st new node idx key val
    else (.error Fault.unknownType, st)

/-- Function `treeInsert` of the source, with the store state at the end of
the run.  The first argument bounds the depth of the recursion. -/
def treeInsertRun {σ : Type} (tree : BPlusTree σ) :
    Nat → σ → BPlusNode → List Nat → List Nat → Except Fault BPlusNode × σ
  | 0 => treeInsertBodyRun tree (fun st _ _ _ => (.error Fault.fuel, st))
  | fuel + 1 => treeInsertBodyRun tree (treeInsertRun tree fuel)

/-- Forget the store state of a failed run. -/
def dropFailedState {σ : Type} (r : Except Fault BPlusNode × σ) :
    Except Fault (BPlusNode × σ) :=
  r.1.map (fun node => (node, r.2))

/-! ## Memory lemmas -/

theorem rd_getElem? (mem : List Nat) (pos n j : Nat) :
    (rd mem pos n)[j]? = if j < n then mem[pos + j]? else none := by
  simp [rd, List.getElem?_take, List.getElem?_drop]

theorem wr_getElem? (mem : List Nat) (pos : Nat) (src : List Nat) (j : Nat)
    (h : pos + src.length ≤ mem.length) :
    (wr mem pos src)[j]? =
      if pos ≤ j ∧ j < pos + src.length then src[j - pos]? else mem[j]? := by
  have hp : (mem.take pos).length = pos := by simp; omega
  unfold wr
  by_cases h1 : j < pos
  · have hc : ¬ (pos ≤ j ∧ j < pos + src.length) := by omega
    rw [List.append_assoc, List.getElem?_append_left (by omega), if_neg hc,
      List.getElem?_take, if_pos h1]
  · by_cases h2 : j < pos + src.length
    · have hc : pos ≤ j ∧ j < pos + src.length := by omega
      rw [List.getElem?_append_left (by rw [List.length_append]; omega),
        List.getElem?_append_right (by omega), hp, if_pos hc]
    · have hc : ¬ (pos ≤ j ∧ j < pos + src.length) := by omega
      rw [List.getElem?_append_right (by rw [List.length_append]; omega), if_neg hc,
        List.length_append, hp, List.getElem?_drop]
      congr 1
      omega

theorem length_rd (mem : List Nat) (pos n : Nat) (h : pos + n ≤ mem.length) :
    (rd mem pos n).length = n := by
  simp [rd]; omega

theorem length_wr (mem : List Nat) (pos : Nat) (src : List Nat)
    (h : pos + src.length ≤ mem.length) : (wr mem pos src).length = mem.length := by
  simp [wr]; omega

theorem rd_wr_same (mem : List Nat) (pos : Nat) (src : List Nat)
    (h : pos + src.length ≤ mem.length) :
    rd (wr mem pos src) pos src.length = src := by
  apply List.ext_getElem?
  intro j
  rw [rd_getElem?, wr_getElem? _ _ _ _ h]
  by_cases hj : j < src.length
  · simp [hj]
  · simp [hj]; omega

theorem rd_wr_disj (mem : List Nat) (pos : Nat) (src : List Nat) (q n : Nat)
    (h : pos + src.length ≤ mem.length)
    (hd : q + n ≤ pos ∨ pos + src.length ≤ q) :
    rd (wr mem pos src) q n = rd mem q n := by
  apply List.ext_getElem?
  intro j
  rw [rd_getElem?, rd_getElem?, wr_getElem? _ _ _ _ h]
  by_cases hj : j < n
  · have : ¬ (pos ≤ q + j ∧ q + j < pos + src.length) := by omega
    simp [hj, this]
  · simp [hj]

theorem rd_rd (mem : List Nat) (pos n q m : Nat) (h : q + m ≤ n) :
    rd (rd mem pos n) q m = rd mem (pos + q) m := by
  apply List.ext_getElem?
  intro j
  simp only [rd_getElem?]
  by_cases hj : j < m
  · have : q + j < n := by omega
    simp [hj, this, Nat.add_assoc]
  · simp [hj]

theorem rd_append (mem : List Nat) (pos a b : Nat) :
    rd mem pos (a + b) = rd mem pos a ++ rd mem (pos + a) b := by
  simp only [rd]
  rw [List.take_add, List.drop_drop]

theorem length_leBytes (n v : Nat) : (leBytes n v).length = n := by
  induction n generalizing v with
  | zero => rfl
  | succ n ih => simp [leBytes, ih]

theorem leNat_leBytes (n v : Nat) : leNat (leBytes n v) = v % 256 ^ n := by
  induction n generalizing v with
  | zero => simp [leBytes, leNat, Nat.mod_one]
  | succ n ih =>
    simp only [leBytes, leNat, ih, Nat.mod_mod]
    rw [pow_succ, Nat.mul_comm (256 ^ n) 256, Nat.mod_mul]

theorem leNat_leBytes_two (v : Nat) : leNat (leBytes 2 v) = v % 65536 :=
  leNat_leBytes 2 v

theorem leNat_lt (bs : List Nat) : leNat bs < 256 ^ bs.length := by
  induction bs with
  | nil => simp [leNat]
  | cons b bs ih =>
    simp only [leNat, List.length_cons, pow_succ]
    have := Nat.mod_lt b (show 256 > 0 by decide)
    omega

/-! ## The accessors on a well-formed node -/

theorem count_lt (node : BPlusNode) : count node < 65536 := by
  have h := leNat_lt (rd node.mem 2 2)
  have h2 : (rd node.mem 2 2).length ≤ 2 := by simp [rd]
  have : 256 ^ (rd node.mem 2 2).length ≤ 256 ^ 2 :=
    Nat.pow_le_pow_right (by decide) h2
  unfold count rawU16
  omega

theorem rawU16_lt (node : BPlusNode) (pos : Nat) : rawU16 node pos < 65536 := by
  have h := leNat_lt (rd node.mem pos 2)
  have h2 : (rd node.mem pos 2).length ≤ 2 := by simp [rd]
  have : 256 ^ (rd node.mem pos 2).length ≤ 256 ^ 2 :=
    Nat.pow_le_pow_right (by decide) h2
  unfold rawU16
  omega

theorem getU16Range_ok (node : BPlusNode) (lo hi : Nat) (h : hi = lo + 2)
    (hc : hi ≤ node.cap) : getU16Range node lo hi = .ok (rawU16 node lo) := by
  unfold getU16Range rawU16
  rw [if_pos (by omega)]

theorem getU16From_ok (node : BPlusNode) (lo : Nat) (hc : lo + 2 ≤ node.len) :
    getU16From node lo = .ok (rawU16 node lo) := by
  unfold getU16From rawU16
  rw [if_pos (by omega)]

theorem nkeys_ok (node : BPlusNode) (hc : 4 ≤ node.cap) :
    nkeys node = .ok (count node) :=
  getU16Range_ok node 2 4 rfl hc

theorem btype_ok (node : BPlusNode) (hc : 2 ≤ node.cap) :
    btype node = .ok (kind node) :=
  getU16Range_ok node 0 2 rfl hc

theorem offsetAt_mono (node : BPlusNode) (hwf : WellFormed node) (i j : Nat)
    (hij : i ≤ j) (hj : j ≤ count node) : offsetAt node i ≤ offsetAt node j := by
  induction j with
  | zero =>
    have : i = 0 := by omega
    subst this; exact Nat.le_refl _
  | succ j ih =>
    by_cases h : i = j + 1
    · subst h; exact Nat.le_refl _
    · have h1 := ih (by omega) (by omega)
      have h2 := hwf.2.2.2 j (by omega)
      omega

theorem recPos_le_size (node : BPlusNode) (hwf : WellFormed node) (i : Nat)
    (hi : i ≤ count node) : recPos node i ≤ nodeSize node := by
  have := offsetAt_mono node hwf i (count node) hi (Nat.le_refl _)
  unfold nodeSize recPos
  omega

theorem recPos_succ (node : BPlusNode) (hwf : WellFormed node) (i : Nat)
    (hi : i < count node) :
    recPos node (i + 1) = recPos node i + 4 + klenAt node i + vlenAt node i := by
  have := hwf.2.2.2 i hi
  unfold recPos
  omega

theorem header_le_size (node : BPlusNode) : HEADER + 10 * count node ≤ nodeSize node := by
  unfold nodeSize recPos
  omega

theorem wf_cap (node : BPlusNode) (hwf : WellFormed node) :
    HEADER + 10 * count node ≤ node.len ∧ nodeSize node ≤ node.cap ∧
    HEADER + 10 * count node < 65536 ∧ node.len ≤ node.cap := by
  have h1 := hwf.1
  have h2 := hwf.2.1
  have h3 := header_le_size node
  have h4 := hwf.2.2.1
  omega

theorem offsetPos_ok (node : BPlusNode) (hc : 4 ≤ node.cap)
    (hh : HEADER + 10 * count node < 65536) (i : Nat)
    (h0 : 0 < i) (hi : i ≤ count node) :
    offsetPos node i = .ok (HEADER + 8 * count node + 2 * (i - 1)) := by
  have hu : u16 (HEADER + 8 * count node + 2 * (i - 1))
      = HEADER + 8 * count node + 2 * (i - 1) := by
    unfold u16 HEADER at *; omega
  unfold offsetPos
  rw [nkeys_ok node hc]
  simp only [bind, Except.bind, hu]
  rw [if_neg (by omega)]
  rfl

theorem getOffset_ok (node : BPlusNode) (hl : node.len ≤ node.cap)
    (hh : HEADER + 10 * count node < 65536) (hs : HEADER + 10 * count node ≤ node.len)
    (i : Nat) (hi : i ≤ count node) :
    getOffset node i = .ok (offsetAt node i) := by
  unfold getOffset offsetAt
  by_cases h0 : i = 0
  · simp [h0]; rfl
  · rw [if_neg h0, if_neg h0, offsetPos_ok node (by unfold HEADER at *; omega) hh i (by omega) hi]
    simp only [bind, Except.bind]
    exact getU16From_ok node _ (by unfold HEADER at *; omega)

theorem kvPos_ok (node : BPlusNode) (hl : node.len ≤ node.cap)
    (hh : HEADER + 10 * count node + offsetAt node i < 65536)
    (hs : HEADER + 10 * count node ≤ node.len)
    (hi : i ≤ count node) :
    kvPos node i = .ok (recPos node i) := by
  unfold kvPos
  rw [getOffset_ok node hl (by omega) hs i hi, nkeys_ok node (by unfold HEADER at *; omega)]
  simp only [bind, Except.bind, pure, Except.pure, recPos]
  congr 1
  unfold u16 HEADER at *; omega

theorem kvPos_eq (node : BPlusNode) (hwf : WellFormed node) (i : Nat)
    (hi : i ≤ count node) : kvPos node i = .ok (recPos node i) := by
  have h := wf_cap node hwf
  have h2 := recPos_le_size node hwf i hi
  have h3 := hwf.2.2.1
  exact kvPos_ok node h.2.2.2 (by unfold recPos at h2; omega) h.1 hi

theorem nkeys_eq (node : BPlusNode) (hwf : WellFormed node) :
    nkeys node = .ok (count node) := by
  have h := wf_cap node hwf
  exact nkeys_ok node (by unfold HEADER at h; omega)

theorem btype_eq (node : BPlusNode) (hwf : WellFormed node) :
    btype node = .ok (kind node) := by
  have h := wf_cap node hwf
  exact btype_ok node (by unfold HEADER at h; omega)

theorem nbytes_eq (node : BPlusNode) (hwf : WellFormed node) :
    nbytes node = .ok (nodeSize node) := by
  unfold nbytes
  rw [nkeys_eq node hwf]
  exact kvPos_eq node hwf _ (Nat.le_refl _)

theorem sliceFromTo_ok (node : BPlusNode) (lo n : Nat) (h1 : lo ≤ node.len)
    (h2 : lo + n ≤ node.cap) : sliceFromTo node lo n = .ok (rd node.mem lo n) := by
  unfold sliceFromTo
  rw [if_pos ⟨h1, h2⟩]

theorem getKey_ok (node : BPlusNode) (i pos : Nat) (hp : kvPos node i = .ok pos)
    (hl : node.len ≤ node.cap)
    (hb : pos + 4 + rawU16 node pos ≤ node.len) (hlt : pos + 4 < 65536) :
    getKey node i = .ok (rd node.mem (pos + 4) (rawU16 node pos)) := by
  have hu2 : u16 (pos + 2) = pos + 2 := by unfold u16; omega
  have hu4 : u16 (pos + 4) = pos + 4 := by unfold u16; omega
  unfold getKey
  rw [hp]
  simp only [bind, Except.bind, hu2, hu4]
  rw [getU16Range_ok node pos (pos + 2) rfl (by omega)]
  simp only []
  exact sliceFromTo_ok node _ _ (by omega) (by omega)

theorem getVal_ok (node : BPlusNode) (i pos : Nat) (hp : kvPos node i = .ok pos)
    (hl : node.len ≤ node.cap)
    (hb : pos + 4 + rawU16 node pos + rawU16 node (pos + 2) ≤ node.len)
    (hlt : pos + 4 + rawU16 node pos < 65536) :
    getVal node i =
      .ok (rd node.mem (pos + 4 + rawU16 node pos) (rawU16 node (pos + 2))) := by
  have hu2 : u16 (pos + 2) = pos + 2 := by unfold u16; omega
  have hu4 : u16 (pos + 4) = pos + 4 := by unfold u16; omega
  have hu5 : u16 (pos + 4 + rawU16 node pos) = pos + 4 + rawU16 node pos := by
    unfold u16; omega
  unfold getVal
  rw [hp]
  simp only [bind, Except.bind, hu2, hu4]
  rw [getU16Range_ok node pos (pos + 2) rfl (by omega),
    getU16Range_ok node (pos + 2) (pos + 4) rfl (by omega)]
  simp only [hu5]
  exact sliceFromTo_ok node _ _ (by omega) (by omega)

theorem getKey_eq (node : BPlusNode) (hwf : WellFormed node) (i : Nat)
    (hi : i < count node) : getKey node i = .ok (keyAt node i) := by
  have h1 := recPos_succ node hwf i hi
  have h2 := recPos_le_size node hwf (i + 1) hi
  have h3 := hwf.2.2.1
  have h4 := hwf.2.1
  unfold klenAt at h1
  exact getKey_ok node i _ (kvPos_eq node hwf i (by omega)) hwf.1 (by omega) (by omega)

theorem getVal_eq (node : BPlusNode) (hwf : WellFormed node) (i : Nat)
    (hi : i < count node) : getVal node i = .ok (valAt node i) := by
  have h1 := recPos_succ node hwf i hi
  have h2 := recPos_le_size node hwf (i + 1) hi
  have h3 := hwf.2.2.1
  have h4 := hwf.2.1
  unfold klenAt vlenAt at h1
  exact getVal_ok node i _ (kvPos_eq node hwf i (by omega)) hwf.1 (by omega) (by omega)

theorem getPtr_ok (node : BPlusNode) (i : Nat) (hi : i < count node)
    (hs : HEADER + 8 * count node ≤ node.cap) (hh : HEADER + 8 * count node < 65536) :
    getPtr node i = .ok (ptrAt node i) := by
  have hu : u16 (HEADER + 8 * i) = HEADER + 8 * i := by unfold u16 HEADER at *; omega
  have hu8 : u16 (HEADER + 8 * i + 8) = HEADER + 8 * i + 8 := by
    unfold u16 HEADER at *; omega
  unfold getPtr
  rw [nkeys_ok node (by unfold HEADER at *; omega)]
  simp only [bind, Except.bind, hu, hu8]
  rw [if_neg (by omega)]
  simp only [sliceRange]
  rw [if_pos (by unfold HEADER at *; omega)]
  have hlen : ¬ (rd node.mem (HEADER + 8 * i) (HEADER + 8 * i + 8 - (HEADER + 8 * i))).length < 8 := by
    rw [length_rd _ _ _ (by unfold BPlusNode.cap HEADER at *; omega)]
    omega
  simp only [hlen, if_false]
  have : HEADER + 8 * i + 8 - (HEADER + 8 * i) = 8 := by omega
  rw [this]
  rfl

theorem getPtr_eq (node : BPlusNode) (hwf : WellFormed node) (i : Nat)
    (hi : i < count node) : getPtr node i = .ok (ptrAt node i) := by
  have h := wf_cap node hwf
  exact getPtr_ok node i hi (by omega) (by omega)

/-! ## Order of `bytes.Compare` -/

theorem bytesCompare_self (a : List Nat) : bytesCompare a a = 0 := by
  induction a with
  | nil => rfl
  | cons x xs ih => simp [bytesCompare, ih]

theorem bytesCompare_eq_zero (a b : List Nat) (h : bytesCompare a b = 0) : a = b := by
  induction a generalizing b with
  | nil => cases b <;> simp [bytesCompare] at h ⊢
  | cons x xs ih =>
    cases b with
    | nil => simp [bytesCompare] at h
    | cons y ys =>
      simp only [bytesCompare] at h
      split_ifs at h with h1 h2
      · omega
      · have h3 := ih ys h
        have h4 : x = y := by omega
        rw [h3, h4]

theorem bytesCompare_trans (a b c : List Nat) (h1 : bytesCompare a b < 0)
    (h2 : bytesCompare b c ≤ 0) : bytesCompare a c < 0 := by
  induction a generalizing b c with
  | nil =>
    cases b with
    | nil => simp [bytesCompare] at h1
    | cons y ys =>
      cases c with
      | nil => simp [bytesCompare] at h2
      | cons z zs => simp [bytesCompare]
  | cons x xs ih =>
    cases b with
    | nil => simp [bytesCompare] at h1
    | cons y ys =>
      cases c with
      | nil => simp [bytesCompare] at h2
      | cons z zs =>
        simp only [bytesCompare] at h1 h2 ⊢
        split_ifs at h1 h2 ⊢ <;> first | omega | exact ih _ _ h1 h2

theorem bytesCompare_antisymm (a b : List Nat) (h1 : bytesCompare a b < 0) :
    ¬ bytesCompare b a ≤ 0 := by
  intro h2
  have := bytesCompare_trans a b a h1 h2
  rw [bytesCompare_self] at this
  omega

theorem strictAsc_lt (node : BPlusNode) (hasc : StrictAsc node) (i j : Nat)
    (hij : i < j) (hj : j < count node) :
    bytesCompare (keyAt node i) (keyAt node j) < 0 := by
  induction j with
  | zero => omega
  | succ j ih =>
    have hstep := hasc j (by omega)
    by_cases h : i = j
    · subst h; exact hstep
    · exact bytesCompare_trans _ _ _ (ih (by omega) (by omega)) (by omega)

/-! ## Floor lookup -/

theorem lookupLoop_spec (node : BPlusNode) (key : List Nat) (hwf : WellFormed node)
    (hasc : StrictAsc node) (r i found : Nat) (hir : i + r = count node)
    (hi : 1 ≤ i) (hf : found = i - 1)
    (hinv : ∀ j, 1 ≤ j → j < i → bytesCompare (keyAt node j) key ≤ 0) :
    ∃ res, lookupLoop node key r i found = .ok res ∧ res < count node ∧
      (∀ j, 1 ≤ j → j ≤ res → bytesCompare (keyAt node j) key ≤ 0) ∧
      (∀ j, res < j → j < count node → ¬ bytesCompare (keyAt node j) key ≤ 0) := by
  induction r generalizing i found with
  | zero =>
    refine ⟨found, rfl, by omega, ?_, ?_⟩
    · intro j h1 h2; exact hinv j h1 (by omega)
    · intro j h1 h2; omega
  | succ r ih =>
    have hk := getKey_eq node hwf i (by omega)
    unfold lookupLoop
    rw [hk]
    simp only [bind, Except.bind, ge_iff_le]
    by_cases hc : 0 ≤ bytesCompare (keyAt node i) key
    · rw [if_pos hc]
      by_cases hz : bytesCompare (keyAt node i) key ≤ 0
      · rw [if_pos hz]
        refine ⟨i, rfl, by omega, ?_, ?_⟩
        · intro j h1 h2
          by_cases hji : j = i
          · subst hji; exact hz
          · exact hinv j h1 (by omega)
        · intro j h1 h2 h3
          have hlt := strictAsc_lt node hasc i j h1 h2
          have := bytesCompare_trans _ _ _ hlt h3
          omega
      · rw [if_neg hz]
        refine ⟨found, rfl, by omega, ?_, ?_⟩
        · intro j h1 h2; exact hinv j h1 (by omega)
        · intro j h1 h2 h3
          by_cases hji : j = i
          · subst hji; exact hz h3
          · have hlt := strictAsc_lt node hasc i j (by omega) h2
            have := bytesCompare_trans _ _ _ hlt h3
            omega
    · rw [if_neg hc]
      have hz : bytesCompare (keyAt node i) key ≤ 0 := by omega
      rw [if_pos hz]
      apply ih (i + 1) i (by omega) (by omega) (by omega)
      intro j h1 h2
      by_cases hji : j = i
      · subst hji; exact hz
      · exact hinv j h1 (by omega)

theorem nodeLookupLE_spec (node : BPlusNode) (key : List Nat) (hwf : WellFormed node)
    (hasc : StrictAsc node) :
    ∃ res, nodeLookupLE node key = .ok res ∧ (res = 0 ∨ res < count node) ∧
      (∀ j, 1 ≤ j → j ≤ res → bytesCompare (keyAt node j) key ≤ 0) ∧
      (∀ j, res < j → j < count node → ¬ bytesCompare (keyAt node j) key ≤ 0) := by
  unfold nodeLookupLE
  rw [nkeys_eq node hwf]
  simp only [bind, Except.bind]
  by_cases hn : count node = 0
  · rw [hn]
    refine ⟨0, rfl, Or.inl rfl, ?_, ?_⟩
    · intro j h1 h2; omega
    · intro j h1 h2; omega
  · obtain ⟨res, h1, h2, h3, h4⟩ := lookupLoop_spec node key hwf hasc
      (count node - 1) 1 0 (by omega) (Nat.le_refl _) rfl (by intro j h1 h2; omega)
    exact ⟨res, h1, Or.inr h2, h3, h4⟩

/-- C5: on a well-formed node with strictly ascending keys, `nodeLookupLE`
returns; its result is the largest index below `nkeys()` whose key is `≤` the
search key in the order of `bytes.Compare` when there is such an index, and `0`
when no key is `≤` the search key (an empty node included). -/
theorem nodeLookupLE_floor (node : BPlusNode) (key : List Nat)
    (hwf : WellFormed node) (hasc : StrictAsc node) :
    ∃ n r, nkeys node = .ok n ∧ nodeLookupLE node key = .ok r ∧
      ((∃ i k, i < n ∧ getKey node i = .ok k ∧ bytesCompare k key ≤ 0) →
        r < n ∧ (∃ k, getKey node r = .ok k ∧ bytesCompare k key ≤ 0) ∧
        ∀ j k, j < n → getKey node j = .ok k → bytesCompare k key ≤ 0 → j ≤ r) ∧
      ((∀ i k, i < n → getKey node i = .ok k → ¬ bytesCompare k key ≤ 0) → r = 0) := by
  obtain ⟨r, hr, hlt, hle, hgt⟩ := nodeLookupLE_spec node key hwf hasc
  refine ⟨count node, r, nkeys_eq node hwf, hr, ?_, ?_⟩
  · rintro ⟨i, k, hi, hk, hcmp⟩
    rw [getKey_eq node hwf i hi] at hk
    cases hk
    have hir : i ≤ r := by
      by_contra hcon
      exact hgt i (by omega) hi hcmp
    have hrn : r < count node := by omega
    refine ⟨hrn, ⟨keyAt node r, getKey_eq node hwf r hrn, ?_⟩, ?_⟩
    · by_cases h0 : r = 0
      · have : i = 0 := by omega
        rw [h0, ← this]; exact hcmp
      · exact hle r (by omega) (Nat.le_refl _)
    · intro j k hj hk hc
      rw [getKey_eq node hwf j hj] at hk
      cases hk
      by_contra hcon
      exact hgt j (by omega) hj hc
  · intro hnone
    by_contra h0
    have hrn : r < count node := by omega
    exact hnone r (keyAt node r) hrn (getKey_eq node hwf r hrn)
      (hle r (by omega) (Nat.le_refl _))

/-- C5, at a concrete input: the leaf `"a","c"` searched for `"b"`. -/
theorem nodeLookupLE_floor_witness :
    WellFormed leafAC ∧ StrictAsc leafAC ∧
    ∃ n r, nkeys leafAC = .ok n ∧ nodeLookupLE leafAC [98] = .ok r ∧
      ((∃ i k, i < n ∧ getKey leafAC i = .ok k ∧ bytesCompare k [98] ≤ 0) →
        r < n ∧ (∃ k, getKey leafAC r = .ok k ∧ bytesCompare k [98] ≤ 0) ∧
        ∀ j k, j < n → getKey leafAC j = .ok k → bytesCompare k [98] ≤ 0 → j ≤ r) ∧
      ((∀ i k, i < n → getKey leafAC i = .ok k → ¬ bytesCompare k [98] ≤ 0) → r = 0) :=
  ⟨by decide!, by decide!, nodeLookupLE_floor leafAC [98] (by decide!) (by decide!)⟩

/-! ## Writes -/

theorem putU16Range_ok (node : BPlusNode) (lo hi v : Nat) (h : hi = lo + 2)
    (hc : hi ≤ node.cap) :
    putU16Range node lo hi v = .ok ⟨wr node.mem lo (leBytes 2 v), node.len⟩ := by
  unfold putU16Range
  rw [if_pos (by omega)]

theorem putU16From_ok (node : BPlusNode) (lo v : Nat) (hc : lo + 2 ≤ node.len) :
    putU16From node lo v = .ok ⟨wr node.mem lo (leBytes 2 v), node.len⟩ := by
  unfold putU16From
  rw [if_pos (by omega)]

theorem copyFrom_ok (node : BPlusNode) (lo : Nat) (src : List Nat)
    (h : lo + src.length ≤ node.len) :
    copyFrom node lo src = .ok ⟨wr node.mem lo src, node.len⟩ := by
  unfold copyFrom
  rw [if_pos (by omega), List.take_of_length_le (by omega)]

theorem setHeader_ok (node : BPlusNode) (bt n : Nat) (hc : 4 ≤ node.cap) :
    setHeader node bt n =
      .ok ⟨wr (wr node.mem 0 (leBytes 2 bt)) 2 (leBytes 2 n), node.len⟩ := by
  unfold setHeader
  rw [putU16Range_ok node 0 2 bt rfl (by omega)]
  simp only [bind, Except.bind]
  rw [putU16Range_ok _ 2 4 n rfl]
  simp only [BPlusNode.cap] at hc ⊢
  rw [length_wr _ _ _ (by rw [length_leBytes]; omega)]
  exact hc

theorem rawU16_wr (mem : List Nat) (p : Nat) (src : List Nat) (l l' q : Nat)
    (h : p + src.length ≤ mem.length) (hd : q + 2 ≤ p ∨ p + src.length ≤ q) :
    rawU16 ⟨wr mem p src, l⟩ q = rawU16 ⟨mem, l'⟩ q := by
  unfold rawU16
  simp only
  rw [rd_wr_disj mem p src q 2 h hd]

theorem rawU16_wr_same (mem : List Nat) (p v l : Nat) (h : p + 2 ≤ mem.length) :
    rawU16 ⟨wr mem p (leBytes 2 v), l⟩ p = v % 65536 := by
  unfold rawU16
  simp only
  have := rd_wr_same mem p (leBytes 2 v) (by rw [length_leBytes]; exact h)
  rw [length_leBytes] at this
  rw [this, leNat_leBytes_two]

theorem setHeader_spec (node : BPlusNode) (bt n : Nat) (hc : 4 ≤ node.cap)
    (hbt : bt < 65536) (hn : n < 65536) :
    ∃ node', setHeader node bt n = .ok node' ∧ node'.len = node.len ∧
      node'.mem.length = node.mem.length ∧ kind node' = bt ∧ count node' = n ∧
      ∀ q m, 4 ≤ q → rd node'.mem q m = rd node.mem q m := by
  have hl1 : (wr node.mem 0 (leBytes 2 bt)).length = node.mem.length :=
    length_wr _ _ _ (by rw [length_leBytes]; unfold BPlusNode.cap at hc; omega)
  refine ⟨_, setHeader_ok node bt n hc, rfl, ?_, ?_, ?_, ?_⟩
  · simp only
    rw [length_wr _ _ _ (by rw [length_leBytes, hl1]; unfold BPlusNode.cap at hc; omega), hl1]
  · unfold kind
    rw [rawU16_wr _ _ _ _ node.len _ (by rw [length_leBytes, hl1]; unfold BPlusNode.cap at hc; omega)
      (by omega)]
    rw [rawU16_wr_same _ _ _ _ (by unfold BPlusNode.cap at hc; omega)]
    omega
  · unfold count
    rw [rawU16_wr_same _ _ _ _ (by rw [hl1]; unfold BPlusNode.cap at hc; omega)]
    omega
  · intro q m hq
    simp only
    rw [rd_wr_disj _ _ _ _ _ (by rw [length_leBytes, hl1]; unfold BPlusNode.cap at hc; omega)
      (by rw [length_leBytes]; omega)]
    rw [rd_wr_disj _ _ _ _ _ (by rw [length_leBytes]; unfold BPlusNode.cap at hc; omega)
      (by rw [length_leBytes]; omega)]

theorem count_wr (mem : List Nat) (p : Nat) (src : List Nat) (l l' : Nat)
    (h : p + src.length ≤ mem.length) (hp : 4 ≤ p) :
    count ⟨wr mem p src, l⟩ = count ⟨mem, l'⟩ := by
  unfold count
  exact rawU16_wr mem p src l l' 2 h (by omega)

theorem nodeAppendRange_bytes (new old : BPlusNode) (dst src n : Nat)
    (hnl : new.len ≤ new.cap) (hnh : HEADER + 10 * count new ≤ new.len)
    (hn16 : HEADER + 10 * count new < 65536)
    (hol : old.len ≤ old.cap) (hoh : HEADER + 8 * count old + 2 * (src + n) ≤ old.len)
    (ho16 : HEADER + 8 * count old + 2 * (src + n) < 65536)
    (hd : dst + n ≤ count new) (hs : HEADER + 8 * (src + n) ≤ old.len)
    (hs16 : HEADER + 8 * (src + n) < 65536) :
    ∃ new', nodeAppendRange new old dst src n = .ok new' ∧ new'.len = new.len ∧
      new'.mem.length = new.mem.length ∧
      (∀ q m, (q + m ≤ HEADER + 8 * dst ∨ HEADER + 8 * (dst + n) ≤ q) →
        (q + m ≤ HEADER + 8 * count new + 2 * dst ∨
          HEADER + 8 * count new + 2 * (dst + n) ≤ q) →
        rd new'.mem q m = rd new.mem q m) ∧
      rd new'.mem (HEADER + 8 * dst) (8 * n) = rd old.mem (HEADER + 8 * src) (8 * n) ∧
      rd new'.mem (HEADER + 8 * count new + 2 * dst) (2 * n)
        = rd old.mem (HEADER + 8 * count old + 2 * src) (2 * n) := by
  unfold HEADER BPlusNode.cap at *
  unfold nodeAppendRange
  by_cases hn0 : n = 0
  · subst hn0
    rw [if_pos rfl]
    refine ⟨new, rfl, rfl, rfl, fun _ _ _ _ => rfl, ?_, ?_⟩ <;> simp [rd]
  · rw [if_neg hn0]
    have hu1 : u16 (HEADER + 8 * src) = 4 + 8 * src := by unfold u16 HEADER; omega
    have hu2 : u16 (8 * n) = 8 * n := by unfold u16; omega
    have hu3 : u16 (HEADER + 8 * dst) = 4 + 8 * dst := by unfold u16 HEADER; omega
    have hu4 : u16 (2 * n) = 2 * n := by unfold u16; omega
    have hu5 : u16 (HEADER + 8 * count old + 2 * src) = 4 + 8 * count old + 2 * src := by
      unfold u16 HEADER; omega
    have hlp : (rd old.mem (4 + 8 * src) (8 * n)).length = 8 * n :=
      length_rd _ _ _ (by omega)
    have hlo : (rd old.mem (4 + 8 * count old + 2 * src) (2 * n)).length = 2 * n :=
      length_rd _ _ _ (by omega)
    have hw1 : (wr new.mem (4 + 8 * dst) (rd old.mem (4 + 8 * src) (8 * n))).length
        = new.mem.length := length_wr _ _ _ (by rw [hlp]; omega)
    have hc1 : count ⟨wr new.mem (4 + 8 * dst) (rd old.mem (4 + 8 * src) (8 * n)), new.len⟩
        = count new := count_wr _ _ _ _ _ (by rw [hlp]; omega) (by omega)
    have hu6 : u16 (HEADER + 8 * count new + 2 * dst) = 4 + 8 * count new + 2 * dst := by
      unfold u16 HEADER; omega
    rw [hu1, hu2, sliceFromTo_ok old _ _ (by omega) (by unfold BPlusNode.cap; omega)]
    simp only [bind, Except.bind]
    rw [hu3, copyFrom_ok new _ _ (by rw [hlp]; omega)]
    simp only []
    rw [nkeys_ok _ (by unfold BPlusNode.cap; simp only; rw [hw1]; omega)]
    simp only []
    rw [nkeys_ok old (by unfold BPlusNode.cap; omega)]
    simp only []
    rw [hu4, hu5, sliceFromTo_ok old _ _ (by omega) (by unfold BPlusNode.cap; omega)]
    simp only []
    rw [hc1, hu6, copyFrom_ok _ _ _ (by simp only; rw [hlo]; omega)]
    refine ⟨_, rfl, rfl, ?_, ?_, ?_, ?_⟩
    · simp only
      rw [length_wr _ _ _ (by rw [hlo, hw1]; omega), hw1]
    · intro q m h1 h2
      simp only
      rw [rd_wr_disj _ _ _ _ _ (by rw [hlo, hw1]; omega) (by rw [hlo]; omega),
        rd_wr_disj _ _ _ _ _ (by rw [hlp]; omega) (by rw [hlp]; omega)]
    · simp only
      rw [rd_wr_disj _ _ _ _ _ (by rw [hlo, hw1]; omega) (by rw [hlo]; omega)]
      have := rd_wr_same new.mem (4 + 8 * dst) _ (by rw [hlp]; omega)
      rw [hlp] at this
      exact this
    · simp only
      have := rd_wr_same (wr new.mem (4 + 8 * dst) (rd old.mem (4 + 8 * src) (8 * n)))
        (4 + 8 * count new + 2 * dst) _ (by rw [hlo, hw1]; omega)
      rw [hlo] at this
      exact this

theorem nodeAppendRange_spec (new old : BPlusNode) (dst src n : Nat)
    (hnl : new.len ≤ new.cap) (hnh : HEADER + 10 * count new ≤ new.len)
    (hn16 : HEADER + 10 * count new < 65536)
    (hol : old.len ≤ old.cap) (hoh : HEADER + 10 * count old ≤ old.len)
    (ho16 : HEADER + 10 * count old < 65536)
    (hd : dst + n ≤ count new) (hs : src + n ≤ count old) :
    ∃ new', nodeAppendRange new old dst src n = .ok new' ∧ new'.len = new.len ∧
      new'.mem.length = new.mem.length ∧
      (∀ q m, (q + m ≤ HEADER + 8 * dst ∨ HEADER + 8 * (dst + n) ≤ q) →
        (q + m ≤ HEADER + 8 * count new + 2 * dst ∨
          HEADER + 8 * count new + 2 * (dst + n) ≤ q) →
        rd new'.mem q m = rd new.mem q m) ∧
      rd new'.mem (HEADER + 8 * dst) (8 * n) = rd old.mem (HEADER + 8 * src) (8 * n) ∧
      rd new'.mem (HEADER + 8 * count new + 2 * dst) (2 * n)
        = rd old.mem (HEADER + 8 * count old + 2 * src) (2 * n) := by
  unfold HEADER at *
  exact nodeAppendRange_bytes new old dst src n hnl hnh hn16 hol (by unfold HEADER; omega)
    (by unfold HEADER; omega) hd (by unfold HEADER; omega) (by unfold HEADER; omega)

theorem offsetAt_wr (mem : List Nat) (p : Nat) (src : List Nat) (l l' i : Nat)
    (h : p + src.length ≤ mem.length) (hp : 4 ≤ p)
    (hd : i = 0 ∨ HEADER + 8 * count ⟨mem, l'⟩ + 2 * (i - 1) + 2 ≤ p ∨
      p + src.length ≤ HEADER + 8 * count ⟨mem, l'⟩ + 2 * (i - 1)) :
    offsetAt ⟨wr mem p src, l⟩ i = offsetAt ⟨mem, l'⟩ i := by
  unfold offsetAt
  by_cases h0 : i = 0
  · rw [if_pos h0, if_pos h0]
  · rw [if_neg h0, if_neg h0, count_wr mem p src l l' h hp]
    exact rawU16_wr mem p src l l' _ h (by omega)

theorem setPtr_ok (node : BPlusNode) (idx val : Nat) (hi : idx < count node)
    (hs : HEADER + 8 * count node ≤ node.cap) (hh : HEADER + 8 * count node < 65536) :
    setPtr node idx val =
      .ok ⟨wr node.mem (HEADER + 8 * idx) (leBytes 8 val), node.len⟩ := by
  have hu : u16 (HEADER + 8 * idx) = HEADER + 8 * idx := by unfold u16 HEADER at *; omega
  have hu8 : u16 (HEADER + 8 * idx + 8) = HEADER + 8 * idx + 8 := by
    unfold u16 HEADER at *; omega
  unfold setPtr
  rw [nkeys_ok node (by unfold HEADER at *; omega)]
  simp only [bind, Except.bind, hu, hu8]
  rw [if_neg (by omega)]
  show (if _ then _ else _) = _
  rw [if_pos (by unfold HEADER at *; omega)]
  rfl

theorem setOffset_ok (node : BPlusNode) (idx v : Nat) (h0 : 0 < idx)
    (hi : idx ≤ count node) (hs : HEADER + 10 * count node ≤ node.len)
    (hl : node.len ≤ node.cap) (hh : HEADER + 10 * count node < 65536) :
    setOffset node idx v =
      .ok ⟨wr node.mem (HEADER + 8 * count node + 2 * (idx - 1)) (leBytes 2 v), node.len⟩ := by
  unfold setOffset
  rw [offsetPos_ok node (by unfold HEADER at *; omega) hh idx h0 hi]
  simp only [bind, Except.bind]
  exact putU16From_ok node _ v (by unfold HEADER at *; omega)

theorem u16_eq (x : Nat) (h : x < 65536) : u16 x = x := Nat.mod_eq_of_lt h

theorem leBytes_two_mod (v : Nat) : leBytes 2 (v % 65536) = leBytes 2 v := by
  simp only [leBytes]
  congr 1
  · omega
  · congr 1
    omega

/-! ## Appending one record -/

theorem kv_chain (m0 : List Nat) (idx ptr N off pos : Nat) (key val : List Nat)
    (m1 m2 m3 m4 m5 m6 : List Nat)
    (hpos : pos = 4 + 10 * N + off) (hidx : idx < N)
    (hfit : pos + 4 + key.length + val.length ≤ m0.length)
    (hm1 : m1 = wr m0 (4 + 8 * idx) (leBytes 8 ptr))
    (hm2 : m2 = wr m1 pos (leBytes 2 key.length))
    (hm3 : m3 = wr m2 (pos + 2) (leBytes 2 val.length))
    (hm4 : m4 = wr m3 (pos + 4) key)
    (hm5 : m5 = wr m4 (pos + 4 + key.length) val)
    (hm6 : m6 = wr m5 (4 + 8 * N + 2 * idx) (leBytes 2 (off + 4 + key.length + val.length))) :
    (m1.length = m0.length ∧ m2.length = m0.length ∧ m3.length = m0.length ∧
      m4.length = m0.length ∧ m5.length = m0.length ∧ m6.length = m0.length) ∧
    (∀ q m, (q + m ≤ 4 + 8 * idx ∨ 4 + 8 * idx + 8 ≤ q) → rd m1 q m = rd m0 q m) ∧
    (∀ q m, (q + m ≤ 4 + 8 * idx ∨ 4 + 8 * idx + 8 ≤ q) →
      (q + m ≤ pos ∨ pos + 4 + key.length + val.length ≤ q) → rd m5 q m = rd m0 q m) ∧
    (∀ q m, (q + m ≤ 4 + 8 * idx ∨ 4 + 8 * idx + 8 ≤ q) →
      (q + m ≤ 4 + 8 * N + 2 * idx ∨ 4 + 8 * N + 2 * idx + 2 ≤ q) →
      (q + m ≤ pos ∨ pos + 4 + key.length + val.length ≤ q) → rd m6 q m = rd m0 q m) ∧
    rd m6 (4 + 8 * idx) 8 = leBytes 8 ptr ∧
    rd m6 pos 2 = leBytes 2 key.length ∧
    rd m6 (pos + 2) 2 = leBytes 2 val.length ∧
    rd m6 (pos + 4) key.length = key ∧
    rd m6 (pos + 4 + key.length) val.length = val ∧
    rd m6 (4 + 8 * N + 2 * idx) 2 = leBytes 2 (off + 4 + key.length + val.length) := by
  have e1 : (leBytes 8 ptr).length = 8 := length_leBytes _ _
  have e2 : ∀ v, (leBytes 2 v).length = 2 := fun v => length_leBytes _ _
  have l1 : m1.length = m0.length := by rw [hm1]; exact length_wr _ _ _ (by rw [e1]; omega)
  have l2 : m2.length = m0.length := by
    rw [hm2, ← l1]; exact length_wr _ _ _ (by rw [e2]; omega)
  have l3 : m3.length = m0.length := by
    rw [hm3, ← l2]; exact length_wr _ _ _ (by rw [e2]; omega)
  have l4 : m4.length = m0.length := by
    rw [hm4, ← l3]; exact length_wr _ _ _ (by omega)
  have l5 : m5.length = m0.length := by
    rw [hm5, ← l4]; exact length_wr _ _ _ (by omega)
  have l6 : m6.length = m0.length := by
    rw [hm6, ← l5]; exact length_wr _ _ _ (by rw [e2]; omega)
  refine ⟨⟨l1, l2, l3, l4, l5, l6⟩, ?_, ?_, ?_, ?_, ?_, ?_, ?_, ?_, ?_⟩
  · intro q m h1
    rw [hm1, rd_wr_disj _ _ _ _ _ (by rw [e1]; omega) (by rw [e1]; omega)]
  · intro q m h1 h3
    rw [hm5, rd_wr_disj _ _ _ _ _ (by omega) (by omega),
      hm4, rd_wr_disj _ _ _ _ _ (by omega) (by omega),
      hm3, rd_wr_disj _ _ _ _ _ (by rw [e2]; omega) (by rw [e2]; omega),
      hm2, rd_wr_disj _ _ _ _ _ (by rw [e2]; omega) (by rw [e2]; omega),
      hm1, rd_wr_disj _ _ _ _ _ (by rw [e1]; omega) (by rw [e1]; omega)]
  · intro q m h1 h2 h3
    rw [hm6, rd_wr_disj _ _ _ _ _ (by rw [e2]; omega) (by rw [e2]; omega),
      hm5, rd_wr_disj _ _ _ _ _ (by omega) (by omega),
      hm4, rd_wr_disj _ _ _ _ _ (by omega) (by omega),
      hm3, rd_wr_disj _ _ _ _ _ (by rw [e2]; omega) (by rw [e2]; omega),
      hm2, rd_wr_disj _ _ _ _ _ (by rw [e2]; omega) (by rw [e2]; omega),
      hm1, rd_wr_disj _ _ _ _ _ (by rw [e1]; omega) (by rw [e1]; omega)]
  · rw [hm6, rd_wr_disj _ _ _ _ _ (by rw [e2]; omega) (by rw [e2]; omega),
      hm5, rd_wr_disj _ _ _ _ _ (by omega) (by omega),
      hm4, rd_wr_disj _ _ _ _ _ (by omega) (by omega),
      hm3, rd_wr_disj _ _ _ _ _ (by rw [e2]; omega) (by rw [e2]; omega),
      hm2, rd_wr_disj _ _ _ _ _ (by rw [e2]; omega) (by rw [e2]; omega), hm1]
    have := rd_wr_same m0 (4 + 8 * idx) (leBytes 8 ptr) (by rw [e1]; omega)
    rw [e1] at this
    exact this
  · rw [hm6, rd_wr_disj _ _ _ _ _ (by rw [e2]; omega) (by rw [e2]; omega),
      hm5, rd_wr_disj _ _ _ _ _ (by omega) (by omega),
      hm4, rd_wr_disj _ _ _ _ _ (by omega) (by omega),
      hm3, rd_wr_disj _ _ _ _ _ (by rw [e2]; omega) (by rw [e2]; omega), hm2]
    have := rd_wr_same m1 pos (leBytes 2 key.length) (by rw [e2]; omega)
    rw [e2] at this
    exact this
  · rw [hm6, rd_wr_disj _ _ _ _ _ (by rw [e2]; omega) (by rw [e2]; omega),
      hm5, rd_wr_disj _ _ _ _ _ (by omega) (by omega),
      hm4, rd_wr_disj _ _ _ _ _ (by omega) (by omega), hm3]
    have := rd_wr_same m2 (pos + 2) (leBytes 2 val.length) (by rw [e2]; omega)
    rw [e2] at this
    exact this
  · rw [hm6, rd_wr_disj _ _ _ _ _ (by rw [e2]; omega) (by rw [e2]; omega),
      hm5, rd_wr_disj _ _ _ _ _ (by omega) (by omega), hm4]
    exact rd_wr_same _ _ _ (by omega)
  · rw [hm6, rd_wr_disj _ _ _ _ _ (by rw [e2]; omega) (by rw [e2]; omega), hm5]
    exact rd_wr_same _ _ _ (by omega)
  · rw [hm6]
    have := rd_wr_same m5 (4 + 8 * N + 2 * idx)
      (leBytes 2 (off + 4 + key.length + val.length)) (by rw [e2]; omega)
    rw [e2] at this
    exact this

theorem rawU16_congr (a b : BPlusNode) (q : Nat) (h : rd a.mem q 2 = rd b.mem q 2) :
    rawU16 a q = rawU16 b q := by
  unfold rawU16
  rw [h]

theorem count_congr (a b : BPlusNode) (h : rd a.mem 2 2 = rd b.mem 2 2) :
    count a = count b := rawU16_congr a b 2 h

theorem kind_congr (a b : BPlusNode) (h : rd a.mem 0 2 = rd b.mem 0 2) :
    kind a = kind b := rawU16_congr a b 0 h

theorem offsetAt_congr (a b : BPlusNode) (i : Nat) (h : rd a.mem 2 2 = rd b.mem 2 2)
    (hs : i ≠ 0 → rd a.mem (4 + 8 * count b + 2 * (i - 1)) 2
      = rd b.mem (4 + 8 * count b + 2 * (i - 1)) 2) :
    offsetAt a i = offsetAt b i := by
  unfold offsetAt HEADER
  by_cases h0 : i = 0
  · rw [if_pos h0, if_pos h0]
  · rw [if_neg h0, if_neg h0, count_congr a b h]
    exact rawU16_congr _ _ _ (hs h0)

theorem rawU16_of_bytes (a : BPlusNode) (q v : Nat) (h : rd a.mem q 2 = leBytes 2 v)
    (hv : v < 65536) : rawU16 a q = v := by
  unfold rawU16
  rw [h, leNat_leBytes_two]
  omega

theorem nodeAppendKV_run (m0 : List Nat) (len idx ptr : Nat) (key val : List Nat)
    (N off pos : Nat) (m1 m2 m3 m4 m5 m6 : List Nat)
    (hl : len ≤ m0.length) (hN : count ⟨m0, len⟩ = N) (hoff : offsetAt ⟨m0, len⟩ idx = off)
    (hpos : pos = 4 + 10 * N + off) (hidx : idx < N)
    (hfit : pos + 4 + key.length + val.length ≤ len)
    (h16 : pos + 4 + key.length + val.length < 65536)
    (hm1 : m1 = wr m0 (4 + 8 * idx) (leBytes 8 ptr))
    (hm2 : m2 = wr m1 pos (leBytes 2 key.length))
    (hm3 : m3 = wr m2 (pos + 2) (leBytes 2 val.length))
    (hm4 : m4 = wr m3 (pos + 4) key)
    (hm5 : m5 = wr m4 (pos + 4 + key.length) val)
    (hm6 : m6 = wr m5 (4 + 8 * N + 2 * idx) (leBytes 2 (off + 4 + key.length + val.length))) :
    nodeAppendKV ⟨m0, len⟩ idx ptr key val = .ok ⟨m6, len⟩ := by
  obtain ⟨⟨l1, l2, l3, l4, l5, -⟩, f1, f5, -⟩ :=
    kv_chain m0 idx ptr N off pos key val m1 m2 m3 m4 m5 m6 hpos hidx (by omega)
      hm1 hm2 hm3 hm4 hm5 hm6
  have c1 : count ⟨m1, len⟩ = N := by
    rw [count_congr ⟨m1, len⟩ ⟨m0, len⟩ (f1 2 2 (by omega)), hN]
  have o1 : offsetAt ⟨m1, len⟩ idx = off := by
    rw [offsetAt_congr ⟨m1, len⟩ ⟨m0, len⟩ idx (f1 2 2 (by omega))
      (fun h0 => f1 _ 2 (by rw [hN]; omega)), hoff]
  have c5 : count ⟨m5, len⟩ = N := by
    rw [count_congr ⟨m5, len⟩ ⟨m0, len⟩ (f5 2 2 (by omega) (by omega)), hN]
  have o5 : offsetAt ⟨m5, len⟩ idx = off := by
    rw [offsetAt_congr ⟨m5, len⟩ ⟨m0, len⟩ idx (f5 2 2 (by omega) (by omega))
      (fun h0 => f5 _ 2 (by rw [hN]; omega) (by rw [hN]; omega)), hoff]
  clear f1 f5
  have s1 : setPtr ⟨m0, len⟩ idx ptr = .ok ⟨m1, len⟩ := by
    have h := setPtr_ok ⟨m0, len⟩ idx ptr (by rw [hN]; exact hidx)
      (by unfold HEADER BPlusNode.cap; rw [hN]; simp only; omega)
      (by unfold HEADER; rw [hN]; omega)
    unfold HEADER at h
    rw [h, hm1]
  have s2 : kvPos ⟨m1, len⟩ idx = .ok pos := by
    rw [kvPos_ok ⟨m1, len⟩ (by unfold BPlusNode.cap; simp only; omega)
      (by rw [c1, o1]; unfold HEADER; omega) (by rw [c1]; unfold HEADER; simp only; omega)
      (by rw [c1]; omega)]
    unfold recPos HEADER
    rw [c1, o1, hpos]
  have s3 : putU16Range ⟨m1, len⟩ pos (u16 (pos + 2)) (u16 key.length) = .ok ⟨m2, len⟩ := by
    rw [u16_eq (pos + 2) (by omega), u16_eq key.length (by omega),
      putU16Range_ok _ pos (pos + 2) _ rfl (by unfold BPlusNode.cap; simp only; omega), hm2]
  have s4 : putU16Range ⟨m2, len⟩ (u16 (pos + 2)) (u16 (pos + 4)) (u16 val.length)
      = .ok ⟨m3, len⟩ := by
    rw [u16_eq (pos + 2) (by omega), u16_eq (pos + 4) (by omega),
      u16_eq val.length (by omega),
      putU16Range_ok _ (pos + 2) (pos + 4) _ rfl
        (by unfold BPlusNode.cap; simp only; omega), hm3]
  have s5 : copyFrom ⟨m3, len⟩ (u16 (pos + 4)) key = .ok ⟨m4, len⟩ := by
    rw [u16_eq (pos + 4) (by omega), copyFrom_ok _ _ _ (by simp only; omega), hm4]
  have s6 : copyFrom ⟨m4, len⟩ (u16 (pos + 4 + u16 key.length)) val = .ok ⟨m5, len⟩ := by
    rw [u16_eq key.length (by omega), u16_eq (pos + 4 + key.length) (by omega),
      copyFrom_ok _ _ _ (by simp only; omega), hm5]
  have s7 : getOffset ⟨m5, len⟩ idx = .ok off := by
    rw [getOffset_ok ⟨m5, len⟩ (by unfold BPlusNode.cap; simp only; omega)
      (by rw [c5]; unfold HEADER; omega) (by rw [c5]; unfold HEADER; simp only; omega)
      idx (by rw [c5]; omega), o5]
  have s8 : setOffset ⟨m5, len⟩ (u16 (idx + 1))
      (u16 (off + 4 + u16 (key.length + val.length))) = .ok ⟨m6, len⟩ := by
    rw [u16_eq (idx + 1) (by omega), u16_eq (key.length + val.length) (by omega),
      u16_eq (off + 4 + (key.length + val.length)) (by omega),
      setOffset_ok ⟨m5, len⟩ (idx + 1) _ (by omega) (by rw [c5]; omega)
      (by rw [c5]; unfold HEADER; simp only; omega)
      (by unfold BPlusNode.cap; simp only; omega) (by rw [c5]; unfold HEADER; omega)]
    simp only [c5, HEADER, Nat.add_sub_cancel, hm6, ← Nat.add_assoc]
  unfold nodeAppendKV
  simp only [s1, bind, Except.bind, s2, s3, s4, s5, s6, s7, s8]

theorem nodeAppendKV_spec (new : BPlusNode) (idx ptr : Nat) (key val : List Nat)
    (hl : new.len ≤ new.cap) (hidx : idx < count new)
    (hfit : recPos new idx + 4 + key.length + val.length ≤ new.len)
    (h16 : recPos new idx + 4 + key.length + val.length < 65536) :
    ∃ new', nodeAppendKV new idx ptr key val = .ok new' ∧ new'.len = new.len ∧
      new'.mem.length = new.mem.length ∧
      (∀ q m, (q + m ≤ 4 + 8 * idx ∨ 4 + 8 * idx + 8 ≤ q) →
        (q + m ≤ 4 + 8 * count new + 2 * idx ∨
          4 + 8 * count new + 2 * idx + 2 ≤ q) →
        (q + m ≤ recPos new idx ∨
          recPos new idx + 4 + key.length + val.length ≤ q) →
        rd new'.mem q m = rd new.mem q m) ∧
      rd new'.mem (4 + 8 * idx) 8 = leBytes 8 ptr ∧
      rd new'.mem (recPos new idx) 2 = leBytes 2 key.length ∧
      rd new'.mem (recPos new idx + 2) 2 = leBytes 2 val.length ∧
      rd new'.mem (recPos new idx + 4) key.length = key ∧
      rd new'.mem (recPos new idx + 4 + key.length) val.length = val ∧
      rd new'.mem (4 + 8 * count new + 2 * idx) 2
        = leBytes 2 (offsetAt new idx + 4 + key.length + val.length) := by
  obtain ⟨m0, len⟩ := new
  have hp : recPos ⟨m0, len⟩ idx = 4 + 10 * count ⟨m0, len⟩ + offsetAt ⟨m0, len⟩ idx := rfl
  have hrun := nodeAppendKV_run m0 len idx ptr key val _ _ _ _ _ _ _ _ _
    hl rfl rfl hp hidx hfit h16 rfl rfl rfl rfl rfl rfl
  obtain ⟨⟨-, -, -, -, -, l6⟩, -, -, h3⟩ :=
    kv_chain m0 idx ptr _ _ _ key val _ _ _ _ _ _ hp hidx
      (by unfold BPlusNode.cap at hl; simp only at hl hfit; omega) rfl rfl rfl rfl rfl rfl
  exact ⟨_, hrun, rfl, l6, h3⟩

theorem sub16_eq (a b : Nat) (hb : b ≤ a) (ha : a < 65536) : sub16 a b = a - b := by
  unfold sub16
  omega

theorem ptrAt_congr (a b : BPlusNode) (j : Nat)
    (h : rd a.mem (4 + 8 * j) 8 = rd b.mem (4 + 8 * j) 8) : ptrAt a j = ptrAt b j := by
  unfold ptrAt HEADER
  rw [h]

/-! ## View-level effect of the mutators -/

theorem nodeAppendRange_view (new old : BPlusNode) (dst src n : Nat)
    (hnl : new.len ≤ new.mem.length) (hnh : 4 + 10 * count new ≤ new.len)
    (hn16 : 4 + 10 * count new < 65536)
    (hol : old.len ≤ old.mem.length) (hoh : 4 + 10 * count old ≤ old.len)
    (ho16 : 4 + 10 * count old < 65536)
    (hd : dst + n ≤ count new) (hs : src + n ≤ count old) :
    ∃ new', nodeAppendRange new old dst src n = .ok new' ∧ new'.len = new.len ∧
      new'.mem.length = new.mem.length ∧ kind new' = kind new ∧
      count new' = count new ∧
      (∀ i, i ≤ dst → offsetAt new' i = offsetAt new i) ∧
      (∀ t, t < n → offsetAt new' (dst + t + 1) = offsetAt old (src + t + 1)) ∧
      (∀ i, dst + n < i → offsetAt new' i = offsetAt new i) ∧
      (∀ j, j < dst ∨ dst + n ≤ j → j < count new → ptrAt new' j = ptrAt new j) ∧
      (∀ t, t < n → ptrAt new' (dst + t) = ptrAt old (src + t)) ∧
      (∀ q m, 4 + 10 * count new ≤ q → rd new'.mem q m = rd new.mem q m) := by
  obtain ⟨n2, r2, len2, mem2, f2, p2, t2⟩ :=
    nodeAppendRange_spec new old dst src n hnl hnh hn16 hol hoh ho16 hd hs
  unfold HEADER at f2 p2 t2
  have c2 : count n2 = count new := count_congr n2 new (f2 2 2 (by omega) (by omega))
  refine ⟨n2, r2, len2, mem2, kind_congr n2 new (f2 0 2 (by omega) (by omega)), c2,
    ?_, ?_, ?_, ?_, ?_, ?_⟩
  · intro i hi
    exact offsetAt_congr n2 new i (f2 2 2 (by omega) (by omega))
      (fun h0 => f2 _ 2 (by omega) (by omega))
  · intro t ht
    unfold offsetAt HEADER
    rw [if_neg (by omega), if_neg (by omega), c2]
    unfold rawU16
    have h1 := rd_rd n2.mem (4 + 8 * count new + 2 * dst) (2 * n) (2 * t) 2 (by omega)
    have h2 := rd_rd old.mem (4 + 8 * count old + 2 * src) (2 * n) (2 * t) 2 (by omega)
    rw [t2, h2] at h1
    have e1 : 4 + 8 * count new + 2 * (dst + t + 1 - 1) = 4 + 8 * count new + 2 * dst + 2 * t := by
      omega
    have e2 : 4 + 8 * count old + 2 * (src + t + 1 - 1) = 4 + 8 * count old + 2 * src + 2 * t := by
      omega
    rw [e1, e2, h1]
  · intro i hi
    exact offsetAt_congr n2 new i (f2 2 2 (by omega) (by omega))
      (fun h0 => f2 _ 2 (by omega) (by omega))
  · intro j hj hjc
    exact ptrAt_congr n2 new j (f2 _ 8 (by omega) (by omega))
  · intro t ht
    unfold ptrAt HEADER
    have h1 := rd_rd n2.mem (4 + 8 * dst) (8 * n) (8 * t) 8 (by omega)
    have h2 := rd_rd old.mem (4 + 8 * src) (8 * n) (8 * t) 8 (by omega)
    rw [p2, h2] at h1
    have e1 : 4 + 8 * (dst + t) = 4 + 8 * dst + 8 * t := by omega
    have e2 : 4 + 8 * (src + t) = 4 + 8 * src + 8 * t := by omega
    rw [e1, e2, h1]
  · intro q m hq
    exact f2 q m (by omega) (by omega)

theorem nodeAppendKV_view (new : BPlusNode) (idx ptr : Nat) (key val : List Nat)
    (hl : new.len ≤ new.mem.length) (hidx : idx < count new)
    (hfit : recPos new idx + 4 + key.length + val.length ≤ new.len)
    (h16 : recPos new idx + 4 + key.length + val.length < 65536) :
    ∃ new', nodeAppendKV new idx ptr key val = .ok new' ∧ new'.len = new.len ∧
      new'.mem.length = new.mem.length ∧ kind new' = kind new ∧
      count new' = count new ∧
      (∀ i, i ≤ idx → offsetAt new' i = offsetAt new i) ∧
      offsetAt new' (idx + 1) = offsetAt new idx + 4 + key.length + val.length ∧
      (∀ i, idx + 1 < i → i ≤ count new → offsetAt new' i = offsetAt new i) ∧
      ptrAt new' idx = ptr % 2 ^ 64 ∧
      (∀ j, j ≠ idx → j < count new → ptrAt new' j = ptrAt new j) ∧
      rd new'.mem (recPos new idx) 2 = leBytes 2 key.length ∧
      rd new'.mem (recPos new idx + 2) 2 = leBytes 2 val.length ∧
      rd new'.mem (recPos new idx + 4) key.length = key ∧
      rd new'.mem (recPos new idx + 4 + key.length) val.length = val ∧
      (∀ q m, 4 + 10 * count new ≤ q →
        (q + m ≤ recPos new idx ∨ recPos new idx + 4 + key.length + val.length ≤ q) →
        rd new'.mem q m = rd new.mem q m) := by
  obtain ⟨n3, r3, len3, mem3, f3, b0, b1, b2, b3, b4, b5⟩ :=
    nodeAppendKV_spec new idx ptr key val hl hidx hfit h16
  have hrp : recPos new idx = 4 + 10 * count new + offsetAt new idx := rfl
  have c3 : count n3 = count new :=
    count_congr n3 new (f3 2 2 (by omega) (by omega) (by omega))
  refine ⟨n3, r3, len3, mem3,
    kind_congr n3 new (f3 0 2 (by omega) (by omega) (by omega)), c3,
    ?_, ?_, ?_, ?_, ?_, b1, b2, b3, b4, ?_⟩
  · intro i hi
    exact offsetAt_congr n3 new i (f3 2 2 (by omega) (by omega) (by omega))
      (fun h0 => f3 _ 2 (by omega) (by omega) (by omega))
  · have h := rawU16_of_bytes n3 _ _ b5 (by omega)
    unfold offsetAt HEADER
    rw [if_neg (by omega), c3]
    exact h
  · intro i hi hic
    exact offsetAt_congr n3 new i (f3 2 2 (by omega) (by omega) (by omega))
      (fun h0 => f3 _ 2 (by omega) (by omega) (by omega))
  · unfold ptrAt HEADER
    rw [b0, leNat_leBytes]
    norm_num
  · intro j hj hjc
    exact ptrAt_congr n3 new j (f3 _ 8 (by omega) (by omega) (by omega))
  · intro q m hq hd
    exact f3 q m (by omega) (by omega) hd

/-! ## Updating a leaf record -/

theorem leafUpdate_spec (new old : BPlusNode) (idx : Nat) (key val : List Nat)
    (hnl : new.len ≤ new.mem.length) (hwf : WellFormed old) (hidx : idx < count old)
    (hfit : recPos old idx + 4 + key.length + val.length ≤ new.len)
    (h16 : recPos old idx + 4 + key.length + val.length < 65536) :
    ∃ new', leafUpdate new old idx key val = .ok new' ∧ new'.len = new.len ∧
      new'.mem.length = new.mem.length ∧
      kind new' = BNODE_LEAF ∧ count new' = count old ∧
      offsetAt new' idx = offsetAt old idx ∧
      rd new'.mem (recPos old idx) 2 = leBytes 2 key.length ∧
      rd new'.mem (recPos old idx + 2) 2 = leBytes 2 val.length ∧
      rd new'.mem (recPos old idx + 4) key.length = key ∧
      rd new'.mem (recPos old idx + 4 + key.length) val.length = val := by
  obtain ⟨ho1, -, ho3, ho4⟩ := wf_cap old hwf
  have hrp : recPos old idx = 4 + 10 * count old + offsetAt old idx := rfl
  unfold HEADER at ho1 ho3
  have ho4' : old.len ≤ old.mem.length := ho4
  have hcap : 4 + 10 * count old ≤ new.len := by omega
  clear ho4
  -- header
  obtain ⟨n1, r1, len1, mem1, k1, c1, -⟩ :=
    setHeader_spec new BNODE_LEAF (count old) (by unfold BPlusNode.cap; omega)
      (by decide) (by omega)
  -- prefix of the tables
  obtain ⟨n2, r2, len2, mem2, k2, c2, -, o2, -, -, -, -⟩ :=
    nodeAppendRange_view n1 old 0 0 idx (by omega) (by omega) (by omega) ho4' ho1 ho3
      (by omega) (by omega)
  have o2' : offsetAt n2 idx = offsetAt old idx := by
    by_cases h0 : idx = 0
    · subst h0; rfl
    · have h := o2 (idx - 1) (by omega)
      have e : 0 + (idx - 1) + 1 = idx := by omega
      rw [e] at h
      exact h
  have hrp2 : recPos n2 idx = recPos old idx := by
    unfold recPos; rw [c2, c1, o2']
  clear o2
  -- the record
  obtain ⟨n3, r3, len3, mem3, k3, c3, o3, -, -, -, -, b1, b2, b3, b4, -⟩ :=
    nodeAppendKV_view n2 idx 0 key val (by omega) (by omega)
      (by rw [hrp2]; omega) (by rw [hrp2]; omega)
  rw [hrp2] at b1 b2 b3 b4
  have o3' := o3 idx (Nat.le_refl _)
  clear o3
  -- suffix of the tables
  have hi1 : u16 (idx + 1) = idx + 1 := u16_eq _ (by omega)
  have hcnt : sub16 (sub16 (count old) idx) 1 = count old - idx - 1 := by
    rw [sub16_eq (count old) idx (by omega) (by omega), sub16_eq _ 1 (by omega) (by omega)]
  obtain ⟨n4, r4, len4, mem4, k4, c4, o4, -, -, -, -, f4⟩ :=
    nodeAppendRange_view n3 old (idx + 1) (idx + 1) (count old - idx - 1)
      (by omega) (by omega) (by omega) ho4' ho1 ho3 (by omega) (by omega)
  have o4' := o4 idx (Nat.le_succ _)
  clear o4
  have hq : 4 + 10 * count n3 ≤ recPos old idx := by omega
  refine ⟨n4, ?_, by omega, by omega, ?_, ?_, ?_, ?_, ?_, ?_, ?_⟩
  · unfold leafUpdate
    rw [nkeys_eq old hwf]
    simp only [bind, Except.bind, r1, r2, r3, hi1, hcnt, r4]
  · rw [k4, k3, k2, k1]
  · rw [c4, c3, c2, c1]
  · rw [o4', o3', o2']
  · rw [f4 _ _ hq, b1]
  · rw [f4 _ _ (Nat.le_add_right_of_le hq), b2]
  · rw [f4 _ _ (Nat.le_add_right_of_le hq), b3]
  · rw [f4 _ _ (Nat.le_add_right_of_le (Nat.le_add_right_of_le hq)), b4]

theorem nodeLookupLE_exact (node : BPlusNode) (hwf : WellFormed node)
    (hasc : StrictAsc node) (i : Nat) (hi : i < count node) :
    nodeLookupLE node (keyAt node i) = .ok i := by
  obtain ⟨res, hr, hor, hle, hgt⟩ := nodeLookupLE_spec node (keyAt node i) hwf hasc
  have h0 : bytesCompare (keyAt node i) (keyAt node i) ≤ 0 := by
    rw [bytesCompare_self]
  have h1 : i ≤ res := by
    by_contra hcon
    exact hgt i (by omega) hi h0
  have h2 : res ≤ i := by
    by_contra hcon
    have hlt : res < count node := by omega
    exact bytesCompare_antisymm _ _ (strictAsc_lt node hasc i res (by omega) hlt)
      (hle res (by omega) (Nat.le_refl _))
  rw [hr]
  congr 1
  omega

theorem make_len (n : Nat) : (make n).len = n := rfl

theorem make_mem_length (n : Nat) : (make n).mem.length = n := by
  simp [make]

theorem treeInsert_leaf_update {σ : Type} (tree : BPlusTree σ) (fuel : Nat) (st : σ)
    (leaf : BPlusNode) (idx : Nat) (key val : List Nat)
    (hlk : nodeLookupLE leaf key = .ok idx) (hbt : btype leaf = .ok BNODE_LEAF)
    (hk : getKey leaf idx = .ok key) :
    treeInsert tree fuel st leaf key val =
      (leafUpdate (make (2 * BTREE_PAGE_SIZE)) leaf idx key val).map (fun new => (new, st)) := by
  have hbe : bytesEqual key key = true := by simp [bytesEqual]
  cases fuel <;>
    simp only [treeInsert, treeInsertBody, hlk, hbt, hk, bind, Except.bind, if_true, hbe] <;>
    cases leafUpdate (make (2 * BTREE_PAGE_SIZE)) leaf idx key val <;> rfl

/-- C2: inserting a key that a well-formed leaf already holds at index `i`
returns a Leaf node with the same count whose record `i` has that key and the
new value. -/
theorem treeInsert_existing_key {σ : Type} (tree : BPlusTree σ) (fuel : Nat) (st : σ)
    (leaf : BPlusNode) (n b i : Nat) (k v : List Nat)
    (hwf : WellFormed leaf) (hasc : StrictAsc leaf)
    (hbt : btype leaf = .ok BNODE_LEAF) (hn : nkeys leaf = .ok n) (h1 : 1 ≤ n)
    (hb : nbytes leaf = .ok b) (hb4 : b ≤ BTREE_PAGE_SIZE)
    (hi : i < n) (hk : getKey leaf i = .ok k) (hv : v.length ≤ BTREE_MAX_VAL_SIZE) :
    ∃ new, treeInsert tree fuel st leaf k v = .ok (new, st) ∧
      btype new = .ok BNODE_LEAF ∧ nkeys new = .ok n ∧
      getKey new i = .ok k ∧ getVal new i = .ok v := by
  rw [nkeys_eq leaf hwf] at hn
  cases hn
  rw [nbytes_eq leaf hwf] at hb
  cases hb
  rw [getKey_eq leaf hwf i hi] at hk
  cases hk
  unfold BTREE_PAGE_SIZE at hb4
  unfold BTREE_MAX_VAL_SIZE at hv
  have hsucc := recPos_succ leaf hwf i hi
  have hle := recPos_le_size leaf hwf (i + 1) hi
  have hkl : (keyAt leaf i).length = klenAt leaf i := by
    unfold keyAt
    exact length_rd _ _ _ (by
      have := hwf.2.1
      have := hwf.1
      unfold BPlusNode.cap at *
      omega)
  obtain ⟨new, hrun, hlen, hmem, hkind, hcount, hoff, b1, b2, b3, b4⟩ :=
    leafUpdate_spec (make (2 * BTREE_PAGE_SIZE)) leaf i (keyAt leaf i) v
      (by rw [make_len, make_mem_length]) hwf hi
      (by rw [make_len]; unfold BTREE_PAGE_SIZE; omega) (by omega)
  rw [make_len] at hlen
  rw [make_mem_length] at hmem
  unfold BTREE_PAGE_SIZE at hlen hmem
  have hpos : recPos new i = recPos leaf i := by
    unfold recPos; rw [hcount, hoff]
  have hhead : 4 + 10 * count leaf ≤ recPos leaf i := by unfold recPos HEADER; omega
  have hkv : kvPos new i = .ok (recPos leaf i) := by
    rw [kvPos_ok new (by unfold BPlusNode.cap; omega)
      (by rw [hcount, hoff]; unfold recPos HEADER at *; omega)
      (by rw [hcount]; unfold HEADER; omega) (by omega), hpos]
  have hr1 : rawU16 new (recPos leaf i) = (keyAt leaf i).length :=
    rawU16_of_bytes new _ _ b1 (by omega)
  have hr2 : rawU16 new (recPos leaf i + 2) = v.length :=
    rawU16_of_bytes new _ _ b2 (by omega)
  refine ⟨new, ?_, ?_, ?_, ?_, ?_⟩
  · rw [treeInsert_leaf_update tree fuel st leaf i _ v
      (nodeLookupLE_exact leaf hwf hasc i hi) hbt (getKey_eq leaf hwf i hi), hrun]
    rfl
  · rw [btype_ok new (by unfold BPlusNode.cap; omega), hkind]
  · rw [nkeys_ok new (by unfold BPlusNode.cap; omega), hcount]
  · rw [getKey_ok new i _ hkv (by unfold BPlusNode.cap; omega) (by omega) (by omega),
      hr1, b3]
  · rw [getVal_ok new i _ hkv (by unfold BPlusNode.cap; omega) (by omega) (by omega),
      hr1, hr2, b4]

/-- C2, at a concrete input: the leaf `"k1" → "v1"` updated with `"k1" → "v2"`. -/
theorem treeInsert_existing_key_witness :
    ∃ new, treeInsert noStore 0 () leafK1 [107, 49] [118, 50] = .ok (new, ()) ∧
      btype new = .ok BNODE_LEAF ∧ nkeys new = .ok 1 ∧
      getKey new 0 = .ok [107, 49] ∧ getVal new 0 = .ok [118, 50] :=
  treeInsert_existing_key noStore 0 () leafK1 1 22 0 [107, 49] [118, 50]
    (by decide!) (by decide!) (by decide!) (by decide!) (by decide!) (by decide!)
    (by decide!) (by decide!) (by decide!) (by decide!)

theorem length_keyAt (node : BPlusNode) (hwf : WellFormed node) (i : Nat)
    (hi : i < count node) : (keyAt node i).length = klenAt node i := by
  have h1 := recPos_succ node hwf i hi
  have h2 := recPos_le_size node hwf (i + 1) hi
  have h3 := hwf.2.1
  have h4 : node.len ≤ node.mem.length := hwf.1
  unfold keyAt
  exact length_rd _ _ _ (by omega)

theorem replaceKidsLoop_spec {σ : Type} (tree : BPlusTree σ) (idx : Nat)
    (kids : List BPlusNode) (i : Nat) (st : σ) (new : BPlusNode)
    (hl : new.len ≤ new.mem.length)
    (hcnt : idx + i + kids.length ≤ count new)
    (hfit : recPos new (idx + i) + 1004 * kids.length ≤ new.len)
    (h16 : recPos new (idx + i) + 1004 * kids.length < 65536)
    (hkids : ∀ kid, kid ∈ kids → WellFormed kid ∧ 1 ≤ count kid ∧ klenAt kid 0 ≤ 1000) :
    ∃ new' st', replaceKidsLoop tree idx kids i st new = .ok (new', st') ∧
      new'.len = new.len ∧ new'.mem.length = new.mem.length ∧
      kind new' = kind new ∧ count new' = count new ∧
      (∀ t, t ≤ idx + i → offsetAt new' t = offsetAt new t) ∧
      (∀ j, j < idx + i → ptrAt new' j = ptrAt new j) ∧
      recPos new' (idx + i + kids.length) ≤ recPos new (idx + i) + 1004 * kids.length ∧
      (∀ q m, 4 + 10 * count new ≤ q → q + m ≤ recPos new (idx + i) →
        rd new'.mem q m = rd new.mem q m) ∧
      (∀ j kid, kids[j]? = some kid →
        HasEntry new' (idx + i + j) ((kidPtrs tree st kids).getD j 0 % 2 ^ 64)
          (keyAt kid 0) [] ∧
        recPos new' (idx + i + j) + 4 + (keyAt kid 0).length
          ≤ recPos new (idx + i) + 1004 * kids.length) := by
  induction kids generalizing i st new with
  | nil =>
    refine ⟨new, st, rfl, rfl, rfl, rfl, rfl, fun _ _ => rfl, fun _ _ => rfl, ?_,
      fun _ _ _ _ => rfl, ?_⟩
    · simp
    · intro j kid h; simp at h
  | cons kid rest ih =>
    obtain ⟨hkwf, hkc, hkl⟩ := hkids kid (List.mem_cons_self _ _)
    have hgk := getKey_eq kid hkwf 0 (by omega)
    have hklen : (keyAt kid 0).length = klenAt kid 0 := length_keyAt kid hkwf 0 (by omega)
    simp only [List.length_cons] at hcnt hfit h16
    have hrp : recPos new (idx + i) = 4 + 10 * count new + offsetAt new (idx + i) := rfl
    obtain ⟨n1, r1, len1, mem1, k1, c1, o1, o1s, -, p1, p1o, b1, b2, b3, b4, f1⟩ :=
      nodeAppendKV_view new (idx + i) (tree.new st kid).1 (keyAt kid 0) [] hl (by omega)
        (by simp only [List.length_nil]; omega) (by simp only [List.length_nil]; omega)
    simp only [List.length_nil, Nat.add_zero] at o1s
    have hrp1 : recPos n1 (idx + (i + 1)) = recPos new (idx + i) + 4 + (keyAt kid 0).length := by
      unfold recPos HEADER
      rw [c1, ← Nat.add_assoc idx i 1, o1s]
      omega
    obtain ⟨n2, st2, r2, len2, mem2, k2, c2, o2, p2, rp2, f2, e2⟩ :=
      ih (i + 1) (tree.new st kid).2 n1 (by omega) (by rw [c1]; omega)
        (by omega) (by omega)
        (fun k hk => hkids k (List.mem_cons_of_mem _ hk))
    have hui : u16 (idx + u16 i) = idx + i := by
      rw [u16_eq i (by have := count_lt new; omega),
        u16_eq (idx + i) (by have := count_lt new; omega)]
    have hpos : recPos n2 (idx + i) = recPos new (idx + i) := by
      unfold recPos
      rw [c2, c1, o2 (idx + i) (by omega), o1 (idx + i) (Nat.le_refl _)]
    refine ⟨n2, st2, ?_, by omega, by omega, by rw [k2, k1], by rw [c2, c1], ?_, ?_, ?_, ?_, ?_⟩
    · unfold replaceKidsLoop
      simp only [hgk, bind, Except.bind, hui, r1, r2]
    · intro t ht
      rw [o2 t (by omega), o1 t ht]
    · intro j hj
      rw [p2 j (by omega), p1o j (by omega) (by omega)]
    · simp only [List.length_cons]
      have e : idx + i + (rest.length + 1) = idx + (i + 1) + rest.length := by omega
      rw [e]
      omega
    · intro q m hq hqm
      rw [f2 q m (by rw [c1]; exact hq) (by omega),
        f1 q m hq (Or.inl hqm)]
    · intro j k hj
      cases j with
      | zero =>
        simp only [List.getElem?_cons_zero, Option.some.injEq] at hj
        subst hj
        simp only [kidPtrs, List.getD_cons_zero, Nat.add_zero, List.length_cons]
        unfold HasEntry
        rw [hpos]
        have hq : 4 + 10 * count n1 ≤ recPos new (idx + i) := by rw [c1, hrp]; omega
        refine ⟨⟨?_, ?_, ?_, ?_, ?_⟩, by omega⟩
        · rw [p2 (idx + i) (by omega), p1]
        · rw [f2 _ _ hq (by omega), b1]
        · rw [f2 _ _ (by omega) (by omega), b2]
        · rw [f2 _ _ (by omega) (by omega), b3]
        · simp [rd]
      | succ j =>
        simp only [List.getElem?_cons_succ] at hj
        obtain ⟨h, hb⟩ := e2 j k hj
        have e : idx + (i + 1) + j = idx + i + (j + 1) := by omega
        rw [e] at h hb
        refine ⟨by simpa [kidPtrs] using h, ?_⟩
        simp only [List.length_cons]
        omega

/-! ## Replacing a child link -/

theorem kidPtrs_lt {σ : Type} (tree : BPlusTree σ)
    (hids : ∀ s kid, (tree.new s kid).1 < 2 ^ 64) (kids : List BPlusNode) (st : σ)
    (i : Nat) : (kidPtrs tree st kids).getD i 0 < 2 ^ 64 := by
  induction kids generalizing st i with
  | nil => simp [kidPtrs]
  | cons kid rest ih =>
    cases i with
    | zero => simpa [kidPtrs] using hids st kid
    | succ i => simpa [kidPtrs] using ih (tree.new st kid).2 i

theorem nodeReplaceKidNode_spec {σ : Type} (tree : BPlusTree σ) (st : σ)
    (new old : BPlusNode) (idx : Nat) (kids : List BPlusNode)
    (hnl : new.len ≤ new.mem.length) (hnew : 8192 ≤ new.len)
    (hwf : WellFormed old) (hsz : nodeSize old ≤ 4096) (hidx : idx < count old)
    (hk1 : 1 ≤ kids.length) (hk3 : kids.length ≤ 3)
    (hkids : ∀ kid, kid ∈ kids → WellFormed kid ∧ 1 ≤ count kid ∧ klenAt kid 0 ≤ 1000) :
    ∃ new' st', nodeReplaceKidNode tree st new old idx kids = .ok (new', st') ∧
      new'.len = new.len ∧ new'.mem.length = new.mem.length ∧
      kind new' = BNODE_INTERNAL ∧ count new' = count old + kids.length - 1 ∧
      (∀ j kid, kids[j]? = some kid →
        HasEntry new' (idx + j) ((kidPtrs tree st kids).getD j 0 % 2 ^ 64)
          (keyAt kid 0) [] ∧
        recPos new' (idx + j) + 4 + (keyAt kid 0).length ≤ 8000) := by
  obtain ⟨ho1, -, ho3, ho4⟩ := wf_cap old hwf
  unfold HEADER at ho1 ho3
  have ho4' : old.len ≤ old.mem.length := ho4
  clear ho4
  have hoff := offsetAt_mono old hwf idx (count old) (by omega) (Nat.le_refl _)
  have hns : nodeSize old = 4 + 10 * count old + offsetAt old (count old) := rfl
  -- header
  obtain ⟨n1, r1, len1, mem1, k1, c1, -⟩ :=
    setHeader_spec new BNODE_INTERNAL (count old + kids.length - 1)
      (by unfold BPlusNode.cap; omega) (by decide) (by omega)
  -- prefix of the tables
  obtain ⟨n2, r2, len2, mem2, k2, c2, -, o2, -, -, -, -⟩ :=
    nodeAppendRange_view n1 old 0 0 idx (by omega) (by omega) (by omega) ho4' ho1 ho3
      (by omega) (by omega)
  have o2' : offsetAt n2 idx = offsetAt old idx := by
    by_cases h0 : idx = 0
    · subst h0; rfl
    · have h := o2 (idx - 1) (by omega)
      have e : 0 + (idx - 1) + 1 = idx := by omega
      rw [e] at h
      exact h
  clear o2
  have hrp2 : recPos n2 (idx + 0) = 4 + 10 * (count old + kids.length - 1) + offsetAt old idx := by
    unfold recPos HEADER; rw [c2, c1, Nat.add_zero, o2']
  -- the new entries
  obtain ⟨n3, st3, r3, len3, mem3, k3, c3, o3, p3, -, -, e3⟩ :=
    replaceKidsLoop_spec tree idx kids 0 st n2 (by omega) (by omega) (by omega) (by omega)
      hkids
  -- suffix of the tables
  obtain ⟨n4, r4, len4, mem4, k4, c4, o4, -, -, p4, -, f4⟩ :=
    nodeAppendRange_view n3 old (idx + kids.length) (idx + 1) (count old - idx - 1)
      (by omega) (by omega) (by omega) ho4' ho1 ho3 (by omega) (by omega)
  refine ⟨n4, st3, ?_, by omega, by omega, by rw [k4, k3, k2, k1], by omega, ?_⟩
  · have hinc : u16 kids.length = kids.length := u16_eq _ (by omega)
    have hN : sub16 (u16 (count old + kids.length)) 1 = count old + kids.length - 1 := by
      rw [u16_eq _ (by omega), sub16_eq _ 1 (by omega) (by omega)]
    have hd : u16 (idx + kids.length) = idx + kids.length := u16_eq _ (by omega)
    have hi1 : u16 (idx + 1) = idx + 1 := u16_eq _ (by omega)
    have hcnt : sub16 (sub16 (count old) idx) 1 = count old - idx - 1 := by
      rw [sub16_eq (count old) idx (by omega) (by omega), sub16_eq _ 1 (by omega) (by omega)]
    unfold nodeReplaceKidNode
    rw [nkeys_eq old hwf]
    simp only [bind, Except.bind, hinc, hN, r1, r2, r3, hd, hi1, hcnt, r4]
    rfl
  · intro j kid hj
    have hjl : j < kids.length := by
      rcases Nat.lt_or_ge j kids.length with h | h
      · exact h
      · rw [List.getElem?_eq_none h] at hj; cases hj
    obtain ⟨⟨q1, q2, q3, q4, q5⟩, hb⟩ := e3 j kid hj
    simp only [Nat.add_zero] at q1 q2 q3 q4 q5 hb hrp2
    have hpos : recPos n4 (idx + j) = recPos n3 (idx + j) := by
      unfold recPos
      rw [c4, o4 (idx + j) (by omega)]
    have hq : 4 + 10 * count n3 ≤ recPos n3 (idx + j) := by unfold recPos HEADER; omega
    unfold HasEntry
    rw [hpos]
    refine ⟨⟨?_, ?_, ?_, ?_, ?_⟩, by omega⟩
    · rw [p4 (idx + j) (Or.inl (by omega)) (by omega), q1]
    · rw [f4 _ _ hq, q2]
    · rw [f4 _ _ (by omega), q3]
    · rw [f4 _ _ (by omega), q4]
    · simp [rd]

/-- C10: on a well-formed node `old` that fits a page, with `idx` below its
count and one to three well-formed non-empty kids whose first keys respect the
key size limit, `nodeReplaceKidNode` (writing into a buffer of two pages)
returns an Internal node with `old.nkeys() + len(kids) - 1` entries in which
entry `idx + i` carries the first key of `kids[i]` and the page id that
`tree.new` returned for `kids[i]`. -/
theorem nodeReplaceKidNode_entries {σ : Type} (tree : BPlusTree σ) (st : σ)
    (new old : BPlusNode) (idx : Nat) (kids : List BPlusNode) (n b : Nat)
    (hnl : new.len ≤ new.cap) (hnew : 2 * BTREE_PAGE_SIZE ≤ new.len)
    (hwf : WellFormed old) (hn : nkeys old = .ok n) (hb : nbytes old = .ok b)
    (hb4 : b ≤ BTREE_PAGE_SIZE) (hidx : idx < n)
    (hk1 : 1 ≤ kids.length) (hk3 : kids.length ≤ 3)
    (hkids : ∀ kid, kid ∈ kids →
      WellFormed kid ∧ 1 ≤ count kid ∧ klenAt kid 0 ≤ BTREE_MAX_KEY_SIZE)
    (hids : ∀ s kid, (tree.new s kid).1 < 2 ^ 64) :
    ∃ new' st', nodeReplaceKidNode tree st new old idx kids = .ok (new', st') ∧
      btype new' = .ok BNODE_INTERNAL ∧ nkeys new' = .ok (n + kids.length - 1) ∧
      ∀ i kid, kids[i]? = some kid →
        (∃ k, getKey kid 0 = .ok k ∧ getKey new' (idx + i) = .ok k) ∧
        getPtr new' (idx + i) = .ok ((kidPtrs tree st kids).getD i 0) := by
  rw [nkeys_eq old hwf] at hn
  cases hn
  rw [nbytes_eq old hwf] at hb
  cases hb
  unfold BTREE_PAGE_SIZE at hb4 hnew
  unfold BTREE_MAX_KEY_SIZE at hkids
  obtain ⟨new', st', hrun, hlen, hmem, hkind, hcount, hent⟩ :=
    nodeReplaceKidNode_spec tree st new old idx kids hnl (by omega) hwf hb4 hidx hk1 hk3
      hkids
  have hnl' : new.len ≤ new.mem.length := hnl
  have hcl := count_lt old
  have hhs := header_le_size old
  unfold HEADER at hhs
  refine ⟨new', st', hrun, ?_, ?_, ?_⟩
  · rw [btype_ok new' (by unfold BPlusNode.cap; omega), hkind]
  · rw [nkeys_ok new' (by unfold BPlusNode.cap; omega), hcount]
  · intro i kid hi
    have hil : i < kids.length := by
      rcases Nat.lt_or_ge i kids.length with h | h
      · exact h
      · rw [List.getElem?_eq_none h] at hi; cases hi
    obtain ⟨hkwf, hkc, -⟩ := hkids kid (List.getElem?_mem hi)
    obtain ⟨⟨q1, q2, -, q4, -⟩, hbd⟩ := hent i kid hi
    have hidlt : (kidPtrs tree st kids).getD i 0 < 2 ^ 64 := kidPtrs_lt tree hids kids st i
    have hrp : recPos new' (idx + i) = 4 + 10 * count new' + offsetAt new' (idx + i) := rfl
    have hkv : kvPos new' (idx + i) = .ok (recPos new' (idx + i)) :=
      kvPos_ok new' (by unfold BPlusNode.cap; omega) (by unfold HEADER; omega)
        (by unfold HEADER; omega) (by omega)
    have hr1 : rawU16 new' (recPos new' (idx + i)) = (keyAt kid 0).length :=
      rawU16_of_bytes new' _ _ q2 (by omega)
    refine ⟨⟨keyAt kid 0, getKey_eq kid hkwf 0 (by omega), ?_⟩, ?_⟩
    · rw [getKey_ok new' (idx + i) _ hkv (by unfold BPlusNode.cap; omega) (by omega)
        (by omega), hr1, q4]
    · rw [getPtr_ok new' (idx + i) (by omega) (by unfold HEADER BPlusNode.cap; omega)
        (by unfold HEADER; omega), q1, Nat.mod_eq_of_lt hidlt]

/-- C10, at a concrete input: the child at index 1 of `internalM` replaced by
the two leaves `leafMN` and `leafP`. -/
theorem nodeReplaceKidNode_entries_witness :
    ∃ new' st', nodeReplaceKidNode idStore 0 (make (2 * BTREE_PAGE_SIZE)) internalM 1
        [leafMN, leafP] = .ok (new', st') ∧
      btype new' = .ok BNODE_INTERNAL ∧ nkeys new' = .ok (2 + [leafMN, leafP].length - 1) ∧
      ∀ i kid, [leafMN, leafP][i]? = some kid →
        (∃ k, getKey kid 0 = .ok k ∧ getKey new' (1 + i) = .ok k) ∧
        getPtr new' (1 + i) = .ok ((kidPtrs idStore 0 [leafMN, leafP]).getD i 0) :=
  nodeReplaceKidNode_entries idStore 0 (make (2 * BTREE_PAGE_SIZE)) internalM 1
    [leafMN, leafP] 2 33 (by decide!) (by decide!) (by decide!) (by decide!) (by decide!)
    (by decide!) (by decide!) (by decide!) (by decide!) (by decide!)
    (fun s _ => Nat.mod_lt _ (by decide))

/-! ## Leaf insertion and the split engine on concrete pages -/

/-- C3: inserting the new key `"b"` into the leaf `"a" → "x"` returns a leaf of
count 2 whose keys are `""` and `"b"` and whose values are `""` and `"y"`: the
record `"a" → "x"` of the input is gone. -/
theorem treeInsert_new_key_drops_records :
    WellFormed leafA ∧ StrictAsc leafA ∧
    (treeInsert noStore 0 () leafA [98] [121]).map
        (fun r => (nkeys r.1, keysOf r.1, valsOf r.1))
      = .ok (.ok 2, .ok [[], [98]], .ok [[], [121]]) := by
  decide!

/-- C4: inserting `"d"` into the leaf with keys `"a"`, `"c"` returns a node
with keys `""`, `""`, `"d"`, which are not strictly ascending. -/
theorem treeInsert_breaks_key_order :
    WellFormed leafAC ∧ StrictAsc leafAC ∧
    (treeInsert noStore 0 () leafAC [100] [119]).map
        (fun r => (keysOf r.1, decide (StrictAsc r.1)))
      = .ok (.ok [[], [], [100]], false) := by
  decide!

/-- C6: `nodeSplit3` on the five-record leaf `bigLeaf` returns two nodes whose
keys are `""`, `""` and `""`, `""`, `""`, not the keys `"a".."e"` of the input. -/
theorem nodeSplit3_loses_keys :
    WellFormed bigLeaf ∧ StrictAsc bigLeaf ∧ WithinLimits bigLeaf ∧
    nbytes bigLeaf = .ok 5079 ∧
    keysOf bigLeaf = .ok [[97], [98], [99], [100], [101]] ∧
    (nodeSplit3 bigLeaf).map (fun r => (r.1, (r.2.take r.1).map keysOf))
      = .ok (2, [.ok [[], []], .ok [[], [], []]]) := by
  decide!

/-- C7: `nodeSplit3` on the seven-key internal node `bigInternal7` returns two
nodes and the second one has `nbytes() = 4140`, more than a page. -/
theorem nodeSplit3_oversized_right :
    WellFormed bigInternal7 ∧ StrictAsc bigInternal7 ∧ WithinLimits bigInternal7 ∧
    nbytes bigInternal7 = .ok 5002 ∧
    (nodeSplit3 bigInternal7).map (fun r => (r.1, (r.2.take r.1).map nbytes))
      = .ok (2, [.ok 34, .ok 4140]) := by
  decide!

/-- C9: `nodeSplit3` on the ten-key internal node `bigInternal10` reaches the
panic "left node too big!". -/
theorem nodeSplit3_panics :
    WellFormed bigInternal10 ∧ StrictAsc bigInternal10 ∧ WithinLimits bigInternal10 ∧
    nbytes bigInternal10 = .ok 5144 ∧
    nodeSplit3 bigInternal10 = .error Fault.leftTooBig := by
  decide!

/-! ## Nodes that already fit a page -/

theorem wellFormed_reslice (old : BPlusNode) (hwf : WellFormed old)
    (hsz : nodeSize old ≤ BTREE_PAGE_SIZE) (hlen : BTREE_PAGE_SIZE ≤ old.len) :
    WellFormed ⟨old.mem, BTREE_PAGE_SIZE⟩ := by
  obtain ⟨h1, h2, h3, h4⟩ := hwf
  refine ⟨?_, hsz, h3, h4⟩
  unfold BPlusNode.cap at *
  simp only
  omega

/-- C8 (amended): when `old.nbytes() ≤ 4096` and the buffer has at least 4096
bytes, `nodeSplit3` returns count 1 and the node `old[:4096]` (the same bytes,
length 4096); its kind, count and every pointer are those of `old`, and when
`old` is well-formed so are every key and value. -/
theorem nodeSplit3_fits (old : BPlusNode) (b : Nat)
    (hv : old.len ≤ old.cap) (hlen : BTREE_PAGE_SIZE ≤ old.len)
    (hb : nbytes old = .ok b) (hb4 : b ≤ BTREE_PAGE_SIZE) :
    ∃ out, nodeSplit3 old = .ok (1, [out, nilNode, nilNode]) ∧
      out.len = BTREE_PAGE_SIZE ∧ out.mem = old.mem ∧
      btype out = btype old ∧ nkeys out = nkeys old ∧
      (∀ i, getPtr out i = getPtr old i) ∧
      (WellFormed old → ∀ i, i < count old →
        getKey out i = getKey old i ∧ getVal out i = getVal old i) := by
  refine ⟨⟨old.mem, BTREE_PAGE_SIZE⟩, ?_, rfl, rfl, rfl, rfl, fun _ => rfl, ?_⟩
  · unfold nodeSplit3
    rw [hb]
    simp only [bind, Except.bind]
    rw [if_pos hb4]
    unfold resliceTo
    rw [if_pos (by omega)]
    rfl
  · intro hwf i hi
    rw [nbytes_eq old hwf] at hb
    cases hb
    have hwf' := wellFormed_reslice old hwf hb4 hlen
    rw [getKey_eq old hwf i hi, getVal_eq old hwf i hi,
      getKey_eq _ hwf' i hi, getVal_eq _ hwf' i hi]
    exact ⟨rfl, rfl⟩

/-- C8, at a concrete input: the leaf `"a","c"` in a page-sized buffer. -/
theorem nodeSplit3_fits_witness :
    ∃ out, nodeSplit3 leafAC = .ok (1, [out, nilNode, nilNode]) ∧
      out.len = BTREE_PAGE_SIZE ∧ out.mem = leafAC.mem ∧
      btype out = btype leafAC ∧ nkeys out = nkeys leafAC ∧
      (∀ i, getPtr out i = getPtr leafAC i) ∧
      (WellFormed leafAC → ∀ i, i < count leafAC →
        getKey out i = getKey leafAC i ∧ getVal out i = getVal leafAC i) :=
  nodeSplit3_fits leafAC 36 (by decide!) (by decide!) (by decide!) (by decide!)

/-- C8 as stated fails on `strayLeaf`: the buffer has 8192 bytes and
`nbytes() = 34`, `nodeSplit3` returns one node of length 4096, but `getKey(1)`
is `"z"` on the input and a slice-bounds panic on the returned node. -/
theorem nodeSplit3_fits_counterexample :
    strayLeaf.len ≤ strayLeaf.cap ∧ BTREE_PAGE_SIZE ≤ strayLeaf.len ∧
    nbytes strayLeaf = .ok 34 ∧ getKey strayLeaf 1 = .ok [122] ∧
    (nodeSplit3 strayLeaf).map
        (fun r => (r.1, (r.2.take r.1).map (fun out => (out.len, getKey out 1))))
      = .ok (1, [(4096, .error Fault.sliceBounds)]) := by
  decide!

/-! ## Insertion into the empty leaf -/

theorem setPtr_last_fails (new : BPlusNode) (idx val : Nat) (hc : 4 ≤ new.cap)
    (hi : count new ≤ idx) : setPtr new idx val = .error Fault.indexOutOfRange := by
  unfold setPtr
  rw [nkeys_ok new hc]
  simp only [bind, Except.bind]
  rw [if_pos (by omega)]

theorem nodeAppendKV_last_fails (new : BPlusNode) (idx ptr : Nat) (key val : List Nat)
    (hc : 4 ≤ new.cap) (hi : count new ≤ idx) :
    nodeAppendKV new idx ptr key val = .error Fault.indexOutOfRange := by
  unfold nodeAppendKV
  rw [setPtr_last_fails new idx ptr hc hi]
  rfl

theorem leafUpdate_emptyLeaf (new : BPlusNode) (key val : List Nat)
    (hc : 4 ≤ new.cap) :
    leafUpdate new emptyLeaf 0 key val = .error Fault.indexOutOfRange := by
  obtain ⟨n1, r1, len1, mem1, -, c1, -⟩ :=
    setHeader_spec new BNODE_LEAF 0 hc (by decide) (by decide)
  have hn : nkeys emptyLeaf = .ok 0 := by decide!
  have hc1 : 4 ≤ n1.cap := by
    unfold BPlusNode.cap at *
    omega
  have ha : nodeAppendRange n1 emptyLeaf 0 0 0 = .ok n1 := rfl
  unfold leafUpdate
  rw [hn]
  simp only [bind, Except.bind, r1, ha]
  rw [nodeAppendKV_last_fails n1 0 0 key val hc1 (by omega)]

theorem leafInsert_emptyLeaf (new : BPlusNode) (key val : List Nat)
    (hl : new.len ≤ new.cap) (hc : 14 ≤ new.len) :
    leafInsert new emptyLeaf 1 key val = .error Fault.indexOutOfRange := by
  obtain ⟨n1, r1, len1, mem1, -, c1, -⟩ :=
    setHeader_spec new BNODE_LEAF 1 (by omega) (by decide) (by decide)
  have hn : nkeys emptyLeaf = .ok 0 := by decide!
  have hce : count emptyLeaf = 0 := by decide!
  have hle : emptyLeaf.len = 4096 := by decide!
  have hme : emptyLeaf.mem.length = 4096 := by decide!
  have hl' : new.len ≤ new.mem.length := hl
  obtain ⟨n2, r2, len2, mem2, f2, -, -⟩ :=
    nodeAppendRange_bytes n1 emptyLeaf 0 0 1 (by unfold BPlusNode.cap; omega)
      (by unfold HEADER; omega) (by unfold HEADER; omega)
      (by unfold BPlusNode.cap; omega) (by unfold HEADER; omega) (by unfold HEADER; omega)
      (by omega) (by unfold HEADER; omega) (by unfold HEADER; omega)
  unfold HEADER at f2
  have c2 : count n2 = 1 := by
    rw [count_congr n2 n1 (f2 2 2 (by omega) (by omega)), c1]
  have hc2 : 4 ≤ n2.cap := by
    unfold BPlusNode.cap
    omega
  have hu : u16 (0 + 1) = 1 := rfl
  unfold leafInsert
  rw [hn]
  simp only [bind, Except.bind, hu, r1, r2]
  rw [nodeAppendKV_last_fails n2 1 0 key val hc2 (by omega)]

theorem treeInsert_leaf_insert {σ : Type} (tree : BPlusTree σ) (fuel : Nat) (st : σ)
    (leaf : BPlusNode) (idx : Nat) (key k val : List Nat)
    (hlk : nodeLookupLE leaf key = .ok idx) (hbt : btype leaf = .ok BNODE_LEAF)
    (hk : getKey leaf idx = .ok k) (hne : key ≠ k) :
    treeInsert tree fuel st leaf key val =
      (leafInsert (make (2 * BTREE_PAGE_SIZE)) leaf (u16 (idx + 1)) key val).map
        (fun new => (new, st)) := by
  have hbe : bytesEqual key k = false := by simp [bytesEqual, hne]
  cases fuel <;>
    simp only [treeInsert, treeInsertBody, hlk, hbt, hk, bind, Except.bind, if_true, hbe] <;>
    cases leafInsert (make (2 * BTREE_PAGE_SIZE)) leaf (u16 (idx + 1)) key val <;> rfl

/-- C1: on the empty leaf page `treeInsert` fails for every key and value:
`nodeLookupLE` answers 0, an empty key is updated at index 0 of a node with no
slot and any other key is inserted at index 1 of a node with one slot; either
way `setPtr` reports index out of range and `nodeAppendKV` panics on it. -/
theorem treeInsert_emptyLeaf_fails {σ : Type} (tree : BPlusTree σ) (fuel : Nat) (st : σ)
    (key val : List Nat) :
    treeInsert tree fuel st emptyLeaf key val = .error Fault.indexOutOfRange := by
  have hn : nkeys emptyLeaf = .ok 0 := by decide!
  have hb : btype emptyLeaf = .ok BNODE_LEAF := by decide!
  have hk : getKey emptyLeaf 0 = .ok [] := by decide!
  have hlk : nodeLookupLE emptyLeaf key = .ok 0 := by
    unfold nodeLookupLE
    rw [hn]
    rfl
  have hu : u16 (0 + 1) = 1 := rfl
  have hcap : (make (2 * BTREE_PAGE_SIZE)).len ≤ (make (2 * BTREE_PAGE_SIZE)).cap := by
    unfold BPlusNode.cap
    rw [make_len, make_mem_length]
  have hlen : 14 ≤ (make (2 * BTREE_PAGE_SIZE)).len := by
    rw [make_len]; decide
  by_cases hkey : key = []
  · subst hkey
    rw [treeInsert_leaf_update tree fuel st emptyLeaf 0 [] val hlk hb hk,
      leafUpdate_emptyLeaf _ [] val (by omega)]
    rfl
  · rw [treeInsert_leaf_insert tree fuel st emptyLeaf 0 key [] val hlk hb hk hkey, hu,
      leafInsert_emptyLeaf _ key val hcap hlen]
    rfl

/-! ## Index errors of the pointer and offset accessors -/

theorem setPtrIn_agrees (node : BPlusNode) (idx val : Nat) :
    setPtr node idx val =
      (setPtrIn node idx val).2.map (fun _ => (setPtrIn node idx val).1) := by
  unfold setPtr setPtrIn
  cases hn : nkeys node with
  | error e => rfl
  | ok n =>
    simp only [bind, Except.bind, pure, Except.pure, throw, throwThe, MonadExceptOf.throw]
    by_cases h : idx ≥ n
    · simp [h, Except.map]
    · by_cases hb : u16 (HEADER + 8 * idx) ≤ u16 (u16 (HEADER + 8 * idx) + 8) ∧
          u16 (u16 (HEADER + 8 * idx) + 8) ≤ node.cap ∧
          8 ≤ u16 (u16 (HEADER + 8 * idx) + 8) - u16 (HEADER + 8 * idx)
      · simp [h, hb, Except.map]
      · simp [h, hb, Except.map]

/-- Claim C12: on a node whose count field can be read (`nkeys() = n`, which a
buffer holding its pointer table ensures), `getPtr(idx)` returns the
index-out-of-range error exactly when `idx ≥ n`, `setPtr(idx, v)` returns it
exactly when `idx ≥ n`, and in that case `setPtr` leaves the buffer as it
was. -/
theorem ptr_accessors_index_error (node : BPlusNode) (n idx v : Nat)
    (hn : nkeys node = .ok n) :
    (getPtr node idx = .error Fault.indexOutOfRange ↔ idx ≥ n) ∧
    (setPtr node idx v = .error Fault.indexOutOfRange ↔ idx ≥ n) ∧
    ((setPtrIn node idx v).2 = .error Fault.indexOutOfRange ↔ idx ≥ n) ∧
    (idx ≥ n → (setPtrIn node idx v).1 = node) := by
  refine ⟨?_, ?_, ?_, ?_⟩
  · unfold getPtr sliceRange
    rw [hn]
    simp only [bind, Except.bind, pure, Except.pure, throw, throwThe, MonadExceptOf.throw]
    by_cases h : idx ≥ n
    · simp [h]
    · simp only [h, if_false, iff_false]
      by_cases hb : u16 (HEADER + 8 * idx) ≤ u16 (u16 (HEADER + 8 * idx) + 8) ∧
          u16 (u16 (HEADER + 8 * idx) + 8) ≤ node.cap
      · simp only [hb, and_self, if_true]
        split <;> simp
      · simp [hb]
  · unfold setPtr
    rw [hn]
    simp only [bind, Except.bind, pure, Except.pure, throw, throwThe, MonadExceptOf.throw]
    by_cases h : idx ≥ n
    · simp [h]
    · simp only [h, if_false, iff_false]
      split <;> simp
  · unfold setPtrIn
    rw [hn]
    by_cases h : idx ≥ n
    · simp [h]
    · simp only [h, if_false, iff_false]
      split <;> simp
  · intro h
    unfold setPtrIn
    rw [hn]
    simp [h]

theorem ptr_accessors_index_error_witness :
    nkeys internalM = .ok 2 ∧
    getPtr internalM 2 = .error Fault.indexOutOfRange ∧
    ¬ getPtr internalM 1 = .error Fault.indexOutOfRange ∧
    setPtr internalM 2 7 = .error Fault.indexOutOfRange ∧
    (setPtrIn internalM 2 7).1 = internalM :=
  ⟨by decide!,
    (ptr_accessors_index_error internalM 2 2 7 (by decide!)).1.mpr (by decide),
    fun h => absurd ((ptr_accessors_index_error internalM 2 1 7 (by decide!)).1.mp h)
      (by decide),
    (ptr_accessors_index_error internalM 2 2 7 (by decide!)).2.1.mpr (by decide),
    (ptr_accessors_index_error internalM 2 2 7 (by decide!)).2.2.2 (by decide)⟩

/-- Claim C13 (as written) fails at `idx = nkeys()`: on the leaf with the two
records `"a" → "x"` and `"c" → "z"`, `getOffset(2)` returns the end offset 12 of
the last record instead of an error. -/
theorem getOffset_at_count_succeeds :
    nkeys leafAC = .ok 2 ∧ getOffset leafAC 2 = .ok 12 := by
  decide!

/-- Claim C13 (amended): `getOffset(idx)` fails with the index-out-of-range
error for every index `idx > nkeys()`; index 0 always yields offset 0, and on a
buffer holding its tables `idx = nkeys()` is in range and yields the end offset
of the last record. -/
theorem getOffset_index_error (node : BPlusNode) (n idx : Nat)
    (hn : nkeys node = .ok n) :
    (idx > n → getOffset node idx = .error Fault.indexOutOfRange) ∧
    getOffset node 0 = .ok 0 ∧
    (node.len ≤ node.cap → HEADER + 10 * n < 65536 → HEADER + 10 * n ≤ node.len →
      getOffset node n = .ok (offsetAt node n)) := by
  have hc : 4 ≤ node.cap := by
    unfold nkeys getU16Range at hn
    split at hn
    · omega
    · cases hn
  have hcn : n = count node := by
    have := nkeys_ok node hc
    rw [hn] at this
    cases this; rfl
  refine ⟨?_, rfl, ?_⟩
  · intro h
    have h0 : idx ≠ 0 := by omega
    unfold getOffset offsetPos
    rw [hn]
    simp only [bind, Except.bind]
    have h2 : n < idx := h
    simp [h0, h2, throw, throwThe, MonadExceptOf.throw]
  · intro hl hh hs
    subst hcn
    exact getOffset_ok node hl hh hs _ (Nat.le_refl _)

theorem getOffset_index_error_witness :
    nkeys leafAC = .ok 2 ∧ getOffset leafAC 3 = .error Fault.indexOutOfRange ∧
    getOffset leafAC 2 = .ok (offsetAt leafAC 2) :=
  ⟨by decide!, (getOffset_index_error leafAC 2 3 (by decide!)).1 (by decide),
    (getOffset_index_error leafAC 2 3 (by decide!)).2.2 (by decide!) (by decide)
      (by decide!)⟩

/-! ## Page store calls of `treeInsert` -/

theorem bind_ok {ε α β : Type} (x : Except ε α) (f : α → Except ε β) (b : β)
    (h : (x >>= f) = .ok b) : ∃ a, x = .ok a ∧ f a = .ok b := by
  cases x with
  | error e => cases h
  | ok a => exact ⟨a, rfl, h⟩

theorem replaceKidsLoop_journal {σ : Type} (tree : BPlusTree σ) (idx : Nat)
    (kids : List BPlusNode) :
    ∀ (i : Nat) (st : σ) (jr : List StoreCall) (new : BPlusNode)
      (r : BPlusNode × σ × List StoreCall),
      replaceKidsLoop (journaled tree) idx kids i (st, jr) new = .ok r →
      ∃ ns, r.2.2 = jr ++ ns ∧ ∀ c ∈ ns, ∀ g, c ≠ StoreCall.get g := by
  induction kids with
  | nil =>
    intro i st jr new r h
    cases h
    exact ⟨[], by simp, by simp⟩
  | cons kid rest ih =>
    intro i st jr new r h
    unfold replaceKidsLoop at h
    simp only [journaled] at h
    obtain ⟨k, _, h⟩ := bind_ok _ _ _ h
    obtain ⟨new1, _, h⟩ := bind_ok _ _ _ h
    obtain ⟨ns, hns, hall⟩ := ih _ _ _ _ _ h
    refine ⟨StoreCall.new (tree.new st kid).1 :: ns, ?_, ?_⟩
    · rw [hns]; simp
    · intro c hc g
      rcases List.mem_cons.mp hc with h1 | h1
      · rw [h1]; intro h2; cases h2
      · exact hall c h1 g

theorem nodeReplaceKidNode_journal {σ : Type} (tree : BPlusTree σ) (st : σ)
    (jr : List StoreCall) (new old : BPlusNode) (idx : Nat) (kids : List BPlusNode)
    (r : BPlusNode × σ × List StoreCall)
    (h : nodeReplaceKidNode (journaled tree) (st, jr) new old idx kids = .ok r) :
    ∃ ns, r.2.2 = jr ++ ns ∧ ∀ c ∈ ns, ∀ g, c ≠ StoreCall.get g := by
  unfold nodeReplaceKidNode at h
  obtain ⟨oldN, _, h⟩ := bind_ok _ _ _ h
  obtain ⟨new1, _, h⟩ := bind_ok _ _ _ h
  obtain ⟨new2, _, h⟩ := bind_ok _ _ _ h
  obtain ⟨⟨new3, st3⟩, hloop, h⟩ := bind_ok _ _ _ h
  obtain ⟨new4, _, h⟩ := bind_ok _ _ _ h
  cases h
  exact replaceKidsLoop_journal tree idx kids 0 st jr new2 (new3, st3) hloop

theorem treeInsertBody_journal {σ : Type} (tree : BPlusTree σ)
    (descend : σ × List StoreCall → BPlusNode → List Nat → List Nat →
      Except Fault (BPlusNode × σ × List StoreCall))
    (hd : GetsThenRest descend) :
    GetsThenRest (treeInsertBody (journaled tree) descend) := by
  intro st jr node key val r h
  unfold treeInsertBody at h
  obtain ⟨idx, _, h⟩ := bind_ok _ _ _ h
  obtain ⟨bt, _, h⟩ := bind_ok _ _ _ h
  by_cases hleaf : bt = BNODE_LEAF
  · simp only [hleaf, if_true] at h
    obtain ⟨k, _, h⟩ := bind_ok _ _ _ h
    by_cases heq : bytesEqual key k = true
    · simp only [heq, if_true] at h
      obtain ⟨new1, _, h⟩ := bind_ok _ _ _ h
      cases h
      exact ⟨[], [], by simp, by simp, by simp⟩
    · simp only [heq] at h
      obtain ⟨new1, _, h⟩ := bind_ok _ _ _ h
      cases h
      exact ⟨[], [], by simp, by simp, by simp⟩
  · simp only [hleaf, if_false] at h
    by_cases hint : bt = BNODE_INTERNAL
    · simp only [hint, if_true] at h
      unfold nodeInsert at h
      obtain ⟨kptr, _, h⟩ := bind_ok _ _ _ h
      simp only [journaled] at h
      obtain ⟨⟨knode, st2⟩, hrec, h⟩ := bind_ok _ _ _ h
      obtain ⟨⟨nsplit, split⟩, _, h⟩ := bind_ok _ _ _ h
      obtain ⟨gs, ds, hshape, hgs, hds⟩ := hd _ _ _ _ _ _ hrec
      obtain ⟨ns, hns, hall⟩ := nodeReplaceKidNode_journal tree _ _ _ _ _ _ _ h
      simp only at hshape
      refine ⟨StoreCall.get kptr :: gs, ds ++ StoreCall.del kptr :: ns, ?_, ?_, ?_⟩
      · rw [hns, hshape]; simp
      · intro c hc
        rcases List.mem_cons.mp hc with h1 | h1
        · exact ⟨kptr, h1⟩
        · exact hgs c h1
      · intro c hc g
        rcases List.mem_append.mp hc with h1 | h1
        · exact hds c h1 g
        · rcases List.mem_cons.mp h1 with h2 | h2
          · rw [h2]; intro h3; cases h3
          · exact hall c h2 g
    · simp only [hint, if_false] at h
      cases h

theorem treeInsert_journal {σ : Type} (tree : BPlusTree σ) (fuel : Nat) :
    GetsThenRest (treeInsert (journaled tree) fuel) := by
  induction fuel with
  | zero =>
    unfold treeInsert
    apply treeInsertBody_journal
    intro st jr node key val r h
    cases h
  | succ fuel ih =>
    unfold treeInsert
    exact treeInsertBody_journal tree _ ih

/-- Claim C14: in the journal of the page store calls made by a `treeInsert`
that returns (any depth of recursion, any page store), no `get` call comes
after a `del` call. -/
theorem treeInsert_get_before_del {σ : Type} (tree : BPlusTree σ) (fuel : Nat) (st : σ)
    (node : BPlusNode) (key val : List Nat) (calls : List StoreCall)
    (h : (treeInsert (journaled tree) fuel (st, []) node key val).map (fun r => r.2.2) =
      .ok calls) :
    NoGetAfterDel calls := by
  cases hr : treeInsert (journaled tree) fuel (st, []) node key val with
  | error e => rw [hr] at h; cases h
  | ok r =>
    rw [hr] at h
    cases h
    obtain ⟨gs, ds, hshape, hgs, hds⟩ := treeInsert_journal tree fuel st [] node key val r hr
    intro pre post d hsplit g hg
    simp only [List.nil_append] at hshape
    simp only [] at hsplit
    rw [hshape] at hsplit
    -- the `del` lies in `ds`, and so does everything after it
    have hd : StoreCall.del d ∉ gs := by
      intro hm
      obtain ⟨g2, hg2⟩ := hgs _ hm
      cases hg2
    rcases List.append_eq_append_iff.mp hsplit with ⟨a, ha, hb⟩ | ⟨c, hc, hd2⟩
    · -- pre = gs ++ a, ds = a ++ del :: post
      exact hds _ (by rw [hb]; simp [hg]) g rfl
    · -- gs = pre ++ c, del :: post = c ++ ds
      cases c with
      | nil =>
        simp only [List.nil_append] at hd2
        exact hds _ (by rw [← hd2]; simp [hg]) g rfl
      | cons x c =>
        simp only [List.cons_append, List.cons.injEq] at hd2
        exact hd (by rw [hc, ← hd2.1]; simp)

theorem treeInsert_get_before_del_witness :
    (treeInsert (journaled twoLeafStore) 1 (0, []) internalM [110] [9]).map
        (fun r => r.2.2) =
      .ok [StoreCall.get 2, StoreCall.del 2, StoreCall.new 1] ∧
    NoGetAfterDel [StoreCall.get 2, StoreCall.del 2, StoreCall.new 1] :=
  ⟨by decide!,
    treeInsert_get_before_del twoLeafStore 1 0 internalM [110] [9] _ (by decide!)⟩

/-! ## Inserting a new record into a leaf -/

theorem leafInsert_spec (new old : BPlusNode) (idx : Nat) (key val : List Nat)
    (hnl : new.len ≤ new.mem.length) (hwf : WellFormed old) (hidx : idx ≤ count old)
    (hfit : 4 + 10 * (count old + 1) + offsetAt old idx + 4 + key.length + val.length
      ≤ new.len)
    (h16 : 4 + 10 * (count old + 1) + offsetAt old idx + 4 + key.length + val.length
      < 65536) :
    ∃ new', leafInsert new old idx key val = .ok new' ∧ new'.len = new.len ∧
      new'.mem.length = new.mem.length ∧
      kind new' = BNODE_LEAF ∧ count new' = count old + 1 ∧
      offsetAt new' idx = offsetAt old idx ∧
      rd new'.mem (4 + 10 * (count old + 1) + offsetAt old idx) 2 = leBytes 2 key.length ∧
      rd new'.mem (4 + 10 * (count old + 1) + offsetAt old idx + 2) 2 =
        leBytes 2 val.length ∧
      rd new'.mem (4 + 10 * (count old + 1) + offsetAt old idx + 4) key.length = key ∧
      rd new'.mem (4 + 10 * (count old + 1) + offsetAt old idx + 4 + key.length)
        val.length = val := by
  obtain ⟨ho1, -, ho3, ho4⟩ := wf_cap old hwf
  unfold HEADER at ho1 ho3
  have ho4' : old.len ≤ old.mem.length := ho4
  clear ho4
  -- header
  obtain ⟨n1, r1, len1, mem1, k1, c1, -⟩ :=
    setHeader_spec new BNODE_LEAF (count old + 1) (by unfold BPlusNode.cap; omega)
      (by decide) (by omega)
  -- prefix of the tables
  obtain ⟨n2, r2, len2, mem2, k2, c2, -, o2, -, -, -, -⟩ :=
    nodeAppendRange_view n1 old 0 0 idx (by omega) (by omega) (by omega) ho4' ho1 ho3
      (by omega) (by omega)
  have o2' : offsetAt n2 idx = offsetAt old idx := by
    by_cases h0 : idx = 0
    · subst h0; rfl
    · have h := o2 (idx - 1) (by omega)
      have e : 0 + (idx - 1) + 1 = idx := by omega
      rw [e] at h
      exact h
  have hrp2 : recPos n2 idx = 4 + 10 * (count old + 1) + offsetAt old idx := by
    unfold recPos HEADER; rw [c2, c1, o2']
  clear o2
  -- the record
  obtain ⟨n3, r3, len3, mem3, k3, c3, o3, -, -, -, -, b1, b2, b3, b4, -⟩ :=
    nodeAppendKV_view n2 idx 0 key val (by omega) (by omega)
      (by rw [hrp2]; omega) (by rw [hrp2]; omega)
  rw [hrp2] at b1 b2 b3 b4
  have o3' := o3 idx (Nat.le_refl _)
  clear o3
  -- suffix of the tables
  have hi1 : u16 (idx + 1) = idx + 1 := u16_eq _ (by omega)
  have hn1 : u16 (count old + 1) = count old + 1 := u16_eq _ (by omega)
  have hcnt : sub16 (count old) idx = count old - idx :=
    sub16_eq (count old) idx (by omega) (by omega)
  obtain ⟨n4, r4, len4, mem4, k4, c4, o4, -, -, -, -, f4⟩ :=
    nodeAppendRange_view n3 old (idx + 1) idx (count old - idx)
      (by omega) (by omega) (by omega) ho4' ho1 ho3 (by omega) (by omega)
  have o4' := o4 idx (Nat.le_succ _)
  clear o4
  have hq : 4 + 10 * count n3 ≤ 4 + 10 * (count old + 1) + offsetAt old idx := by omega
  refine ⟨n4, ?_, by omega, by omega, ?_, ?_, ?_, ?_, ?_, ?_, ?_⟩
  · unfold leafInsert
    rw [nkeys_eq old hwf]
    simp only [bind, Except.bind, hn1, r1, r2, r3, hi1, hcnt, r4]
  · rw [k4, k3, k2, k1]
  · rw [c4, c3, c2, c1]
  · rw [o4', o3', o2']
  · rw [f4 _ _ hq, b1]
  · rw [f4 _ _ (Nat.le_add_right_of_le hq), b2]
  · rw [f4 _ _ (Nat.le_add_right_of_le hq), b3]
  · rw [f4 _ _ (Nat.le_add_right_of_le (Nat.le_add_right_of_le hq)), b4]

/-- Claim C18 (as written) fails: inserting a key of 1001 bytes into the leaf
`"a" → "x"` does not fail; `treeInsert` returns a leaf of two records whose
record 1 holds the oversized key. -/
theorem treeInsert_accepts_oversized_key :
    BTREE_MAX_KEY_SIZE < (List.replicate 1001 98).length ∧
    (treeInsert noStore 0 () leafA (List.replicate 1001 98) [121]).map
        (fun r => (nkeys r.1, getKey r.1 1, getVal r.1 1)) =
      .ok (.ok 2, .ok (List.replicate 1001 98), .ok [121]) := by
  decide!

/-- Claim C18 (amended): `treeInsert` checks no size limit.  On a well-formed
leaf of at least one record and at most one page, with strictly ascending keys,
inserting any key the leaf does not hold, with any value, returns a leaf with
one more record that holds the key and the value, as long as the two together
take at most 4000 bytes: keys longer than 1000 bytes and values longer than
3000 bytes included. -/
theorem treeInsert_no_size_check {σ : Type} (tree : BPlusTree σ) (fuel : Nat) (st : σ)
    (leaf : BPlusNode) (n b : Nat) (key val : List Nat)
    (hwf : WellFormed leaf) (hasc : StrictAsc leaf)
    (hbt : btype leaf = .ok BNODE_LEAF) (hn : nkeys leaf = .ok n) (h1 : 1 ≤ n)
    (hb : nbytes leaf = .ok b) (hb4 : b ≤ BTREE_PAGE_SIZE)
    (hnew : ∀ i, i < n → getKey leaf i ≠ .ok key)
    (hsz : key.length + val.length ≤ 4000) :
    ∃ new i, treeInsert tree fuel st leaf key val = .ok (new, st) ∧
      btype new = .ok BNODE_LEAF ∧ nkeys new = .ok (n + 1) ∧ i ≤ n ∧
      getKey new i = .ok key ∧ getVal new i = .ok val := by
  rw [nkeys_eq leaf hwf] at hn
  cases hn
  rw [nbytes_eq leaf hwf] at hb
  cases hb
  unfold BTREE_PAGE_SIZE at hb4
  obtain ⟨res, hr, hor, -, -⟩ := nodeLookupLE_spec leaf key hwf hasc
  have hres : res < count leaf := by omega
  have hne : key ≠ keyAt leaf res := by
    intro h
    exact hnew res hres (by rw [getKey_eq leaf hwf res hres, h])
  have hcl := count_lt leaf
  have hmono := offsetAt_mono leaf hwf (res + 1) (count leaf) hres (Nat.le_refl _)
  have hsize : nodeSize leaf = 4 + 10 * count leaf + offsetAt leaf (count leaf) := rfl
  obtain ⟨new, hrun, hlen, hmem, hkind, hcount, hoff, b1, b2, b3, b4⟩ :=
    leafInsert_spec (make (2 * BTREE_PAGE_SIZE)) leaf (res + 1) key val
      (by rw [make_len, make_mem_length]) hwf hres
      (by rw [make_len]; unfold BTREE_PAGE_SIZE; omega) (by omega)
  rw [make_len] at hlen
  rw [make_mem_length] at hmem
  unfold BTREE_PAGE_SIZE at hlen hmem
  have hpos : recPos new (res + 1) =
      4 + 10 * (count leaf + 1) + offsetAt leaf (res + 1) := by
    unfold recPos HEADER; rw [hcount, hoff]
  have hkv : kvPos new (res + 1) =
      .ok (4 + 10 * (count leaf + 1) + offsetAt leaf (res + 1)) := by
    rw [kvPos_ok new (by unfold BPlusNode.cap; omega)
      (by rw [hcount, hoff]; unfold HEADER; omega)
      (by rw [hcount]; unfold HEADER; omega) (by omega), hpos]
  have hr1 : rawU16 new (4 + 10 * (count leaf + 1) + offsetAt leaf (res + 1)) =
      key.length := rawU16_of_bytes new _ _ b1 (by omega)
  have hr2 : rawU16 new (4 + 10 * (count leaf + 1) + offsetAt leaf (res + 1) + 2) =
      val.length := rawU16_of_bytes new _ _ b2 (by omega)
  refine ⟨new, res + 1, ?_, ?_, ?_, hres, ?_, ?_⟩
  · rw [treeInsert_leaf_insert tree fuel st leaf res key _ val hr hbt
      (getKey_eq leaf hwf res hres) hne, u16_eq _ (by omega), hrun]
    rfl
  · rw [btype_ok new (by unfold BPlusNode.cap; omega), hkind]
  · rw [nkeys_ok new (by unfold BPlusNode.cap; omega), hcount]
  · rw [getKey_ok new (res + 1) _ hkv (by unfold BPlusNode.cap; omega) (by omega)
      (by omega), hr1, b3]
  · rw [getVal_ok new (res + 1) _ hkv (by unfold BPlusNode.cap; omega) (by omega)
      (by omega), hr1, hr2, b4]

theorem treeInsert_no_size_check_witness :
    (List.replicate 1001 98).length + [121].length ≤ 4000 ∧
    ∃ new i, treeInsert noStore 0 () leafA (List.replicate 1001 98) [121] =
        .ok (new, ()) ∧
      btype new = .ok BNODE_LEAF ∧ nkeys new = .ok (1 + 1) ∧ i ≤ 1 ∧
      getKey new i = .ok (List.replicate 1001 98) ∧ getVal new i = .ok [121] :=
  ⟨by decide!, treeInsert_no_size_check noStore 0 () leafA 1 20 (List.replicate 1001 98)
    [121] (by decide!) (by decide!) (by decide!) (by decide!) (by decide) (by decide!)
    (by decide) (by decide!) (by decide!)⟩

/-- Claim C19: on the well-formed leaf `"a" → "x"`, `"c" → "z"` (36 bytes),
`leafInsert` of `"b" → "y"` at index 1 builds a node whose `nbytes()` is 46, not
`36 + 8 + 2 + 4 + 1 + 1 = 52`: the offset slots after the new record are copied
from the old node without adding the size of the new record. -/
theorem leafInsert_nbytes_stale :
    WellFormed leafAC ∧ nbytes leafAC = .ok 36 ∧ nkeys leafAC = .ok 2 ∧
    (leafInsert (make (2 * BTREE_PAGE_SIZE)) leafAC 1 [98] [121] >>= nbytes) = .ok 46 ∧
    (46 : Nat) ≠ 36 + 8 + 2 + 4 + [98].length + [121].length := by
  decide!

/-- Claim C20: on the well-formed internal node `"a" → 1`, `"m" → 2`, `"t" → 3`,
replacing entry 1 by the two kids `"m", "n"` and `"p"` (stored as pages 11 and
12) keeps the pointers of the other entries (entry 0 points to page 1, old
entry 2 is entry 3 and points to page 3) but not their keys: entries 0 and 3
read the empty key instead of `"a"` and `"t"`, because the records of the old
node are not copied. -/
theorem nodeReplaceKidNode_drops_keys :
    WellFormed internalAMT ∧ keysOf internalAMT = .ok [[97], [109], [116]] ∧
    (nodeReplaceKidNode idStore 10 (make (2 * BTREE_PAGE_SIZE)) internalAMT 1
        [leafMN, leafP]).map
      (fun r => (keysOf r.1, (List.range 4).map (getPtr r.1))) =
      .ok (.ok [[], [109], [112], []], [.ok 1, .ok 11, .ok 12, .ok 3]) := by
  decide!

/-! ## Building a node record by record -/

theorem appendAll_spec (entries : List (Nat × List Nat × List Nat)) (i : Nat)
    (node : BPlusNode) (hl : node.len ≤ node.mem.length)
    (hcnt : i + entries.length ≤ count node)
    (hfit : recPos node i + recordsSize entries ≤ node.len)
    (h16 : recPos node i + recordsSize entries < 65536) :
    ∃ node', appendAll node i entries = .ok node' ∧
      node'.len = node.len ∧ node'.mem.length = node.mem.length ∧
      kind node' = kind node ∧ count node' = count node ∧
      (∀ t, t ≤ i → offsetAt node' t = offsetAt node t) ∧
      (∀ j, j < i → ptrAt node' j = ptrAt node j) ∧
      recPos node' (i + entries.length) = recPos node i + recordsSize entries ∧
      (∀ q m, 4 + 10 * count node ≤ q → q + m ≤ recPos node i →
        rd node'.mem q m = rd node.mem q m) ∧
      (∀ j e, entries[j]? = some e →
        HasEntry node' (i + j) (e.1 % 2 ^ 64) e.2.1 e.2.2 ∧
        recPos node' (i + j) + 4 + e.2.1.length + e.2.2.length
          ≤ recPos node i + recordsSize entries) := by
  induction entries generalizing i node with
  | nil =>
    refine ⟨node, rfl, rfl, rfl, rfl, rfl, fun _ _ => rfl, fun _ _ => rfl, ?_,
      fun _ _ _ _ => rfl, ?_⟩
    · simp [recordsSize]
    · intro j e h; simp at h
  | cons en rest ih =>
    obtain ⟨ptr, key, val⟩ := en
    have hsz : recordsSize ((ptr, key, val) :: rest) =
        4 + key.length + val.length + recordsSize rest := by
      simp [recordsSize]
    rw [hsz] at hfit h16
    rw [hsz]
    simp only [List.length_cons] at hcnt
    have hrp : recPos node i = 4 + 10 * count node + offsetAt node i := rfl
    obtain ⟨n1, r1, len1, mem1, k1, c1, o1, o1s, -, p1, p1o, b1, b2, b3, b4, f1⟩ :=
      nodeAppendKV_view node i ptr key val hl (by omega) (by omega) (by omega)
    have hrp1 : recPos n1 (i + 1) = recPos node i + 4 + key.length + val.length := by
      unfold recPos HEADER
      rw [c1, o1s]
      omega
    obtain ⟨n2, r2, len2, mem2, k2, c2, o2, p2, rp2, f2, e2⟩ :=
      ih (i + 1) n1 (by omega) (by rw [c1]; omega) (by omega) (by omega)
    have hpos : recPos n2 i = recPos node i := by
      unfold recPos
      rw [c2, c1, o2 i (by omega), o1 i (Nat.le_refl _)]
    refine ⟨n2, ?_, by omega, by omega, by rw [k2, k1], by rw [c2, c1], ?_, ?_, ?_, ?_, ?_⟩
    · unfold appendAll
      simp only [bind, Except.bind, r1, r2]
    · intro t ht
      rw [o2 t (by omega), o1 t ht]
    · intro j hj
      rw [p2 j (by omega), p1o j (by omega) (by omega)]
    · simp only [List.length_cons]
      have e : i + (rest.length + 1) = i + 1 + rest.length := by omega
      rw [e]
      omega
    · intro q m hq hqm
      rw [f2 q m (by rw [c1]; exact hq) (by omega), f1 q m hq (Or.inl hqm)]
    · intro j e hj
      cases j with
      | zero =>
        simp only [List.getElem?_cons_zero, Option.some.injEq] at hj
        subst hj
        simp only [Nat.add_zero]
        unfold HasEntry
        rw [hpos]
        have hq : 4 + 10 * count n1 ≤ recPos node i := by rw [c1, hrp]; omega
        refine ⟨⟨?_, ?_, ?_, ?_, ?_⟩, by omega⟩
        · rw [p2 i (by omega), p1]
        · rw [f2 _ _ hq (by omega), b1]
        · rw [f2 _ _ (by omega) (by omega), b2]
        · rw [f2 _ _ (by omega) (by omega), b3]
        · rw [f2 _ _ (by omega) (by omega), b4]
      | succ j =>
        simp only [List.getElem?_cons_succ] at hj
        obtain ⟨h, hb⟩ := e2 j e hj
        have e' : i + 1 + j = i + (j + 1) := by omega
        rw [e'] at h hb
        exact ⟨h, by omega⟩

/-- Claim C11: codec round trip.  For records `(ptr_i, key_i, val_i)` with
64-bit pointers whose total encoded size fits the buffer and is below 65536, the
node built by `setHeader(kind, n)` and `nodeAppendKV(node, i, ...)` for
`i = 0 .. n-1` in order is built without a failure, `getKey(i)`, `getVal(i)` and
`getPtr(i)` return `key_i`, `val_i` and `ptr_i` for every `i < n`, and `nbytes()`
is the total encoded size. -/
theorem codec_round_trip (buf : BPlusNode) (kind : Nat)
    (entries : List (Nat × List Nat × List Nat))
    (hl : buf.len ≤ buf.cap) (hk : kind < 65536)
    (hp : ∀ e, e ∈ entries → e.1 < 2 ^ 64)
    (hfit : encodedSize entries ≤ buf.len) (h16 : encodedSize entries < 65536) :
    ∃ node, buildNode buf kind entries = .ok node ∧
      nbytes node = .ok (encodedSize entries) ∧
      ∀ i e, entries[i]? = some e →
        getKey node i = .ok e.2.1 ∧ getVal node i = .ok e.2.2 ∧
        getPtr node i = .ok e.1 := by
  unfold encodedSize at hfit h16
  unfold BPlusNode.cap at hl
  obtain ⟨n0, r0, len0, mem0, -, c0, -⟩ :=
    setHeader_spec buf kind entries.length (by unfold BPlusNode.cap; omega) hk (by omega)
  have hrp0 : recPos n0 0 = 4 + 10 * entries.length := by
    unfold recPos HEADER offsetAt
    rw [c0]
    simp
  obtain ⟨node, r1, len1, mem1, -, c1, -, -, rp1, -, e1⟩ :=
    appendAll_spec entries 0 n0 (by omega) (by omega) (by omega) (by omega)
  rw [c0] at c1
  rw [hrp0, Nat.zero_add] at rp1
  have hcap : node.len ≤ node.cap := by unfold BPlusNode.cap; omega
  have hrpn : recPos node entries.length =
      4 + 10 * count node + offsetAt node entries.length := rfl
  refine ⟨node, ?_, ?_, ?_⟩
  · unfold buildNode
    simp only [bind, Except.bind, r0, r1]
  · unfold nbytes
    rw [nkeys_ok node (by unfold BPlusNode.cap; omega)]
    simp only [bind, Except.bind]
    rw [kvPos_ok node hcap (by rw [c1]; unfold HEADER; omega)
      (by rw [c1]; unfold HEADER; omega) (Nat.le_refl _), c1, rp1]
    rfl
  · intro i e he
    have hi : i < entries.length := by
      by_contra hcon
      rw [List.getElem?_eq_none (by omega)] at he
      cases he
    have hmem : e ∈ entries := List.getElem?_mem he
    obtain ⟨⟨hptr, hb1, hb2, hb3, hb4⟩, hbound⟩ := e1 i e he
    rw [hrp0, Nat.zero_add] at hbound
    rw [Nat.zero_add] at hptr hb1 hb2 hb3 hb4
    have hrpi : recPos node i = 4 + 10 * count node + offsetAt node i := rfl
    have hkv : kvPos node i = .ok (recPos node i) :=
      kvPos_ok node hcap (by unfold HEADER; omega) (by rw [c1]; unfold HEADER; omega)
        (by omega)
    have hr1 : rawU16 node (recPos node i) = e.2.1.length :=
      rawU16_of_bytes node _ _ hb1 (by omega)
    have hr2 : rawU16 node (recPos node i + 2) = e.2.2.length :=
      rawU16_of_bytes node _ _ hb2 (by omega)
    refine ⟨?_, ?_, ?_⟩
    · rw [getKey_ok node i _ hkv hcap (by omega) (by omega), hr1, hb3]
    · rw [getVal_ok node i _ hkv hcap (by omega) (by omega), hr1, hr2, hb4]
    · rw [getPtr_ok node i (by omega) (by unfold HEADER BPlusNode.cap; omega)
        (by unfold HEADER; omega), hptr, Nat.mod_eq_of_lt (hp e hmem)]

theorem codec_round_trip_witness :
    encodedSize [(7, [97], [120]), (2 ^ 64 - 1, [98, 99], []), (0, [], [1, 2, 3])] = 53 ∧
    ∃ node, buildNode (make BTREE_PAGE_SIZE) BNODE_INTERNAL
        [(7, [97], [120]), (2 ^ 64 - 1, [98, 99], []), (0, [], [1, 2, 3])] = .ok node ∧
      nbytes node = .ok (encodedSize
        [(7, [97], [120]), (2 ^ 64 - 1, [98, 99], []), (0, [], [1, 2, 3])]) ∧
      ∀ i e, [(7, [97], [120]), (2 ^ 64 - 1, [98, 99], []), (0, [], [1, 2, 3])][i]? =
          some e →
        getKey node i = .ok e.2.1 ∧ getVal node i = .ok e.2.2 ∧
        getPtr node i = .ok e.1 :=
  ⟨by decide, codec_round_trip (make BTREE_PAGE_SIZE) BNODE_INTERNAL
    [(7, [97], [120]), (2 ^ 64 - 1, [98, 99], []), (0, [], [1, 2, 3])]
    (by rw [BPlusNode.cap, make_len, make_mem_length]) (by decide)
    (by decide) (by decide) (by decide)⟩

/-! ## In-memory B-tree: inserting -/

theorem sliceAfter_cases {α : Type} (s : List α) (lo : Int) :
    sliceAfter s lo = .error Fault.sliceBounds ∨ ∃ l, sliceAfter s lo = .ok l := by
  unfold sliceAfter
  split
  · exact Or.inr ⟨_, rfl⟩
  · exact Or.inl rfl

theorem sliceUpTo_cases {α : Type} (s : List α) (hi : Int) :
    sliceUpTo s hi = .error Fault.sliceBounds ∨
      ∃ l, sliceUpTo s hi = .ok l ∧ 0 ≤ hi ∧ (l.length : Int) = hi := by
  unfold sliceUpTo
  split
  · rename_i h
    refine Or.inr ⟨_, rfl, h.1, ?_⟩
    rw [List.length_take]
    omega
  · exact Or.inl rfl

theorem indexAt_length {α : Type} (s : List α) (i : Int) (h : (s.length : Int) = i) :
    indexAt s i = .error Fault.sliceBounds := by
  unfold indexAt
  split
  · rfl
  · rw [List.getElem?_eq_none (by omega)]

theorem splitChild_panics (t : BTree) (parent : BTreeNode) (i : Int)
    (fullChild : BTreeNode) :
    splitChild t parent i fullChild = .error Fault.sliceBounds := by
  unfold splitChild
  rcases sliceAfter_cases fullChild.keys t.minDegree with h1 | ⟨tailKeys, h1⟩
  · simp only [bind, Except.bind, h1]
  rcases sliceUpTo_cases fullChild.keys (wrapInt (t.minDegree - 1)) with
    h2 | ⟨fullKeys, h2, -, hlen⟩
  · simp only [bind, Except.bind, h1, h2]
  have hidx := indexAt_length fullKeys _ hlen
  simp only [bind, Except.bind, h1, h2, hidx]
  cases fullChild.isLeaf
  · simp only [Bool.not_false, if_true]
    rcases sliceAfter_cases fullChild.children t.minDegree with h3 | ⟨tailKids, h3⟩
    · simp only [h3]
    rcases sliceUpTo_cases fullChild.children t.minDegree with h4 | ⟨headKids, h4, -, -⟩
    · simp only [h3, h4]
    simp only [h3, h4, pure, Except.pure]
    rcases sliceUpTo_cases parent.children (wrapInt (i + 1)) with h5 | ⟨left, h5, -, -⟩
    · simp only [h5]
    rcases sliceAfter_cases parent.children (wrapInt (i + 1)) with h6 | ⟨right, h6⟩
    · simp only [h5, h6]
    rcases sliceUpTo_cases parent.keys i with h7 | ⟨keysLeft, h7, -, -⟩
    · simp only [h5, h6, h7]
    simp only [h5, h6, h7]
  · simp only [Bool.not_true, pure, Except.pure]
    rcases sliceUpTo_cases parent.children (wrapInt (i + 1)) with h5 | ⟨left, h5, -, -⟩
    · simp [h5]
    rcases sliceAfter_cases parent.children (wrapInt (i + 1)) with h6 | ⟨right, h6⟩
    · simp [h5, h6]
    rcases sliceUpTo_cases parent.keys i with h7 | ⟨keysLeft, h7, -, -⟩
    · simp [h5, h6, h7]
    simp [h5, h6, h7]

/-- Claim C16: `Insert` on a tree whose root is full (the test of `Insert`
itself, `root.n == 2*minDegree - 1`) does not build the split root: it ends in
the run-time panic of `splitChild`, which truncates `fullChild.keys` to
`minDegree - 1` keys before it reads the median `fullChild.keys[minDegree-1]`. -/
theorem Insert_full_root_panics (fuel : Nat) (t : BTree) (k : Int)
    (hfull : t.root.n = wrapInt (wrapInt (2 * t.minDegree) - 1)) :
    Insert fuel t k = .error Fault.sliceBounds := by
  unfold Insert
  simp only [hfull, if_true, bind, Except.bind, splitChild_panics]

theorem Insert_full_root_panics_witness :
    insertAll 0 (NewBTree 3) [10, 20, 5, 6, 12] = .ok fullRoot3 ∧
    fullRoot3.root.n = 2 * 3 - 1 ∧
    Insert 1 fullRoot3 30 = .error Fault.sliceBounds :=
  ⟨rfl, by decide, Insert_full_root_panics 1 fullRoot3 30 (by decide)⟩

theorem indexAt_ok (s : List Int) (m : Nat) (x : Int) (h : s[m]? = some x) :
    indexAt s (m : Int) = .ok x := by
  unfold indexAt
  have : ¬ ((m : Int) < 0) := by omega
  simp [this, h]

theorem scanDown_spec (keys : List Int) (k : Int) (m : Nat) (hm : m ≤ keys.length) :
    ∃ c : Nat, c ≤ m ∧ scanDown keys k m = .ok ((c : Int) - 1) ∧
      (∀ j x, c ≤ j → j < m → keys[j]? = some x → k < x) ∧
      (c = 0 ∨ ∃ x, keys[c - 1]? = some x ∧ ¬ k < x) := by
  induction m with
  | zero =>
    exact ⟨0, Nat.le_refl _, rfl, fun j x _ h => absurd h (Nat.not_lt_zero _), Or.inl rfl⟩
  | succ m ih =>
    have hlt : m < keys.length := hm
    have hx : keys[m]? = some keys[m] := List.getElem?_eq_getElem hlt
    unfold scanDown
    rw [indexAt_ok keys m _ hx]
    simp only [bind, Except.bind]
    by_cases hk : k < keys[m]
    · simp only [hk, if_true]
      obtain ⟨c, hc, hrun, hgt, hle⟩ := ih (by omega)
      refine ⟨c, by omega, hrun, ?_, hle⟩
      intro j x hcj hj hjx
      by_cases hjm : j = m
      · subst hjm
        rw [hx] at hjx
        cases hjx
        exact hk
      · exact hgt j x hcj (by omega) hjx
    · simp only [hk, if_false]
      refine ⟨m + 1, Nat.le_refl _, ?_, ?_, Or.inr ⟨keys[m], ?_, hk⟩⟩
      · simp [pure, Except.pure]
      · intro j x h1 h2
        omega
      · simp

theorem scanFrom_length (keys : List Int) (k : Int) :
    scanFrom keys k ((keys.length : Int) - 1) = scanDown keys k keys.length := by
  unfold scanFrom
  by_cases h : keys.length = 0
  · have h2 : ((keys.length : Int) - 1) < 0 := by omega
    simp only [h2, if_true]
    rw [h]
    rfl
  · have h2 : ¬ ((keys.length : Int) - 1) < 0 := by omega
    simp only [h2, if_false]
    congr 1
    omega

theorem insert_sorted (keys : List Int) (k : Int) (c : Nat) (hc : c ≤ keys.length)
    (hs : keys.Sorted (· ≤ ·))
    (hgt : ∀ j x, c ≤ j → j < keys.length → keys[j]? = some x → k < x)
    (hle : c = 0 ∨ ∃ x, keys[c - 1]? = some x ∧ ¬ k < x) :
    (keys.take c ++ k :: keys.drop c).Sorted (· ≤ ·) := by
  have hsplit : (keys.take c ++ keys.drop c).Sorted (· ≤ ·) := by
    rw [List.take_append_drop]; exact hs
  obtain ⟨hst, hsd, hcross⟩ := List.pairwise_append.mp hsplit
  have hright : ∀ b, b ∈ keys.drop c → k ≤ b := by
    intro b hb
    obtain ⟨j, hj⟩ := List.mem_iff_getElem?.mp hb
    rw [List.getElem?_drop] at hj
    have hjl : c + j < keys.length := by
      by_contra hcon
      rw [List.getElem?_eq_none (by omega)] at hj
      cases hj
    exact Int.le_of_lt (hgt (c + j) b (by omega) hjl hj)
  have hleft : ∀ a, a ∈ keys.take c → a ≤ k := by
    intro a ha
    rcases hle with h0 | ⟨x, hx, hkx⟩
    · subst h0
      simp at ha
    · have hc0 : c ≠ 0 := by
        intro h0
        subst h0
        simp at ha
      have hxk : x ≤ k := Int.not_lt.mp hkx
      have htake : keys.take c = keys.take (c - 1) ++ [x] := by
        have h1 : c = (c - 1) + 1 := by omega
        rw [h1, List.take_succ]
        simp [hx]
      rw [htake] at ha hst
      rcases List.mem_append.mp ha with h1 | h1
      · have := (List.pairwise_append.mp hst).2.2 a h1 x (by simp)
        omega
      · simp at h1
        omega
  refine List.pairwise_append.mpr ⟨hst, ?_, ?_⟩
  · exact List.pairwise_cons.mpr ⟨hright, hsd⟩
  · intro a ha b hb
    rcases List.mem_cons.mp hb with h1 | h1
    · rw [h1]; exact hleft a ha
    · exact hcross a ha b h1

theorem insertNonFull_leaf (t : BTree) (fuel : Nat) (keys : List Int)
    (kids : List BTreeNode) (k : Int)
    (hlen : (keys.length : Int) < 9223372036854775807)
    (hs : keys.Sorted (· ≤ ·)) :
    ∃ keys', insertNonFull t fuel (.mk keys kids true keys.length) k =
        .ok (.mk keys' kids true ((keys.length : Int) + 1)) ∧
      keys'.Sorted (· ≤ ·) ∧ keys'.Perm (k :: keys) := by
  obtain ⟨c, hc, hrun, hgt, hle⟩ := scanDown_spec keys k keys.length (Nat.le_refl _)
  have hw1 : wrapInt ((keys.length : Int) - 1) = (keys.length : Int) - 1 := by
    unfold wrapInt; omega
  have hw2 : wrapInt ((c : Int) - 1 + 1) = (c : Int) := by
    unfold wrapInt; omega
  have hw3 : wrapInt ((keys.length : Int) + 1) = (keys.length : Int) + 1 := by
    unfold wrapInt; omega
  have hup : sliceUpTo keys (c : Int) = .ok (keys.take c) := by
    unfold sliceUpTo
    have : 0 ≤ (c : Int) ∧ (c : Int) ≤ keys.length := ⟨by omega, by omega⟩
    simp [this]
  have hafter : sliceAfter keys (c : Int) = .ok (keys.drop c) := by
    unfold sliceAfter
    have : 0 ≤ (c : Int) ∧ (c : Int) ≤ keys.length := ⟨by omega, by omega⟩
    simp [this]
  refine ⟨keys.take c ++ k :: keys.drop c, ?_, insert_sorted keys k c hc hs hgt hle, ?_⟩
  · cases fuel <;>
    · unfold insertNonFull insertNonFullBody
      simp only [BTreeNode.isLeaf, BTreeNode.n, BTreeNode.keys, BTreeNode.children,
        Bool.not_true, hw1, scanFrom_length, hrun, bind, Except.bind, hw2, hup, hafter,
        hw3]
      rfl
  · have h : (keys.take c ++ k :: keys.drop c).Perm (k :: (keys.take c ++ keys.drop c)) :=
      List.perm_middle
    rw [List.take_append_drop] at h
    exact h

theorem Insert_leaf (fuel : Nat) (d : Int) (keys : List Int) (kids : List BTreeNode)
    (k : Int) (hd : d < 9223372036854775808)
    (hroom : (keys.length : Int) + 1 ≤ 2 * d - 1)
    (hlen : (keys.length : Int) < 9223372036854775807)
    (hs : keys.Sorted (· ≤ ·)) :
    ∃ keys', Insert fuel ⟨.mk keys kids true keys.length, d⟩ k =
        .ok ⟨.mk keys' kids true ((keys.length : Int) + 1), d⟩ ∧
      keys'.Sorted (· ≤ ·) ∧ keys'.Perm (k :: keys) := by
  obtain ⟨keys', hrun, hs', hp⟩ :=
    insertNonFull_leaf ⟨.mk keys kids true keys.length, d⟩ fuel keys kids k hlen hs
  have hnf : ¬ ((keys.length : Int) = wrapInt (wrapInt (2 * d) - 1)) := by
    unfold wrapInt; omega
  refine ⟨keys', ?_, hs', hp⟩
  unfold Insert
  simp only [BTreeNode.n, hnf, if_false, bind, Except.bind, hrun]
  rfl

theorem insertAll_leaf_aux (fuel : Nat) (d : Int) (kids : List BTreeNode)
    (hd : d < 9223372036854775808) (ks : List Int) :
    ∀ keys : List Int, keys.Sorted (· ≤ ·) →
      (keys.length : Int) + ks.length ≤ 2 * d - 1 →
      (keys.length : Int) + ks.length < 9223372036854775808 →
      ∃ keys', insertAll fuel ⟨.mk keys kids true keys.length, d⟩ ks =
          .ok ⟨.mk keys' kids true ((keys.length : Int) + ks.length), d⟩ ∧
        keys'.Sorted (· ≤ ·) ∧ keys'.Perm (ks ++ keys) := by
  induction ks with
  | nil =>
    intro keys hs _ _
    refine ⟨keys, ?_, hs, List.Perm.refl _⟩
    simp [insertAll, pure, Except.pure]
  | cons k rest ih =>
    intro keys hs hroom hlen
    simp only [List.length_cons, Nat.cast_add, Nat.cast_one] at hroom hlen
    obtain ⟨keys1, hrun1, hs1, hp1⟩ :=
      Insert_leaf fuel d keys kids k hd (by omega) (by omega) hs
    have hl1 : keys1.length = keys.length + 1 := by
      rw [hp1.length_eq]; rfl
    have hcast : ((keys1.length : Nat) : Int) = (keys.length : Int) + 1 := by
      rw [hl1]; push_cast; rfl
    obtain ⟨keys2, hrun2, hs2, hp2⟩ := ih keys1 hs1 (by omega) (by omega)
    rw [hcast] at hrun2
    refine ⟨keys2, ?_, hs2, ?_⟩
    · unfold insertAll
      simp only [bind, Except.bind, hrun1, hrun2, List.length_cons, Nat.cast_add,
        Nat.cast_one]
      congr 3
      omega
    · refine hp2.trans ?_
      have h1 : (rest ++ keys1).Perm (rest ++ k :: keys) := List.Perm.append_left rest hp1
      exact h1.trans List.perm_middle

/-- Claim C17: inserting at most `2t - 1` keys one by one with `Insert` into
`NewBTree(t)` returns without a failure and leaves the root a leaf whose `n` is
the number of keys inserted and whose `keys` are the inserted keys in ascending
order (`t` and the number of keys being Go `int` values; `t ≥ 1` follows from
the bound on the number of keys). -/
theorem insertAll_leaf (fuel : Nat) (t : Int) (keys : List Int)
    (ht : t < 9223372036854775808)
    (hroom : (keys.length : Int) ≤ 2 * t - 1)
    (hlen : (keys.length : Int) < 9223372036854775808) :
    ∃ tree, insertAll fuel (NewBTree t) keys = .ok tree ∧
      tree.minDegree = t ∧ tree.root.isLeaf = true ∧ tree.root.children = [] ∧
      tree.root.n = keys.length ∧
      tree.root.keys.Sorted (· ≤ ·) ∧ tree.root.keys.Perm keys := by
  obtain ⟨keys', hrun, hs, hp⟩ :=
    insertAll_leaf_aux fuel t [] ht keys [] List.sorted_nil
      (by simpa using hroom) (by simpa using hlen)
  refine ⟨_, hrun, rfl, rfl, rfl, ?_, hs, ?_⟩
  · simp [BTreeNode.n]
  · simpa using hp

theorem insertAll_leaf_witness :
    (([10, 20, 5, 6, 12] : List Int).length : Int) ≤ 2 * 3 - 1 ∧
    ∃ tree, insertAll 0 (NewBTree 3) [10, 20, 5, 6, 12] = .ok tree ∧
      tree.minDegree = 3 ∧ tree.root.isLeaf = true ∧ tree.root.children = [] ∧
      tree.root.n = ([10, 20, 5, 6, 12] : List Int).length ∧
      tree.root.keys.Sorted (· ≤ ·) ∧ tree.root.keys.Perm [10, 20, 5, 6, 12] :=
  ⟨by decide, insertAll_leaf 0 3 [10, 20, 5, 6, 12] (by decide) (by decide) (by decide)⟩

/-! ## Agreement of the two forms of the insert orchestrator -/

theorem replaceKidsLoopRun_agrees {σ : Type} (tree : BPlusTree σ) (idx : Nat)
    (kids : List BPlusNode) :
    ∀ (i : Nat) (st : σ) (new : BPlusNode),
      replaceKidsLoop tree idx kids i st new =
        dropFailedState (replaceKidsLoopRun tree idx kids i st new) := by
  induction kids with
  | nil => intro i st new; rfl
  | cons kid rest ih =>
    intro i st new
    unfold replaceKidsLoop replaceKidsLoopRun
    simp only [bind, Except.bind]
    cases getKey kid 0 with
    | error e => rfl
    | ok k =>
      simp only []
      cases nodeAppendKV new (u16 (idx + u16 i)) (tree.new st kid).1 k [] with
      | error e => rfl
      | ok new1 => exact ih _ _ _

theorem nodeReplaceKidNodeRun_agrees {σ : Type} (tree : BPlusTree σ) (st : σ)
    (new old : BPlusNode) (idx : Nat) (kids : List BPlusNode) :
    nodeReplaceKidNode tree st new old idx kids =
      dropFailedState (nodeReplaceKidNodeRun tree st new old idx kids) := by
  unfold nodeReplaceKidNode nodeReplaceKidNodeRun
  simp only [bind, Except.bind]
  cases nkeys old with
  | error e => rfl
  | ok oldN =>
    simp only []
    cases setHeader new BNODE_INTERNAL (sub16 (u16 (oldN + u16 kids.length)) 1) with
    | error e => rfl
    | ok new1 =>
      simp only []
      cases nodeAppendRange new1 old 0 0 idx with
      | error e => rfl
      | ok new2 =>
        simp only [pure, Except.pure]
        rw [replaceKidsLoopRun_agrees]
        cases hloop : replaceKidsLoopRun tree idx kids 0 st new2 with
        | mk r st2 =>
          cases r with
          | error e => rfl
          | ok new3 =>
            simp only [dropFailedState, Except.map]

theorem nodeInsertRun_agrees {σ : Type} (tree : BPlusTree σ)
    (descend : σ → BPlusNode → List Nat → List Nat → Except Fault (BPlusNode × σ))
    (descendRun : σ → BPlusNode → List Nat → List Nat → Except Fault BPlusNode × σ)
    (hd : ∀ st node key val, descend st node key val =
      dropFailedState (descendRun st node key val))
    (st : σ) (new old : BPlusNode) (idx : Nat) (key val : List Nat) :
    nodeInsert tree descend st new old idx key val =
      dropFailedState (nodeInsertRun tree descendRun st new old idx key val) := by
  unfold nodeInsert nodeInsertRun
  simp only [bind, Except.bind]
  cases getPtr old idx with
  | error e => rfl
  | ok kptr =>
    simp only []
    rw [hd]
    cases hrec : descendRun (tree.get st kptr).2 (tree.get st kptr).1 key val with
    | mk r st2 =>
      cases r with
      | error e => rfl
      | ok knode =>
        simp only [dropFailedState, Except.map]
        cases nodeSplit3 knode with
        | error e => rfl
        | ok sp =>
          simp only []
          rw [nodeReplaceKidNodeRun_agrees]
          rfl

theorem treeInsertBodyRun_agrees {σ : Type} (tree : BPlusTree σ)
    (descend : σ → BPlusNode → List Nat → List Nat → Except Fault (BPlusNode × σ))
    (descendRun : σ → BPlusNode → List Nat → List Nat → Except Fault BPlusNode × σ)
    (hd : ∀ st node key val, descend st node key val =
      dropFailedState (descendRun st node key val))
    (st : σ) (node : BPlusNode) (key val : List Nat) :
    treeInsertBody tree descend st node key val =
      dropFailedState (treeInsertBodyRun tree descendRun st node key val) := by
  unfold treeInsertBody treeInsertBodyRun
  simp only [bind, Except.bind]
  cases nodeLookupLE node key with
  | error e => rfl
  | ok idx =>
    simp only []
    cases btype node with
    | error e => rfl
    | ok bt =>
      simp only [pure, Except.pure]
      by_cases hleaf : bt = BNODE_LEAF
      · simp only [hleaf, if_true]
        cases getKey node idx with
        | error e => rfl
        | ok k =>
          simp only [dropFailedState]
          cases bytesEqual key k
          · simp only [Bool.false_eq_true, if_false]
            cases leafInsert (make (2 * BTREE_PAGE_SIZE)) node (u16 (idx + 1)) key val <;> rfl
          · simp only [if_true]
            cases leafUpdate (make (2 * BTREE_PAGE_SIZE)) node idx key val <;> rfl
      · by_cases hint : bt = BNODE_INTERNAL
        · simp only [hleaf, hint, if_false, if_true]
          exact nodeInsertRun_agrees tree descend descendRun hd _ _ _ _ _ _
        · simp only [hleaf, hint, if_false]
          rfl

theorem treeInsertRun_agrees {σ : Type} (tree : BPlusTree σ) (fuel : Nat) :
    ∀ (st : σ) (node : BPlusNode) (key val : List Nat),
      treeInsert tree fuel st node key val =
        dropFailedState (treeInsertRun tree fuel st node key val) := by
  induction fuel with
  | zero =>
    intro st node key val
    unfold treeInsert treeInsertRun
    exact treeInsertBodyRun_agrees tree (fun _ _ _ _ => .error Fault.fuel)
      (fun st _ _ _ => (.error Fault.fuel, st)) (fun _ _ _ _ => rfl) st node key val
  | succ fuel ih =>
    intro st node key val
    unfold treeInsert treeInsertRun
    exact treeInsertBodyRun_agrees tree _ _ ih st node key val

theorem treeInsertRun_unknown {σ : Type} (tree : BPlusTree σ) (fuel : Nat) (st : σ)
    (node : BPlusNode) (key val : List Nat) (bt : Nat) (hbt : btype node = .ok bt)
    (h1 : bt ≠ BNODE_INTERNAL) (h2 : bt ≠ BNODE_LEAF) :
    ∃ e, treeInsertRun tree fuel st node key val = (.error e, st) := by
  cases hl : nodeLookupLE node key with
  | error e =>
    refine ⟨e, ?_⟩
    cases fuel <;>
    · unfold treeInsertRun treeInsertBodyRun
      simp only [bind, Except.bind, hl]
  | ok idx =>
    refine ⟨Fault.unknownType, ?_⟩
    cases fuel <;>
    · unfold treeInsertRun treeInsertBodyRun
      simp only [bind, Except.bind, hl, hbt, pure, Except.pure, h1, h2, if_false]

/-- Claim C15: on a node whose kind field is neither 1 (Internal) nor 2 (Leaf),
`treeInsert` ends in a failure and returns no node, whatever the store, its
state and the recursion budget; and the run makes no call to the page store: on
a store that journals its calls, the store state and the journal at the end of
the failed run are those at its start, so not one `new`, `del` or `get` was
called. -/
theorem treeInsert_unknown_kind {σ : Type} (tree : BPlusTree σ) (fuel : Nat) (st : σ)
    (calls : List StoreCall) (node : BPlusNode) (key val : List Nat) (bt : Nat)
    (hbt : btype node = .ok bt)
    (h1 : bt ≠ BNODE_INTERNAL) (h2 : bt ≠ BNODE_LEAF) :
    ∃ e, treeInsertRun (journaled tree) fuel (st, calls) node key val =
        (.error e, (st, calls)) ∧
      treeInsert (journaled tree) fuel (st, calls) node key val = .error e ∧
      treeInsert tree fuel st node key val = .error e := by
  obtain ⟨e, he⟩ :=
    treeInsertRun_unknown (journaled tree) fuel (st, calls) node key val bt hbt h1 h2
  obtain ⟨e2, he2⟩ := treeInsertRun_unknown tree fuel st node key val bt hbt h1 h2
  have hsame : e2 = e := by
    cases hl : nodeLookupLE node key with
    | error e3 =>
      cases fuel <;>
      · unfold treeInsertRun treeInsertBodyRun at he he2
        simp only [bind, Except.bind, hl] at he he2
        cases he
        cases he2
        rfl
    | ok idx =>
      cases fuel <;>
      · unfold treeInsertRun treeInsertBodyRun at he he2
        simp only [bind, Except.bind, hl, hbt, pure, Except.pure, h1, h2, if_false] at he he2
        cases he
        cases he2
        rfl
  subst hsame
  refine ⟨e2, he, ?_, ?_⟩
  · rw [treeInsertRun_agrees, he]; rfl
  · rw [treeInsertRun_agrees, he2]; rfl

theorem treeInsert_unknown_kind_witness :
    btype kind7 = .ok 7 ∧
    ∃ e, treeInsertRun (journaled idStore) 3 (0, [StoreCall.get 5]) kind7 [97] [120] =
        (.error e, (0, [StoreCall.get 5])) ∧
      treeInsert (journaled idStore) 3 (0, [StoreCall.get 5]) kind7 [97] [120] = .error e ∧
      treeInsert idStore 3 0 kind7 [97] [120] = .error e :=
  ⟨by decide!, treeInsert_unknown_kind idStore 3 0 [StoreCall.get 5] kind7 [97] [120] 7
    (by decide!) (by decide) (by decide)⟩

/-- The state-keeping form on a run that does call the store: inserting `"n"`
below the internal page `internalM` returns, and the journal at the end of the
run holds its three calls. -/
theorem treeInsertRun_journal_example :
    (treeInsertRun (journaled twoLeafStore) 1 (0, []) internalM [110] [9]).2 =
      (1, [StoreCall.get 2, StoreCall.del 2, StoreCall.new 1]) := by
  decide!

/-- The state-keeping form on a failed run that did call the store: below the
internal page `internalM` the store `idStore` hands out the `nil` page, on which
the lookup panics; the journal at the end of the failed run holds the `get`. -/
theorem treeInsertRun_failed_run_example :
    treeInsertRun (journaled idStore) 1 (0, []) internalM [110] [9] =
      (.error Fault.sliceBounds, (0, [StoreCall.get 2])) := by
  decide!

end btrees
